import Mathlib

/-!
# Maximum flow by augmenting paths: `bfs.cpp` (Edmonds-Karp) and `dfs.cpp` (Ford-Fulkerson)

Shallow embedding of the two `FlowNetwork` classes of the repository.

* `vector<vector<int>> capacity` is a function `Nat → Nat → Int`, `vector<int> parent` a
  function `Nat → Int`, `vector<bool> visited` a function `Nat → Bool`, `queue<int>` a list.
* `int` arithmetic that can leave the 32-bit range (`+=`, `-=`) is wrapped by `wrap32`.
* Unbounded loops (`while`, the parent walks, the recursion of `findPath`) take a fuel
  argument and return `none` when it runs out; a walk that would index with `-1` returns
  `none` as well.
-/

namespace FlowNet

/-- `INT_MAX` of `<climits>` for a 32-bit `int`. -/
def INT_MAX : Int := 2147483647

/-- Two's-complement wrap-around of an integer into the range of a 32-bit signed `int`. -/
def wrap32 (x : Int) : Int := (x + 2147483648) % 4294967296 - 2147483648

/-- The class `FlowNetwork`: `nodeCount` and the residual capacity matrix. -/
structure FlowNetwork where
  nodeCount : Nat
  capacity : Nat → Nat → Int

/-- Assignment `a[i] = x` to a vector. -/
def setVec {α : Type} (a : Nat → α) (i : Nat) (x : α) : Nat → α :=
  fun j => if j = i then x else a j

/-- Assignment `m[i][j] = x` to a matrix. -/
def setCell (m : Nat → Nat → Int) (i j : Nat) (x : Int) : Nat → Nat → Int :=
  fun a b => if a = i ∧ b = j then x else m a b

/-- Constructor `FlowNetwork(int nodes)`: a `nodes × nodes` matrix of zeros. -/
def FlowNetwork.create (nodes : Nat) : FlowNetwork :=
  { nodeCount := nodes, capacity := fun _ _ => 0 }

/-- Method `addEdge(from, to, cap)`: `capacity[from][to] = cap`. -/
def FlowNetwork.addEdge (net : FlowNetwork) (src dst : Nat) (cap : Int) : FlowNetwork :=
  { net with capacity := setCell net.capacity src dst cap }

/-- The sequence of `addEdge` calls of `main`, applied to a network. -/
def FlowNetwork.addEdges (net : FlowNetwork) : List (Nat × Nat × Int) → FlowNetwork
  | [] => net
  | (u, v, c) :: rest => (net.addEdge u v c).addEdges rest

/-- First walk of `getMaxFlow`:
`for (node = sink; node != source; node = parent[node]) pathFlow = min(pathFlow, capacity[parent[node]][node])`. -/
def pathFlowLoop (cap : Nat → Nat → Int) (parent : Nat → Int) (source : Nat) :
    Nat → Nat → Int → Option Int
  | 0, _, _ => none
  | fuel + 1, node, pathFlow =>
    if node = source then some pathFlow
    else if parent node < 0 then none
    else pathFlowLoop cap parent source fuel (parent node).toNat
      (min pathFlow (cap (parent node).toNat node))

/-- Second walk of `getMaxFlow`:
`capacity[parent[node]][node] -= pathFlow; capacity[node][parent[node]] += pathFlow`. -/
def updateLoop (parent : Nat → Int) (source : Nat) (pathFlow : Int) :
    Nat → Nat → (Nat → Nat → Int) → Option (Nat → Nat → Int)
  | 0, _, _ => none
  | fuel + 1, node, cap =>
    if node = source then some cap
    else if parent node < 0 then none
    else
      let p := (parent node).toNat
      let cap1 := setCell cap p node (wrap32 (cap p node - pathFlow))
      let cap2 := setCell cap1 node p (wrap32 (cap1 node p + pathFlow))
      updateLoop parent source pathFlow fuel p cap2

/-- Body of the augmenting loop after a successful search (the same text in both files):
bottleneck from `INT_MAX`, then the residual update. Returns `pathFlow` and the new network. -/
def augment (fuel : Nat) (net : FlowNetwork) (parent : Nat → Int) (source sink : Nat) :
    Option (Int × FlowNetwork) :=
  match pathFlowLoop net.capacity parent source fuel sink INT_MAX with
  | none => none
  | some pathFlow =>
    match updateLoop parent source pathFlow fuel sink net.capacity with
    | none => none
    | some cap => some (pathFlow, { net with capacity := cap })

/-- Variables of `getMaxFlow` that live across iterations of its loop (`capacity` is a
member of the object, `parent` and `maxFlow` are locals declared before the loop). -/
structure LoopState where
  net : FlowNetwork
  parent : Nat → Int
  maxFlow : Int

/-- One evaluation of the loop of `getMaxFlow`, the path search being `search`:
`none` when a fuel ran out, `some none` when the loop exits (no path), otherwise the state
after the augmentation. The text of the body is the same in bfs.cpp and dfs.cpp. -/
def iteration (search : FlowNetwork → (Nat → Int) → Option (Bool × (Nat → Int)))
    (inner : Nat) (source sink : Nat) (st : LoopState) : Option (Option LoopState) :=
  match search st.net st.parent with
  | none => none
  | some (false, _) => some none
  | some (true, parent1) =>
    match augment inner st.net parent1 source sink with
    | none => none
    | some (pathFlow, net1) =>
      some (some { net := net1, parent := parent1, maxFlow := wrap32 (st.maxFlow + pathFlow) })

/-- The augmenting loop of `getMaxFlow`; on exit `return maxFlow`, paired with the network
left behind. -/
def maxFlowLoop (search : FlowNetwork → (Nat → Int) → Option (Bool × (Nat → Int)))
    (inner : Nat) (source sink : Nat) : Nat → LoopState → Option (Int × FlowNetwork)
  | 0, _ => none
  | fuel + 1, st =>
    match iteration search inner source sink st with
    | none => none
    | some none => some (st.maxFlow, st.net)
    | some (some st1) => maxFlowLoop search inner source sink fuel st1

/-- The loop state after `k` augmentations, when the loop performs that many. -/
def stateAfter (search : FlowNetwork → (Nat → Int) → Option (Bool × (Nat → Int)))
    (inner : Nat) (source sink : Nat) : Nat → LoopState → Option LoopState
  | 0, st => some st
  | k + 1, st =>
    match iteration search inner source sink st with
    | some (some st1) => stateAfter search inner source sink k st1
    | _ => none

/-- State of `getMaxFlow` on entry: `maxFlow = 0`, `parent` filled with `-1`. -/
def initState (net : FlowNetwork) : LoopState :=
  { net := net, parent := fun _ => -1, maxFlow := 0 }

namespace Bfs

/-- Local state of `bfsFindPath`. -/
structure State where
  queue : List Nat
  visited : Nat → Bool
  parent : Nat → Int

/-- The `for (next = ...; next < nodeCount; next++)` loop of `bfsFindPath` over the remaining
values of `next`; the flag is `true` when the `return true` was taken. -/
def scan (cap : Nat → Nat → Int) (sink current : Nat) : List Nat → State → Bool × State
  | [], st => (false, st)
  | next :: rest, st =>
    if (!st.visited next) && decide (0 < cap current next) then
      if next = sink then
        (true, { st with parent := setVec st.parent next (current : Int) })
      else
        scan cap sink current rest
          { queue := st.queue ++ [next]
            parent := setVec st.parent next (current : Int)
            visited := setVec st.visited next true }
    else scan cap sink current rest st

/-- The `while (!q.empty())` loop of `bfsFindPath`. -/
def loop (net : FlowNetwork) (sink : Nat) : Nat → State → Option (Bool × (Nat → Int))
  | 0, _ => none
  | fuel + 1, st =>
    match st.queue with
    | [] => some (false, st.parent)
    | current :: q =>
      match scan net.capacity sink current (List.range net.nodeCount)
          { st with queue := q } with
      | (true, st1) => some (true, st1.parent)
      | (false, st1) => loop net sink fuel st1

/-- Method `bfsFindPath(start, sink, parent)` of bfs.cpp; returns the flag and `parent`. -/
def bfsFindPath (fuel : Nat) (start sink : Nat) (net : FlowNetwork) (parent : Nat → Int) :
    Option (Bool × (Nat → Int)) :=
  loop net sink fuel
    { queue := [start]
      visited := setVec (fun _ => false) start true
      parent := setVec parent start (-1) }

/-- Method `getMaxFlow(source, sink)` of bfs.cpp: the returned value and the network left
behind. One fuel bounds every loop. -/
def getMaxFlow (fuel : Nat) (net : FlowNetwork) (source sink : Nat) :
    Option (Int × FlowNetwork) :=
  maxFlowLoop (bfsFindPath fuel source sink) fuel source sink fuel (initState net)

end Bfs

namespace Dfs

/-- The `for (next = ...)` loop of `findPath`; `call` is the recursive call. -/
def scan (call : Nat → (Nat → Int) → (Nat → Bool) → Option (Bool × (Nat → Int) × (Nat → Bool)))
    (cap : Nat → Nat → Int) (current : Nat) :
    List Nat → (Nat → Int) → (Nat → Bool) → Option (Bool × (Nat → Int) × (Nat → Bool))
  | [], parent, visited => some (false, parent, visited)
  | next :: rest, parent, visited =>
    if (!visited next) && decide (0 < cap current next) then
      match call next (setVec parent next (current : Int)) visited with
      | none => none
      | some (true, parent1, visited1) => some (true, parent1, visited1)
      | some (false, parent1, visited1) => scan call cap current rest parent1 visited1
    else scan call cap current rest parent visited

/-- Method `findPath(current, sink, parent, visited)` of dfs.cpp; the fuel bounds the
recursion depth. Returns the flag and the two vectors passed by reference. -/
def findPath (net : FlowNetwork) (sink : Nat) :
    Nat → Nat → (Nat → Int) → (Nat → Bool) → Option (Bool × (Nat → Int) × (Nat → Bool))
  | 0, _, _, _ => none
  | fuel + 1, current, parent, visited =>
    if current = sink then some (true, parent, setVec visited current true)
    else
      scan (findPath net sink fuel) net.capacity current (List.range net.nodeCount)
        parent (setVec visited current true)

/-- The search step of the loop of `getMaxFlow` in dfs.cpp:
`vector<bool> visited(nodeCount, false); findPath(source, sink, parent, visited)`. -/
def search (fuel : Nat) (source sink : Nat) (net : FlowNetwork) (parent : Nat → Int) :
    Option (Bool × (Nat → Int)) :=
  match findPath net sink fuel source parent (fun _ => false) with
  | none => none
  | some (flag, parent1, _) => some (flag, parent1)

/-- Method `getMaxFlow(source, sink)` of dfs.cpp: the returned value and the network left
behind. One fuel bounds every loop. -/
def getMaxFlow (fuel : Nat) (net : FlowNetwork) (source sink : Nat) :
    Option (Int × FlowNetwork) :=
  maxFlowLoop (search fuel source sink) fuel source sink fuel (initState net)

end Dfs

/-- Scenario A of the specification. -/
def scenarioA : FlowNetwork :=
  (FlowNetwork.create 4).addEdges [(0, 1, 3), (0, 2, 2), (1, 3, 2), (2, 3, 3), (1, 2, 1)]

/-! ## Specification vocabulary -/

/-- Both endpoints of a query are node ids of the network. -/
def InRange (net : FlowNetwork) (source sink : Nat) : Prop :=
  source < net.nodeCount ∧ sink < net.nodeCount

/-- Every entry of the matrix is non-negative. -/
def NonNeg (net : FlowNetwork) : Prop :=
  ∀ u, u < net.nodeCount → ∀ v, v < net.nodeCount → 0 ≤ net.capacity u v

/-- Every entry of the matrix is a value of the type `int` (32 bits). -/
def IsInt32 (net : FlowNetwork) : Prop :=
  ∀ u, u < net.nodeCount → ∀ v, v < net.nodeCount →
    -2147483648 ≤ net.capacity u v ∧ net.capacity u v ≤ INT_MAX

/-- For every pair of distinct nodes the two opposite capacities add up to at most
`INT_MAX`. -/
def PairsFit (net : FlowNetwork) : Prop :=
  ∀ u, u < net.nodeCount → ∀ v, v < net.nodeCount → u ≠ v →
    net.capacity u v + net.capacity v u ≤ INT_MAX

/-- Sum of row `u` of a matrix over the first `n` columns. -/
def rowSum {K : Type} [AddCommMonoid K] (n : Nat) (m : Nat → Nat → K) (u : Nat) : K :=
  ∑ v in Finset.range n, m u v

/-- Sum of column `v` of a matrix over the first `n` rows. -/
def colSum {K : Type} [AddCommMonoid K] (n : Nat) (m : Nat → Nat → K) (v : Nat) : K :=
  ∑ u in Finset.range n, m u v

/-- The capacities of the network add up to at most `INT_MAX`. -/
def SumsFit (net : FlowNetwork) : Prop :=
  ∑ u in Finset.range net.nodeCount, rowSum net.nodeCount net.capacity u ≤ INT_MAX

/-- A residual edge the searches may traverse: `capacity[u][v] > 0` between node ids. -/
def Edge (net : FlowNetwork) (u v : Nat) : Prop :=
  u < net.nodeCount ∧ v < net.nodeCount ∧ 0 < net.capacity u v

/-- There is a path of residual edges from `u` to `v`. -/
def Reachable (net : FlowNetwork) (u v : Nat) : Prop :=
  Relation.ReflTransGen (Edge net) u v

/-- The list `l` is the chain of nodes read by the parent walk, from its first node back to
`source`: no node repeats, each step `(parent[x], x)` is a residual edge. -/
def IsPath (net : FlowNetwork) (parent : Nat → Int) (source : Nat) : List Nat → Prop
  | [] => False
  | [x] => x = source ∧ x < net.nodeCount
  | x :: p :: rest =>
    x ≠ source ∧ x < net.nodeCount ∧ parent x = (p : Int) ∧ 0 < net.capacity p x ∧
      x ∉ p :: rest ∧ IsPath net parent source (p :: rest)

/-- Minimum of `acc` and the capacities of the steps of a chain. -/
def minCap (cap : Nat → Nat → Int) : List Nat → Int → Int
  | x :: p :: rest, acc => minCap cap (p :: rest) (min acc (cap p x))
  | _, acc => acc

/-- Residual update along a chain, `w` being the rounding applied to each result. -/
def applyPath (w : Int → Int) (b : Int) : List Nat → (Nat → Nat → Int) → Nat → Nat → Int
  | x :: p :: rest, cap =>
    applyPath w b (p :: rest)
      (setCell (setCell cap p x (w (cap p x - b))) x p
        (w (setCell cap p x (w (cap p x - b)) x p + b)))
  | _, cap => cap

/-- A feasible flow of the network, with values in an ordered ring `K` (integers, rationals,
reals): between `0` and the capacity on every pair, conserved at every node other than
`source` and `sink`. -/
structure IsFlow {K : Type} [LinearOrderedCommRing K] (net : FlowNetwork) (source sink : Nat)
    (f : Nat → Nat → K) : Prop where
  nonneg : ∀ u, u < net.nodeCount → ∀ v, v < net.nodeCount → 0 ≤ f u v
  le_cap : ∀ u, u < net.nodeCount → ∀ v, v < net.nodeCount → f u v ≤ (net.capacity u v : K)
  conserve : ∀ v, v < net.nodeCount → v ≠ source → v ≠ sink →
    colSum net.nodeCount f v = rowSum net.nodeCount f v

/-- Value of a flow: what leaves `source` minus what enters it. -/
def flowValue {K : Type} [LinearOrderedCommRing K] (net : FlowNetwork) (source : Nat)
    (f : Nat → Nat → K) : K :=
  rowSum net.nodeCount f source - colSum net.nodeCount f source

/-- The number `r` is the value of a maximum flow from `source` to `sink`: an integer flow
has this value and no flow, whatever ordered ring its values are taken in, has a larger
one. -/
def IsMaxFlowValue (net : FlowNetwork) (source sink : Nat) (r : Int) : Prop :=
  (∃ f : Nat → Nat → Int, IsFlow net source sink f ∧ flowValue net source f = r) ∧
    ∀ (K : Type) [LinearOrderedCommRing K] (f : Nat → Nat → K),
      IsFlow net source sink f → flowValue net source f ≤ (r : K)

/-- The computation `run`, indexed by its fuel, returns `x`: it does so for every fuel
from some bound on. -/
def Returns {α : Type} (run : Nat → Option α) (x : α) : Prop :=
  ∃ bound, ∀ fuel, bound ≤ fuel → run fuel = some x

/-- Number of nodes below `n` not marked in `visited`. -/
def unvisited (n : Nat) (visited : Nat → Bool) : Nat :=
  ((Finset.range n).filter (fun v => visited v = false)).card

/-! ## Vocabulary of the proofs -/

/-- Invariant of the queue loop of `bfsFindPath`; `cur` is the node whose row is being
scanned, if any. -/
structure Bfs.Inv (net : FlowNetwork) (start sink : Nat) (cur : Option Nat)
    (st : Bfs.State) : Prop where
  start_vis : st.visited start = true
  vis_lt : ∀ v, st.visited v = true → v < net.nodeCount
  queue_vis : ∀ v ∈ st.queue, st.visited v = true
  cur_vis : ∀ c, cur = some c → st.visited c = true
  path : ∀ v, st.visited v = true →
    ∃ l, IsPath net st.parent start (v :: l) ∧ ∀ y ∈ l, st.visited y = true
  closed : ∀ u, st.visited u = true → cur = some u ∨ u ∈ st.queue ∨
    ∀ v, v < net.nodeCount → 0 < net.capacity u v → st.visited v = true
  sink_vis : st.visited sink = true → start = sink

/-- Every residual edge out of `u` leads to a node marked in `V`. -/
def Dfs.ClosedIn (net : FlowNetwork) (V : Nat → Bool) (u : Nat) : Prop :=
  ∀ v, v < net.nodeCount → 0 < net.capacity u v → V v = true

/-- Postcondition of a call `findPath(current, sink, parent, visited)` entered with the
vectors `parent` and `V`. -/
structure Dfs.Post (net : FlowNetwork) (sink current : Nat) (parent : Nat → Int) (V : Nat → Bool)
    (res : Bool × (Nat → Int) × (Nat → Bool)) : Prop where
  mono : ∀ v, V v = true → res.2.2 v = true
  cur : res.2.2 current = true
  frame : ∀ y, V y = true ∨ y = current → res.2.1 y = parent y
  found : res.1 = true →
    ∃ l, IsPath net res.2.1 current (sink :: l) ∧ ∀ y ∈ sink :: l, V y = false
  closed : res.1 = false → ∀ u, res.2.2 u = true → V u = true ∨ Dfs.ClosedIn net res.2.2 u
  sink_new : res.1 = false → res.2.2 sink = true → V sink = true

/-- In the chain `l`, the node read after `x` is `p`. -/
def Adj (l : List Nat) (x p : Nat) : Prop := (x, p) ∈ l.zip l.tail

instance (l : List Nat) (x p : Nat) : Decidable (Adj l x p) := by
  unfold Adj; infer_instance

/-- Change of the entry `(a, c)` when `b` is pushed along the chain `l`. -/
def delta (l : List Nat) (b : Int) (a c : Nat) : Int :=
  (if Adj l a c then b else 0) - (if Adj l c a then b else 0)

/-- One augmentation of the loop turns `net` into `net1` and pushes `b`: some chain of
parents from `sink` back to `source` has bottleneck `b` and `net1` is the update along it. -/
def Augments (source sink : Nat) (net net1 : FlowNetwork) (b : Int) : Prop :=
  ∃ parent l, IsPath net parent source (sink :: l) ∧
    b = minCap net.capacity (sink :: l) INT_MAX ∧
    net1 = { net with capacity := applyPath wrap32 b (sink :: l) net.capacity }

/-- Row `source` holds values between `0` and `INT_MAX` (the diagonal entry, which no
search reads, need only be non-negative). -/
def RowOK (net : FlowNetwork) (source : Nat) : Prop :=
  ∀ c, c < net.nodeCount →
    0 ≤ net.capacity source c ∧ (c ≠ source → net.capacity source c ≤ INT_MAX)

/-- Column `sink` holds values between `0` and `INT_MAX` (the diagonal entry need only be
non-negative). -/
def ColOK (net : FlowNetwork) (sink : Nat) : Prop :=
  ∀ a, a < net.nodeCount →
    0 ≤ net.capacity a sink ∧ (a ≠ sink → net.capacity a sink ≤ INT_MAX)

/-- A search never answers `true` without a chain of parents from `sink` back to `source`
(networks of `n` nodes). -/
def SearchSound (search : FlowNetwork → (Nat → Int) → Option (Bool × (Nat → Int)))
    (source sink n : Nat) : Prop :=
  ∀ net parent parent1, net.nodeCount = n → search net parent = some (true, parent1) →
    ∃ l, IsPath net parent1 source (sink :: l)

/-- A search returns, soundly, and answers `false` only when `sink` is unreachable
(networks of `n` nodes). -/
def SearchOK (search : FlowNetwork → (Nat → Int) → Option (Bool × (Nat → Int)))
    (source sink n : Nat) : Prop :=
  ∀ net parent, net.nodeCount = n → ∃ flag parent1, search net parent = some (flag, parent1) ∧
    (flag = true → ∃ l, IsPath net parent1 source (sink :: l)) ∧
    (flag = false → ¬ Reachable net source sink)

/-- A sequence of augmentations from `net` to `net1` pushing `F` in total. -/
inductive Run (source sink : Nat) : FlowNetwork → FlowNetwork → Int → Prop
  | refl (net : FlowNetwork) : Run source sink net net 0
  | step {net net1 net2 : FlowNetwork} {b F : Int} :
    Augments source sink net net1 b → Run source sink net1 net2 F →
    Run source sink net net2 (b + F)

/-- The flow read off a residual matrix: what the entry has lost, when positive. -/
def residualFlow (net net1 : FlowNetwork) (u v : Nat) : Int :=
  max (net.capacity u v - net1.capacity u v) 0

/-- Fuel from which `getMaxFlow` returns on `net`: above `nodeCount` and above the sum of
row `source`. -/
def fuelBound (net : FlowNetwork) (source : Nat) : Nat :=
  max (net.nodeCount + 1) ((rowSum net.nodeCount net.capacity source).toNat + 1)

instance (net : FlowNetwork) (source sink : Nat) : Decidable (InRange net source sink) := by
  unfold InRange; infer_instance

instance (net : FlowNetwork) : Decidable (NonNeg net) := by
  unfold NonNeg; infer_instance

instance (net : FlowNetwork) : Decidable (IsInt32 net) := by
  unfold IsInt32; infer_instance

instance (net : FlowNetwork) : Decidable (PairsFit net) := by
  unfold PairsFit; infer_instance

instance (net : FlowNetwork) : Decidable (SumsFit net) := by
  unfold SumsFit; infer_instance

/-- Four nodes; the edge `(2,1)` carries a negative capacity, which `addEdge` stores. -/
def negativeEdgeNet : FlowNetwork :=
  (FlowNetwork.create 4).addEdges
    [(0, 1, 1), (0, 2, 1), (1, 2, 1), (1, 3, 1), (2, 3, 1), (2, 1, -1)]

/-- Four nodes; the edge `(2,1)` carries `INT_MAX`, opposite to the edge `(1,2)`. -/
def overflowDiamond : FlowNetwork :=
  (FlowNetwork.create 4).addEdges
    [(0, 1, 1), (0, 2, 1), (1, 2, 1), (1, 3, 1), (2, 3, 1), (2, 1, 2147483647)]

/-- Two nodes joined in both directions by edges of capacity `INT_MAX`. -/
def overflowPair : FlowNetwork :=
  (FlowNetwork.create 2).addEdges [(0, 1, 2147483647), (1, 0, 2147483647)]

/-- The chain `0 → 1 → 2 → 3` with capacities `INT_MAX`, and the edge `(2,1)` of capacity
`INT_MAX` opposite to its middle edge. -/
def overflowChain : FlowNetwork :=
  (FlowNetwork.create 4).addEdges
    [(0, 1, 2147483647), (1, 2, 2147483647), (2, 3, 2147483647), (2, 1, 2147483647)]

/-- Scenario C of the specification: three nodes, the single edge `(1,2,10)`. -/
def scenarioC : FlowNetwork :=
  (FlowNetwork.create 3).addEdges [(1, 2, 10)]

/-- The 2-node network whose only edge is `(0,1,c)`. -/
def singleEdge (c : Int) : FlowNetwork :=
  (FlowNetwork.create 2).addEdges [(0, 1, c)]

/-- Four nodes, the two routes `0 → 1 → 3` and `0 → 2 → 3`, every edge of capacity
`INT_MAX`. -/
def twoRoutes : FlowNetwork :=
  (FlowNetwork.create 4).addEdges
    [(0, 1, 2147483647), (0, 2, 2147483647), (1, 3, 2147483647), (2, 3, 2147483647)]

/-- State of the loop of bfs.cpp after the first augmentation of `getMaxFlow(0, 3)` on
Scenario A. -/
def scenarioABfsFirst : LoopState :=
  (stateAfter (Bfs.bfsFindPath 10 0 3) 10 0 3 1 (initState scenarioA)).getD
    (initState scenarioA)

/-- State of the loop of dfs.cpp after the first augmentation of `getMaxFlow(0, 3)` on
Scenario A. -/
def scenarioADfsFirst : LoopState :=
  (stateAfter (Dfs.search 10 0 3) 10 0 3 1 (initState scenarioA)).getD (initState scenarioA)

/-- A walk of `k` residual edges leads from `u` to the node given. -/
inductive WalkLen (net : FlowNetwork) (u : Nat) : Nat → Nat → Prop
  | refl : WalkLen net u u 0
  | tail {v w k : Nat} : WalkLen net u v k → Edge net v w → WalkLen net u w (k + 1)

/-- The list `q` is a path of residual edges from `source` to `sink`: it starts at `source`,
ends at `sink`, and each node is joined to the next by an edge with capacity `> 0`; it has
`q.length - 1` edges. -/
def IsResidualPath (net : FlowNetwork) (source sink : Nat) (q : List Nat) : Prop :=
  q.head? = some source ∧ q.getLast? = some sink ∧ q.Chain' (Edge net)

/-- Level invariant of `bfsFindPath` while the row of `cur` is scanned; `depth` is the
number of steps of the chain of parents of each visited node. -/
structure Bfs.Level (net : FlowNetwork) (start cur : Nat) (depth : Nat → Nat)
    (st : Bfs.State) : Prop where
  chain : ∀ v, st.visited v = true →
    ∃ l, IsPath net st.parent start (v :: l) ∧ l.length = depth v ∧
      ∀ y ∈ l, st.visited y = true
  minimal : ∀ v k, st.visited v = true → WalkLen net start v k → depth v ≤ k
  sorted : st.queue.Pairwise (fun x y => depth x ≤ depth y)
  window : ∀ x ∈ st.queue, depth cur ≤ depth x ∧ depth x ≤ depth cur + 1

/-- Level invariant of `bfsFindPath` between two iterations of the queue loop. -/
structure Bfs.LevelQ (net : FlowNetwork) (start : Nat) (depth : Nat → Nat)
    (st : Bfs.State) : Prop where
  chain : ∀ v, st.visited v = true →
    ∃ l, IsPath net st.parent start (v :: l) ∧ l.length = depth v ∧
      ∀ y ∈ l, st.visited y = true
  minimal : ∀ v k, st.visited v = true → WalkLen net start v k → depth v ≤ k
  sorted : st.queue.Pairwise (fun x y => depth x ≤ depth y)
  window : ∀ x ∈ st.queue, ∀ y ∈ st.queue, depth y ≤ depth x + 1

/-! ## Vectors and matrices -/

@[simp] theorem setVec_same {α : Type} (a : Nat → α) (i : Nat) (x : α) : setVec a i x i = x := by
  simp [setVec]

theorem setVec_other {α : Type} (a : Nat → α) (i j : Nat) (x : α) (h : j ≠ i) :
    setVec a i x j = a j := by
  simp [setVec, h]

theorem unvisited_setVec (n : Nat) (visited : Nat → Bool) (v : Nat) (hv : v < n)
    (h : visited v = false) : unvisited n (setVec visited v true) + 1 = unvisited n visited := by
  unfold unvisited
  have : (Finset.range n).filter (fun u => setVec visited v true u = false)
      = ((Finset.range n).filter (fun u => visited u = false)).erase v := by
    ext u
    by_cases huv : u = v
    · subst huv; simp
    · simp [setVec_other _ _ _ _ huv, huv]
  rw [this, Finset.card_erase_of_mem (by simp [hv, h])]
  have : 0 < ((Finset.range n).filter (fun u => visited u = false)).card :=
    Finset.card_pos.mpr ⟨v, by simp [hv, h]⟩
  omega

/-! ## Chains of parents -/

theorem IsPath.congr {net : FlowNetwork} {parent parent1 : Nat → Int} {source : Nat} :
    ∀ {l : List Nat}, IsPath net parent source l → (∀ y ∈ l, parent1 y = parent y) →
      IsPath net parent1 source l
  | [], h, _ => by simp [IsPath] at h
  | [x], h, _ => by simpa [IsPath] using h
  | x :: p :: rest, h, hp => by
    simp only [IsPath] at h ⊢
    obtain ⟨h1, h2, h3, h4, h5, h6⟩ := h
    refine ⟨h1, h2, ?_, h4, h5, IsPath.congr h6 (fun y hy => hp y (List.mem_cons_of_mem _ hy))⟩
    rw [hp x (List.mem_cons_self _ _)]; exact h3

theorem IsPath.lt {net : FlowNetwork} {parent : Nat → Int} {source : Nat} :
    ∀ {l : List Nat}, IsPath net parent source l → ∀ y ∈ l, y < net.nodeCount
  | [], h, _, _ => by simp [IsPath] at h
  | [x], h, y, hy => by
    simp [IsPath] at h
    simp at hy; subst hy; exact h.2
  | x :: p :: rest, h, y, hy => by
    simp only [IsPath] at h
    obtain ⟨_, h2, _, _, _, h6⟩ := h
    rcases List.mem_cons.mp hy with rfl | hy
    · exact h2
    · exact IsPath.lt h6 y hy

theorem IsPath.nodup {net : FlowNetwork} {parent : Nat → Int} {source : Nat} :
    ∀ {l : List Nat}, IsPath net parent source l → l.Nodup
  | [], h => by simp [IsPath] at h
  | [x], _ => by simp
  | x :: p :: rest, h => by
    simp only [IsPath] at h
    obtain ⟨_, _, _, _, h5, h6⟩ := h
    exact List.nodup_cons.mpr ⟨h5, IsPath.nodup h6⟩

theorem IsPath.source_mem {net : FlowNetwork} {parent : Nat → Int} {source : Nat} :
    ∀ {l : List Nat}, IsPath net parent source l → source ∈ l
  | [], h => by simp [IsPath] at h
  | [x], h => by simp [IsPath] at h; simp [h.1]
  | x :: p :: rest, h => by
    simp only [IsPath] at h
    exact List.mem_cons_of_mem _ (IsPath.source_mem h.2.2.2.2.2)

theorem IsPath.snoc {net : FlowNetwork} {parent : Nat → Int} {source current : Nat}
    (hc : current < net.nodeCount) (hp : parent source = (current : Int))
    (hcap : 0 < net.capacity current source) :
    ∀ {l : List Nat}, IsPath net parent source l → current ∉ l →
      IsPath net parent current (l ++ [current])
  | [], h, _ => by simp [IsPath] at h
  | [x], h, hn => by
    simp [IsPath] at h
    obtain ⟨rfl, hx⟩ := h
    have hne : x ≠ current := by intro e; apply hn; simp [e]
    simp [IsPath, hne, hx, hp, hcap, hc]
  | x :: p :: rest, h, hn => by
    simp only [IsPath] at h
    obtain ⟨_, h2, h3, h4, h5, h6⟩ := h
    have hne : x ≠ current := by intro e; apply hn; simp [e]
    have hn1 : current ∉ p :: rest := fun hm => hn (List.mem_cons_of_mem _ hm)
    have ih := IsPath.snoc hc hp hcap h6 hn1
    simp only [List.cons_append, IsPath]
    refine ⟨hne, h2, h3, h4, ?_, by simpa using ih⟩
    intro hm
    rcases List.mem_cons.mp hm with e | hm
    · exact h5 (by simp [e])
    · rcases List.mem_append.mp hm with hm | hm
      · exact h5 (List.mem_cons_of_mem _ hm)
      · simp at hm; exact hne hm

/-- A chain is a path of residual edges from `source` to its first node. -/
theorem IsPath.reachable {net : FlowNetwork} {parent : Nat → Int} {source : Nat} :
    ∀ {l : List Nat} {x : Nat}, IsPath net parent source (x :: l) → Reachable net source x
  | [], x, h => by
    simp [IsPath] at h
    rw [h.1]; exact Relation.ReflTransGen.refl
  | p :: rest, x, h => by
    simp only [IsPath] at h
    obtain ⟨_, h2, _, h4, _, h6⟩ := h
    exact Relation.ReflTransGen.tail (IsPath.reachable h6)
      ⟨IsPath.lt h6 p (List.mem_cons_self _ _), h2, h4⟩

/-! ## Breadth-first search -/

namespace Bfs

theorem Inv.push {net : FlowNetwork} {start sink current next : Nat} {st : State}
    (hI : Inv net start sink (some current) st) (hn : next < net.nodeCount)
    (hv : st.visited next = false) (hcap : 0 < net.capacity current next)
    (hne : next ≠ sink) :
    Inv net start sink (some current)
      { queue := st.queue ++ [next]
        parent := setVec st.parent next (current : Int)
        visited := setVec st.visited next true } := by
  have hmono : ∀ v, st.visited v = true → setVec st.visited next true v = true := by
    intro v h
    by_cases e : v = next
    · subst e; simp
    · rw [setVec_other _ _ _ _ e]; exact h
  have hold : ∀ v, v ≠ next → setVec st.visited next true v = true → st.visited v = true := by
    intro v e h
    rwa [setVec_other _ _ _ _ e] at h
  have hkeep : ∀ v, st.visited v = true → ∀ l, IsPath net st.parent start (v :: l) →
      (∀ y ∈ l, st.visited y = true) →
      IsPath net (setVec st.parent next (current : Int)) start (v :: l) := by
    intro v h l hl hall
    refine IsPath.congr hl ?_
    intro y hy
    have hy1 : st.visited y = true := by
      rcases List.mem_cons.mp hy with rfl | hy
      · exact h
      · exact hall y hy
    have : y ≠ next := by intro e; rw [e, hv] at hy1; exact Bool.noConfusion hy1
    exact setVec_other _ _ _ _ this
  have hstart : next ≠ start := by
    intro e; have := hI.start_vis; rw [← e, hv] at this; exact Bool.noConfusion this
  refine ⟨hmono _ hI.start_vis, ?_, ?_, ?_, ?_, ?_, ?_⟩
  · intro v h
    by_cases e : v = next
    · subst e; exact hn
    · exact hI.vis_lt v (hold v e h)
  · intro v h
    rcases List.mem_append.mp h with h | h
    · exact hmono _ (hI.queue_vis v h)
    · simp at h; subst h; simp
  · intro c hc
    exact hmono _ (hI.cur_vis c hc)
  · intro v h
    by_cases e : v = next
    · subst e
      obtain ⟨l, hl, hall⟩ := hI.path current (hI.cur_vis current rfl)
      refine ⟨current :: l, ?_, ?_⟩
      · have hrest := hkeep current (hI.cur_vis current rfl) l hl hall
        show IsPath net _ start (v :: current :: l)
        simp only [IsPath]
        refine ⟨hstart, hn, by simp, hcap, ?_, hrest⟩
        intro hm
        have : st.visited v = true := by
          rcases List.mem_cons.mp hm with e | hm
          · rw [e]; exact hI.cur_vis current rfl
          · exact hall v hm
        rw [hv] at this; exact Bool.noConfusion this
      · intro y hy
        rcases List.mem_cons.mp hy with e | hy
        · rw [e]; exact hmono _ (hI.cur_vis current rfl)
        · exact hmono _ (hall y hy)
    · obtain ⟨l, hl, hall⟩ := hI.path v (hold v e h)
      exact ⟨l, hkeep v (hold v e h) l hl hall, fun y hy => hmono _ (hall y hy)⟩
  · intro u h
    by_cases e : u = next
    · right; left; simp [e]
    · rcases hI.closed u (hold u e h) with h1 | h1 | h1
      · exact Or.inl h1
      · exact Or.inr (Or.inl (List.mem_append_left _ h1))
      · exact Or.inr (Or.inr (fun v hv1 hc => hmono _ (h1 v hv1 hc)))
  · intro h
    exact hI.sink_vis (hold sink (Ne.symm hne) h)

theorem bfs_scan_spec (net : FlowNetwork) (start sink current : Nat) :
    ∀ (nexts : List Nat) (st : State), Inv net start sink (some current) st →
      (∀ x ∈ nexts, x < net.nodeCount) →
      ∀ flag st1, scan net.capacity sink current nexts st = (flag, st1) →
        (flag = true → start ≠ sink ∧ ∃ l, IsPath net st1.parent start (sink :: l)) ∧
        (flag = false → Inv net start sink (some current) st1 ∧
          (∀ v ∈ nexts, 0 < net.capacity current v → st1.visited v = true) ∧
          (∀ v, st.visited v = true → st1.visited v = true) ∧
          st1.queue.length + unvisited net.nodeCount st1.visited
            = st.queue.length + unvisited net.nodeCount st.visited)
  | [], st, hI, _, flag, st1, h => by
    simp only [scan, Prod.mk.injEq] at h
    obtain ⟨rfl, rfl⟩ := h
    simp [hI]
  | next :: rest, st, hI, hlt, flag, st1, h => by
    have hn : next < net.nodeCount := hlt next (List.mem_cons_self _ _)
    have hrest : ∀ x ∈ rest, x < net.nodeCount := fun x hx => hlt x (List.mem_cons_of_mem _ hx)
    rw [scan] at h
    by_cases hc : ((!st.visited next) && decide (0 < net.capacity current next)) = true
    · rw [if_pos hc] at h
      simp only [Bool.and_eq_true, Bool.not_eq_true', decide_eq_true_eq] at hc
      obtain ⟨hv, hcap⟩ := hc
      by_cases hs : next = sink
      · rw [if_pos hs] at h
        simp only [Prod.mk.injEq] at h
        obtain ⟨rfl, rfl⟩ := h
        refine ⟨fun _ => ?_, fun h => Bool.noConfusion h⟩
        subst hs
        have hstart : start ≠ next := by
          intro e; have := hI.start_vis; rw [e, hv] at this; exact Bool.noConfusion this
        obtain ⟨l, hl, hall⟩ := hI.path current (hI.cur_vis current rfl)
        refine ⟨hstart, current :: l, ?_⟩
        show IsPath net (setVec st.parent next (current : Int)) start (next :: current :: l)
        simp only [IsPath]
        refine ⟨Ne.symm hstart, hn, by simp, hcap, ?_, ?_⟩
        · intro hm
          have : st.visited next = true := by
            rcases List.mem_cons.mp hm with e | hm
            · rw [e]; exact hI.cur_vis current rfl
            · exact hall next hm
          rw [hv] at this; exact Bool.noConfusion this
        · refine IsPath.congr hl ?_
          intro y hy
          have hy1 : st.visited y = true := by
            rcases List.mem_cons.mp hy with e | hy
            · rw [e]; exact hI.cur_vis current rfl
            · exact hall y hy
          have : y ≠ next := by intro e; rw [e, hv] at hy1; exact Bool.noConfusion hy1
          exact setVec_other _ _ _ _ this
      · rw [if_neg hs] at h
        have hI2 := Inv.push hI hn hv hcap hs
        obtain ⟨ht, hf⟩ := bfs_scan_spec net start sink current rest _ hI2 hrest flag st1 h
        refine ⟨ht, fun hflag => ?_⟩
        obtain ⟨h1, h2, h3, h4⟩ := hf hflag
        refine ⟨h1, ?_, ?_, ?_⟩
        · intro v hv1 hcv
          rcases List.mem_cons.mp hv1 with e | hv1
          · rw [e]; exact h3 next (by simp)
          · exact h2 v hv1 hcv
        · intro v hv1
          apply h3
          by_cases e : v = next
          · simp [e]
          · simpa [setVec_other _ _ _ _ e] using hv1
        · rw [h4]
          have := unvisited_setVec net.nodeCount st.visited next hn hv
          simp only [List.length_append, List.length_singleton]
          omega
    · rw [if_neg hc] at h
      obtain ⟨ht, hf⟩ := bfs_scan_spec net start sink current rest st hI hrest flag st1 h
      refine ⟨ht, fun hflag => ?_⟩
      obtain ⟨h1, h2, h3, h4⟩ := hf hflag
      refine ⟨h1, ?_, h3, h4⟩
      intro v hv1 hcv
      rcases List.mem_cons.mp hv1 with e | hv1
      · subst e
        apply h3
        simp only [Bool.and_eq_true, Bool.not_eq_true', decide_eq_true_eq, not_and] at hc
        by_contra hvis
        exact hc (by simpa using hvis) hcv
      · exact h2 v hv1 hcv

theorem loop_spec (net : FlowNetwork) (start sink : Nat) :
    ∀ (fuel : Nat) (st : State), Inv net start sink none st →
      st.queue.length + unvisited net.nodeCount st.visited < fuel →
      ∃ flag parent1, loop net sink fuel st = some (flag, parent1) ∧
        (flag = true → start ≠ sink ∧ ∃ l, IsPath net parent1 start (sink :: l)) ∧
        (flag = false → start ≠ sink → ¬ Reachable net start sink)
  | 0, _, _, h => by omega
  | fuel + 1, st, hI, hfuel => by
    rw [loop]
    cases hq : st.queue with
    | nil =>
      refine ⟨false, st.parent, rfl, fun h => Bool.noConfusion h, fun _ hne hr => ?_⟩
      have hall : ∀ v, Reachable net start v → st.visited v = true := by
        intro v hv
        induction hv with
        | refl => exact hI.start_vis
        | tail _ hstep ih =>
          rcases hI.closed _ ih with h | h | h
          · exact Option.noConfusion h
          · rw [hq] at h; simp at h
          · exact h _ hstep.2.1 hstep.2.2
      exact hne (hI.sink_vis (hall sink hr))
    | cons current q =>
      simp only
      have hI0 : Inv net start sink (some current) { st with queue := q } := by
        refine ⟨hI.start_vis, hI.vis_lt, ?_, ?_, hI.path, ?_, hI.sink_vis⟩
        · intro v hv; exact hI.queue_vis v (by rw [hq]; exact List.mem_cons_of_mem _ hv)
        · intro c hc
          simp only [Option.some.injEq] at hc
          subst hc
          exact hI.queue_vis _ (by rw [hq]; exact List.mem_cons_self _ _)
        · intro u hu
          rcases hI.closed u hu with h | h | h
          · exact Option.noConfusion h
          · rw [hq] at h
            rcases List.mem_cons.mp h with e | h
            · exact Or.inl (by rw [e])
            · exact Or.inr (Or.inl h)
          · exact Or.inr (Or.inr h)
      cases hsc : scan net.capacity sink current (List.range net.nodeCount)
          { st with queue := q } with
      | mk flag st1 =>
        obtain ⟨ht, hf⟩ := bfs_scan_spec net start sink current _ _ hI0
          (fun x hx => List.mem_range.mp hx) flag st1 hsc
        cases flag with
        | true =>
          exact ⟨true, st1.parent, rfl, fun _ => ht rfl, fun h => Bool.noConfusion h⟩
        | false =>
          obtain ⟨h1, h2, _, h4⟩ := hf rfl
          simp only
          have hI1 : Inv net start sink none st1 := by
            refine ⟨h1.start_vis, h1.vis_lt, h1.queue_vis, ?_, h1.path, ?_, h1.sink_vis⟩
            · intro c hc; exact Option.noConfusion hc
            · intro u hu
              rcases h1.closed u hu with h | h | h
              · simp only [Option.some.injEq] at h
                subst h
                exact Or.inr (Or.inr (fun v hv hc => h2 v (List.mem_range.mpr hv) hc))
              · exact Or.inr (Or.inl h)
              · exact Or.inr (Or.inr h)
          apply loop_spec net start sink fuel st1 hI1
          rw [h4]
          rw [hq] at hfuel
          simp only [List.length_cons] at hfuel
          simp only
          omega

/-- Contract of `bfsFindPath`: with fuel above `nodeCount` it returns; `true` comes with a
chain of parents from `sink` back to `start`, `false` only when `sink` is unreachable. -/
theorem bfsFindPath_spec (net : FlowNetwork) (start sink : Nat) (parent : Nat → Int)
    (fuel : Nat) (hs : start < net.nodeCount) (hfuel : net.nodeCount < fuel) :
    ∃ flag parent1, bfsFindPath fuel start sink net parent = some (flag, parent1) ∧
      (flag = true → start ≠ sink ∧ ∃ l, IsPath net parent1 start (sink :: l)) ∧
      (flag = false → start ≠ sink → ¬ Reachable net start sink) := by
  unfold bfsFindPath
  apply loop_spec net start sink
  · refine ⟨by simp, ?_, ?_, ?_, ?_, ?_, ?_⟩
    · intro v hv
      by_cases e : v = start
      · rw [e]; exact hs
      · simp [setVec_other _ _ _ _ e] at hv
    · intro v hv
      simp only [List.mem_singleton] at hv
      simp [hv]
    · intro c hc; exact Option.noConfusion hc
    · intro v hv
      by_cases e : v = start
      · exact ⟨[], by simp [IsPath, e, hs], by simp⟩
      · simp [setVec_other _ _ _ _ e] at hv
    · intro u hu
      by_cases e : u = start
      · right; left; simp [e]
      · simp [setVec_other _ _ _ _ e] at hu
    · intro h
      by_cases e : sink = start
      · exact e.symm
      · simp [setVec_other _ _ _ _ e] at h
  · have := unvisited_setVec net.nodeCount (fun _ => false) start hs rfl
    have h2 : unvisited net.nodeCount (fun _ => false) = net.nodeCount := by
      simp [unvisited]
    simp only [List.length_singleton]
    omega

end Bfs

/-! ## Depth-first search -/

theorem unvisited_mono (n : Nat) (V V1 : Nat → Bool) (h : ∀ v, V v = true → V1 v = true) :
    unvisited n V1 ≤ unvisited n V := by
  unfold unvisited
  apply Finset.card_le_card
  intro v hv
  simp only [Finset.mem_filter, Finset.mem_range] at hv ⊢
  refine ⟨hv.1, ?_⟩
  cases hV : V v with
  | false => rfl
  | true => rw [h v hV] at hv; exact Bool.noConfusion hv.2

namespace Dfs

theorem dfs_scan_spec (net : FlowNetwork) (sink current : Nat) (parent : Nat → Int) (V : Nat → Bool)
    (fuel : Nat)
    (call : Nat → (Nat → Int) → (Nat → Bool) → Option (Bool × (Nat → Int) × (Nat → Bool)))
    (hcall : ∀ next p W, next < net.nodeCount → W next = false →
      unvisited net.nodeCount W ≤ fuel → ∃ res, call next p W = some res ∧
        Post net sink next p W res)
    (hcur : current < net.nodeCount) (hVc : V current = false) :
    ∀ (nexts : List Nat) (p : Nat → Int) (W : Nat → Bool),
      (∀ x ∈ nexts, x < net.nodeCount) →
      (∀ v, V v = true → W v = true) → W current = true →
      (∀ y, V y = true ∨ y = current → p y = parent y) →
      (∀ u, W u = true → V u = true ∨ u = current ∨ ClosedIn net W u) →
      (W sink = true → V sink = true) →
      unvisited net.nodeCount W ≤ fuel →
      ∃ res, scan call net.capacity current nexts p W = some res ∧
        (∀ v, W v = true → res.2.2 v = true) ∧
        (∀ y, V y = true ∨ y = current → res.2.1 y = parent y) ∧
        (res.1 = true →
          ∃ l, IsPath net res.2.1 current (sink :: l) ∧ ∀ y ∈ sink :: l, V y = false) ∧
        (res.1 = false →
          (∀ u, res.2.2 u = true → V u = true ∨ u = current ∨ ClosedIn net res.2.2 u) ∧
          (res.2.2 sink = true → V sink = true) ∧
          (∀ v ∈ nexts, 0 < net.capacity current v → res.2.2 v = true))
  | [], p, W, _, _, _, hb, hc, hd, _ => by
    refine ⟨(false, p, W), rfl, fun v h => h, hb, fun h => Bool.noConfusion h, fun _ => ?_⟩
    exact ⟨hc, hd, fun v hv => by simp at hv⟩
  | next :: rest, p, W, hlt, ha, hWc, hb, hc, hd, he => by
    have hn : next < net.nodeCount := hlt next (List.mem_cons_self _ _)
    have hrest : ∀ x ∈ rest, x < net.nodeCount := fun x hx => hlt x (List.mem_cons_of_mem _ hx)
    rw [scan]
    by_cases hcond : ((!W next) && decide (0 < net.capacity current next)) = true
    · rw [if_pos hcond]
      simp only [Bool.and_eq_true, Bool.not_eq_true', decide_eq_true_eq] at hcond
      obtain ⟨hv, hcap⟩ := hcond
      obtain ⟨res1, hres1, hpost⟩ := hcall next (setVec p next (current : Int)) W hn hv he
      rw [hres1]
      obtain ⟨flag, p1, W1⟩ := res1
      have hne : ∀ y, W y = true → y ≠ next := by
        intro y hy e; rw [e, hv] at hy; exact Bool.noConfusion hy
      have hb1 : ∀ y, V y = true ∨ y = current → p1 y = parent y := by
        intro y hy
        have hWy : W y = true := by
          rcases hy with h | h
          · exact ha y h
          · rw [h]; exact hWc
        have := hpost.frame y (Or.inl hWy)
        simp only at this
        rw [this, setVec_other _ _ _ _ (hne y hWy)]
        exact hb y hy
      cases flag with
      | true =>
        refine ⟨(true, p1, W1), rfl, hpost.mono, hb1, fun _ => ?_, fun h => Bool.noConfusion h⟩
        obtain ⟨l, hl, hall⟩ := hpost.found rfl
        simp only at hl
        have hp1 : p1 next = (current : Int) := by
          have := hpost.frame next (Or.inr rfl)
          simpa using this
        have hnot : current ∉ sink :: l := by
          intro hm
          have := hall current hm
          rw [hWc] at this; exact Bool.noConfusion this
        refine ⟨l ++ [current], by simpa using IsPath.snoc hcur hp1 hcap hl hnot, ?_⟩
        intro y hy
        have hy : y ∈ (sink :: l) ∨ y = current := by
          simp only [List.mem_cons, List.mem_append, List.mem_singleton] at hy ⊢
          tauto
        rcases hy with hy | hy
        · have hWy := hall y hy
          cases hVy : V y with
          | false => rfl
          | true => rw [ha y hVy] at hWy; exact Bool.noConfusion hWy
        · rw [hy]; exact hVc
      | false =>
        simp only
        have hmono1 : ∀ v, W v = true → W1 v = true := hpost.mono
        obtain ⟨res, hres, h1, h2, h3, h4⟩ := dfs_scan_spec net sink current parent V fuel call hcall
          hcur hVc rest p1 W1 hrest (fun v h => hmono1 v (ha v h)) (hmono1 _ hWc) hb1
          (by
            intro u hu
            rcases hpost.closed rfl u hu with h | h
            · rcases hc u h with h | h | h
              · exact Or.inl h
              · exact Or.inr (Or.inl h)
              · exact Or.inr (Or.inr (fun v hv1 hcv => hmono1 _ (h v hv1 hcv)))
            · exact Or.inr (Or.inr h))
          (fun h => hd (hpost.sink_new rfl h))
          (le_trans (unvisited_mono _ _ _ hmono1) he)
        refine ⟨res, hres, fun v h => h1 v (hmono1 v h), h2, h3, fun hf => ?_⟩
        obtain ⟨h5, h6, h7⟩ := h4 hf
        refine ⟨h5, h6, ?_⟩
        intro v hv1 hcv
        rcases List.mem_cons.mp hv1 with e | hv1
        · rw [e]; exact h1 next hpost.cur
        · exact h7 v hv1 hcv
    · rw [if_neg hcond]
      obtain ⟨res, hres, h1, h2, h3, h4⟩ := dfs_scan_spec net sink current parent V fuel call hcall
        hcur hVc rest p W hrest ha hWc hb hc hd he
      refine ⟨res, hres, h1, h2, h3, fun hf => ?_⟩
      obtain ⟨h5, h6, h7⟩ := h4 hf
      refine ⟨h5, h6, ?_⟩
      intro v hv1 hcv
      rcases List.mem_cons.mp hv1 with e | hv1
      · subst e
        apply h1
        simp only [Bool.and_eq_true, Bool.not_eq_true', decide_eq_true_eq, not_and] at hcond
        by_contra hvis
        exact hcond (by simpa using hvis) hcv
      · exact h7 v hv1 hcv

theorem findPath_spec (net : FlowNetwork) (sink : Nat) :
    ∀ (fuel current : Nat) (parent : Nat → Int) (V : Nat → Bool),
      current < net.nodeCount → V current = false → unvisited net.nodeCount V ≤ fuel →
      ∃ res, findPath net sink fuel current parent V = some res ∧
        Post net sink current parent V res
  | 0, current, _, V, hc, hV, hfuel => by
    have := unvisited_setVec net.nodeCount V current hc hV
    omega
  | fuel + 1, current, parent, V, hc, hV, hfuel => by
    have hcount := unvisited_setVec net.nodeCount V current hc hV
    have hmono0 : ∀ v, V v = true → setVec V current true v = true := by
      intro v h
      by_cases e : v = current
      · subst e; simp
      · rw [setVec_other _ _ _ _ e]; exact h
    rw [findPath]
    by_cases hs : current = sink
    · rw [if_pos hs]
      refine ⟨_, rfl, hmono0, by simp, fun _ _ => rfl, fun _ => ?_,
        fun h => Bool.noConfusion h, fun h => Bool.noConfusion h⟩
      refine ⟨[], ?_, ?_⟩
      · show IsPath net parent current [sink]
        rw [← hs]; exact ⟨rfl, hc⟩
      · intro y hy
        simp only [List.mem_singleton] at hy
        rw [hy, ← hs]; exact hV
    · rw [if_neg hs]
      obtain ⟨res, hres, h1, h2, h3, h4⟩ := dfs_scan_spec net sink current parent V fuel
        (findPath net sink fuel)
        (fun next p W hn hW hf => findPath_spec net sink fuel next p W hn hW hf)
        hc hV (List.range net.nodeCount) parent (setVec V current true)
        (fun x hx => List.mem_range.mp hx) hmono0 (by simp) (fun _ _ => rfl)
        (by
          intro u hu
          by_cases e : u = current
          · exact Or.inr (Or.inl e)
          · rw [setVec_other _ _ _ _ e] at hu; exact Or.inl hu)
        (by
          intro h
          rwa [setVec_other _ _ _ _ (Ne.symm hs)] at h)
        (by omega)
      refine ⟨res, hres, fun v h => h1 v (hmono0 v h), h1 current (by simp), h2, h3, ?_, ?_⟩
      · intro hf u hu
        obtain ⟨h5, _, h7⟩ := h4 hf
        rcases h5 u hu with h | h | h
        · exact Or.inl h
        · subst h
          exact Or.inr (fun v hv hcv => h7 v (List.mem_range.mpr hv) hcv)
        · exact Or.inr h
      · intro hf
        exact (h4 hf).2.1

/-- Contract of the search of dfs.cpp: with fuel at least `nodeCount` it returns; `true`
comes with a chain of parents from `sink` back to `source`, `false` only when `sink` is
unreachable. -/
theorem search_spec (net : FlowNetwork) (source sink : Nat) (parent : Nat → Int)
    (fuel : Nat) (hs : source < net.nodeCount) (hfuel : net.nodeCount ≤ fuel) :
    ∃ flag parent1, search fuel source sink net parent = some (flag, parent1) ∧
      (flag = true → ∃ l, IsPath net parent1 source (sink :: l)) ∧
      (flag = false → ¬ Reachable net source sink) := by
  have h0 : unvisited net.nodeCount (fun _ => false) = net.nodeCount := by
    simp [unvisited]
  obtain ⟨res, hres, hpost⟩ := findPath_spec net sink fuel source parent (fun _ => false)
    hs rfl (by omega)
  obtain ⟨flag, p1, W1⟩ := res
  refine ⟨flag, p1, by simp [search, hres], fun hf => ?_, fun hf hr => ?_⟩
  · obtain ⟨l, hl, _⟩ := hpost.found hf
    exact ⟨l, hl⟩
  · have hall : ∀ v, Reachable net source v → W1 v = true := by
      intro v hv
      induction hv with
      | refl => exact hpost.cur
      | tail _ hstep ih =>
        rcases hpost.closed hf _ ih with h | h
        · exact Bool.noConfusion h
        · exact h _ hstep.2.1 hstep.2.2
    have := hpost.sink_new hf (hall sink hr)
    exact Bool.noConfusion this

end Dfs

/-! ## The two parent walks -/

theorem pathFlowLoop_eq (net : FlowNetwork) (parent : Nat → Int) (source : Nat)
    (cap : Nat → Nat → Int) :
    ∀ (l : List Nat) (x fuel : Nat) (acc : Int), IsPath net parent source (x :: l) →
      l.length < fuel →
      pathFlowLoop cap parent source fuel x acc = some (minCap cap (x :: l) acc)
  | _, _, 0, _, _, hf => by omega
  | [], x, fuel + 1, acc, h, _ => by
    simp only [IsPath] at h
    simp [pathFlowLoop, h.1, minCap]
  | p :: rest, x, fuel + 1, acc, h, hf => by
    simp only [IsPath] at h
    obtain ⟨h1, _, h3, _, _, h6⟩ := h
    simp only [List.length_cons] at hf
    rw [pathFlowLoop, if_neg h1, h3, if_neg (by omega), Int.toNat_ofNat, minCap]
    exact pathFlowLoop_eq net parent source cap rest p fuel _ h6 (by omega)

theorem updateLoop_eq (net : FlowNetwork) (parent : Nat → Int) (source : Nat) (b : Int) :
    ∀ (l : List Nat) (x fuel : Nat) (cap : Nat → Nat → Int),
      IsPath net parent source (x :: l) → l.length < fuel →
      updateLoop parent source b fuel x cap = some (applyPath wrap32 b (x :: l) cap)
  | _, _, 0, _, _, hf => by omega
  | [], x, fuel + 1, cap, h, _ => by
    simp only [IsPath] at h
    simp [updateLoop, h.1, applyPath]
  | p :: rest, x, fuel + 1, cap, h, hf => by
    simp only [IsPath] at h
    obtain ⟨h1, _, h3, _, _, h6⟩ := h
    simp only [List.length_cons] at hf
    rw [updateLoop, if_neg h1, h3, if_neg (by omega)]
    simp only [Int.toNat_ofNat]
    rw [applyPath]
    exact updateLoop_eq net parent source b rest p fuel _ h6 (by omega)

theorem nodup_length_le (n : Nat) (l : List Nat) (hn : l.Nodup) (hlt : ∀ x ∈ l, x < n) :
    l.length ≤ n := by
  have h1 : l.toFinset ⊆ Finset.range n := by
    intro x hx
    exact Finset.mem_range.mpr (hlt x (List.mem_toFinset.mp hx))
  have h2 := Finset.card_le_card h1
  rw [List.toFinset_card_of_nodup hn, Finset.card_range] at h2
  exact h2

/-- With fuel at least `nodeCount`, the body of the loop after a successful search computes
the bottleneck of the chain and applies it along the chain. -/
theorem augment_eq (net : FlowNetwork) (parent : Nat → Int) (source sink : Nat) (l : List Nat)
    (fuel : Nat) (h : IsPath net parent source (sink :: l)) (hf : net.nodeCount ≤ fuel) :
    augment fuel net parent source sink
      = some (minCap net.capacity (sink :: l) INT_MAX,
          { net with capacity :=
              (applyPath wrap32 (minCap net.capacity (sink :: l) INT_MAX) (sink :: l)
                net.capacity) }) := by
  have hlen := nodup_length_le net.nodeCount (sink :: l) h.nodup h.lt
  simp only [List.length_cons] at hlen
  unfold augment
  rw [pathFlowLoop_eq net parent source net.capacity l sink fuel INT_MAX h (by omega)]
  simp only
  rw [updateLoop_eq net parent source _ l sink fuel net.capacity h (by omega)]

/-! ## Steps of a chain -/

theorem adj_cons (x p : Nat) (rest : List Nat) (a c : Nat) :
    Adj (x :: p :: rest) a c ↔ (a = x ∧ c = p) ∨ Adj (p :: rest) a c := by
  simp [Adj]

theorem adj_single (x a c : Nat) : ¬ Adj [x] a c := by simp [Adj]

theorem Adj.mem_left {l : List Nat} {a c : Nat} (h : Adj l a c) : a ∈ l :=
  (List.of_mem_zip h).1

theorem Adj.mem_right {l : List Nat} {a c : Nat} (h : Adj l a c) : c ∈ l.tail :=
  (List.of_mem_zip h).2

theorem Adj.mem_right_list {l : List Nat} {a c : Nat} (h : Adj l a c) : c ∈ l :=
  List.mem_of_mem_tail h.mem_right

/-- Entry by entry, the residual update along a chain without repetition: the entry of a
step is lowered, the opposite entry is raised, every other entry is kept. -/
theorem applyPath_apply (w : Int → Int) (b : Int) :
    ∀ (l : List Nat) (cap : Nat → Nat → Int), l.Nodup → ∀ a c,
      applyPath w b l cap a c =
        if Adj l c a then w (cap a c - b) else if Adj l a c then w (cap a c + b) else cap a c
  | [], cap, _, a, c => by simp [applyPath, Adj]
  | [x], cap, _, a, c => by simp [applyPath, Adj]
  | x :: p :: rest, cap, hn, a, c => by
    have hx : x ∉ p :: rest := (List.nodup_cons.mp hn).1
    have hn1 : (p :: rest).Nodup := (List.nodup_cons.mp hn).2
    have hxp : x ≠ p := fun e => hx (by simp [e])
    rw [applyPath, applyPath_apply w b (p :: rest) _ hn1 a c]
    have hmem : ∀ u v, Adj (p :: rest) u v → u ≠ x ∧ v ≠ x := by
      intro u v h
      exact ⟨fun e => hx (e ▸ h.mem_left), fun e => hx (e ▸ h.mem_right_list)⟩
    by_cases h1 : Adj (p :: rest) c a
    · have h2 : Adj (x :: p :: rest) c a := (adj_cons _ _ _ _ _).mpr (Or.inr h1)
      obtain ⟨hc, ha⟩ := hmem _ _ h1
      rw [if_pos h1, if_pos h2]
      simp [setCell, ha, hc]
    · rw [if_neg h1]
      by_cases h3 : Adj (p :: rest) a c
      · obtain ⟨ha, hc⟩ := hmem _ _ h3
        have h4 : ¬ Adj (x :: p :: rest) c a := by
          rw [adj_cons]; rintro (⟨e, _⟩ | h)
          · exact hc e
          · exact h1 h
        have h5 : Adj (x :: p :: rest) a c := (adj_cons _ _ _ _ _).mpr (Or.inr h3)
        rw [if_pos h3, if_neg h4, if_pos h5]
        simp [setCell, ha, hc]
      · rw [if_neg h3]
        by_cases h6 : c = x ∧ a = p
        · obtain ⟨rfl, rfl⟩ := h6
          have h7 : Adj (c :: a :: rest) c a := (adj_cons _ _ _ _ _).mpr (Or.inl ⟨rfl, rfl⟩)
          rw [if_pos h7]
          simp [setCell, hxp, Ne.symm hxp]
        · have h7 : ¬ Adj (x :: p :: rest) c a := by
            rw [adj_cons]; rintro (h | h)
            · exact h6 h
            · exact h1 h
          rw [if_neg h7]
          by_cases h8 : a = x ∧ c = p
          · obtain ⟨rfl, rfl⟩ := h8
            have h9 : Adj (a :: c :: rest) a c := (adj_cons _ _ _ _ _).mpr (Or.inl ⟨rfl, rfl⟩)
            rw [if_pos h9]
            simp [setCell, hxp, Ne.symm hxp]
          · have h9 : ¬ Adj (x :: p :: rest) a c := by
              rw [adj_cons]; rintro (h | h)
              · exact h8 h
              · exact h3 h
            rw [if_neg h9]
            have e1 : ¬ (a = x ∧ c = p) := h8
            have e2 : ¬ (a = p ∧ c = x) := fun h => h6 ⟨h.2, h.1⟩
            simp [setCell, e1, e2]

theorem IsPath.adj {net : FlowNetwork} {parent : Nat → Int} {source : Nat} :
    ∀ {l : List Nat}, IsPath net parent source l → ∀ x p, Adj l x p →
      x ≠ source ∧ x < net.nodeCount ∧ p < net.nodeCount ∧ parent x = (p : Int) ∧
        0 < net.capacity p x ∧ x ≠ p
  | [], h, _, _, _ => by simp [IsPath] at h
  | [y], _, x, p, ha => absurd ha (adj_single _ _ _)
  | y :: q :: rest, h, x, p, ha => by
    simp only [IsPath] at h
    obtain ⟨h1, h2, h3, h4, h5, h6⟩ := h
    rcases (adj_cons _ _ _ _ _).mp ha with ⟨rfl, rfl⟩ | ha
    · exact ⟨h1, h2, IsPath.lt h6 p (List.mem_cons_self _ _), h3, h4,
        fun e => h5 (by simp [e])⟩
    · exact IsPath.adj h6 x p ha

theorem adj_not_symm : ∀ (l : List Nat), l.Nodup → ∀ x p, Adj l x p → ¬ Adj l p x
  | [], _, _, _, h => by simp [Adj] at h
  | [y], _, _, _, h => absurd h (adj_single _ _ _)
  | y :: q :: rest, hn, x, p, h => by
    have hy : y ∉ q :: rest := (List.nodup_cons.mp hn).1
    have hn1 : (q :: rest).Nodup := (List.nodup_cons.mp hn).2
    rw [adj_cons] at h ⊢
    rintro (⟨e1, e2⟩ | h2)
    · rcases h with ⟨e3, e4⟩ | h
      · exact hy (by rw [← e3, e2]; simp)
      · exact hy (e1 ▸ h.mem_right_list)
    · rcases h with ⟨e3, _⟩ | h
      · exact hy (e3 ▸ h2.mem_right_list)
      · exact adj_not_symm _ hn1 x p h h2

theorem minCap_le_acc (cap : Nat → Nat → Int) : ∀ (l : List Nat) (acc : Int),
    minCap cap l acc ≤ acc
  | [], _ => by simp [minCap]
  | [_], _ => by simp [minCap]
  | x :: p :: rest, acc => by
    rw [minCap]
    exact le_trans (minCap_le_acc cap (p :: rest) _) (min_le_left _ _)

theorem minCap_le_adj (cap : Nat → Nat → Int) : ∀ (l : List Nat) (acc : Int) (x p : Nat),
    Adj l x p → minCap cap l acc ≤ cap p x
  | [], _, _, _, h => by simp [Adj] at h
  | [_], _, _, _, h => absurd h (adj_single _ _ _)
  | y :: q :: rest, acc, x, p, h => by
    rw [minCap]
    rcases (adj_cons _ _ _ _ _).mp h with ⟨rfl, rfl⟩ | h
    · exact le_trans (minCap_le_acc cap _ _) (min_le_right _ _)
    · exact minCap_le_adj cap _ _ x p h

theorem minCap_pos (cap : Nat → Nat → Int) : ∀ (l : List Nat) (acc : Int), 0 < acc →
    (∀ x p, Adj l x p → 0 < cap p x) → 0 < minCap cap l acc
  | [], _, h, _ => by simpa [minCap] using h
  | [_], _, h, _ => by simpa [minCap] using h
  | y :: q :: rest, acc, h, hall => by
    rw [minCap]
    apply minCap_pos cap (q :: rest)
    · exact lt_min h (hall y q ((adj_cons _ _ _ _ _).mpr (Or.inl ⟨rfl, rfl⟩)))
    · intro x p hx
      exact hall x p ((adj_cons _ _ _ _ _).mpr (Or.inr hx))

theorem sum_adj_left (n : Nat) : ∀ (l : List Nat), l.Nodup → (∀ x ∈ l, x < n) → ∀ a,
    (∑ c in Finset.range n, if Adj l c a then (1 : Int) else 0) = if a ∈ l.tail then 1 else 0
  | [], _, _, a => by simp [Adj]
  | [y], _, _, a => by simp [Adj]
  | y :: q :: rest, hn, hlt, a => by
    have hy : y ∉ q :: rest := (List.nodup_cons.mp hn).1
    have hn1 : (q :: rest).Nodup := (List.nodup_cons.mp hn).2
    have hq : q ∉ rest := (List.nodup_cons.mp hn1).1
    have ih := sum_adj_left n (q :: rest) hn1 (fun x hx => hlt x (List.mem_cons_of_mem _ hx)) a
    have hsplit : ∀ c, (if Adj (y :: q :: rest) c a then (1 : Int) else 0)
        = (if c = y ∧ a = q then 1 else 0) + (if Adj (q :: rest) c a then 1 else 0) := by
      intro c
      by_cases h1 : c = y ∧ a = q
      · have h2 : ¬ Adj (q :: rest) c a := fun h => hy (h1.1 ▸ h.mem_left)
        have h3 : Adj (y :: q :: rest) c a := (adj_cons _ _ _ _ _).mpr (Or.inl h1)
        rw [if_pos h1, if_neg h2, if_pos h3]; rfl
      · by_cases h2 : Adj (q :: rest) c a
        · have h3 : Adj (y :: q :: rest) c a := (adj_cons _ _ _ _ _).mpr (Or.inr h2)
          rw [if_neg h1, if_pos h2, if_pos h3]; rfl
        · have h3 : ¬ Adj (y :: q :: rest) c a := by
            rw [adj_cons]; rintro (h | h)
            · exact h1 h
            · exact h2 h
          rw [if_neg h1, if_neg h2, if_neg h3]; rfl
    have hfirst : (∑ c in Finset.range n, if c = y ∧ a = q then (1 : Int) else 0)
        = if a = q then 1 else 0 := by
      by_cases e : a = q
      · have hyn : y < n := hlt y (List.mem_cons_self _ _)
        simp [e, Finset.sum_ite_eq', hyn]
      · simp [e]
    rw [Finset.sum_congr rfl (fun c _ => hsplit c), Finset.sum_add_distrib, hfirst, ih]
    simp only [List.tail_cons, List.mem_cons]
    by_cases e : a = q
    · have : a ∉ rest := e ▸ hq
      simp [e, hq]
    · simp [e]

theorem sum_adj_right (n : Nat) : ∀ (l : List Nat), l.Nodup → (∀ x ∈ l, x < n) → ∀ a,
    (∑ c in Finset.range n, if Adj l a c then (1 : Int) else 0)
      = if a ∈ l.dropLast then 1 else 0
  | [], _, _, a => by simp [Adj]
  | [y], _, _, a => by simp [Adj]
  | y :: q :: rest, hn, hlt, a => by
    have hy : y ∉ q :: rest := (List.nodup_cons.mp hn).1
    have hn1 : (q :: rest).Nodup := (List.nodup_cons.mp hn).2
    have ih := sum_adj_right n (q :: rest) hn1 (fun x hx => hlt x (List.mem_cons_of_mem _ hx)) a
    have hsplit : ∀ c, (if Adj (y :: q :: rest) a c then (1 : Int) else 0)
        = (if c = q ∧ a = y then 1 else 0) + (if Adj (q :: rest) a c then 1 else 0) := by
      intro c
      by_cases h1 : c = q ∧ a = y
      · have h2 : ¬ Adj (q :: rest) a c := fun h => hy (h1.2 ▸ h.mem_left)
        have h3 : Adj (y :: q :: rest) a c := (adj_cons _ _ _ _ _).mpr (Or.inl ⟨h1.2, h1.1⟩)
        rw [if_pos h1, if_neg h2, if_pos h3]; rfl
      · by_cases h2 : Adj (q :: rest) a c
        · have h3 : Adj (y :: q :: rest) a c := (adj_cons _ _ _ _ _).mpr (Or.inr h2)
          rw [if_neg h1, if_pos h2, if_pos h3]; rfl
        · have h3 : ¬ Adj (y :: q :: rest) a c := by
            rw [adj_cons]; rintro (h | h)
            · exact h1 ⟨h.2, h.1⟩
            · exact h2 h
          rw [if_neg h1, if_neg h2, if_neg h3]; rfl
    have hfirst : (∑ c in Finset.range n, if c = q ∧ a = y then (1 : Int) else 0)
        = if a = y then 1 else 0 := by
      by_cases e : a = y
      · have hqn : q < n := hlt q (by simp)
        simp [e, Finset.sum_ite_eq', hqn]
      · simp [e]
    rw [Finset.sum_congr rfl (fun c _ => hsplit c), Finset.sum_add_distrib, hfirst, ih]
    have hmem : a ∈ (y :: q :: rest).dropLast ↔ a = y ∨ a ∈ (q :: rest).dropLast := by
      simp [List.dropLast]
    by_cases e : a = y
    · have : a ∉ (q :: rest).dropLast := fun h => hy (e ▸ List.dropLast_subset _ h)
      rw [if_pos e, if_neg this, if_pos (hmem.mpr (Or.inl e))]; rfl
    · by_cases h : a ∈ (q :: rest).dropLast
      · rw [if_neg e, if_pos h, if_pos (hmem.mpr (Or.inr h))]; rfl
      · have : a ∉ (y :: q :: rest).dropLast := by
          rw [hmem]; rintro (h1 | h1)
          · exact e h1
          · exact h h1
        rw [if_neg e, if_neg h, if_neg this]; rfl

theorem IsPath.mem_dropLast {net : FlowNetwork} {parent : Nat → Int} {source : Nat} :
    ∀ {l : List Nat}, IsPath net parent source l → ∀ a, a ∈ l.dropLast ↔ a ∈ l ∧ a ≠ source
  | [], h, _ => by simp [IsPath] at h
  | [y], h, a => by
    simp only [IsPath] at h
    simp only [List.dropLast_single, List.not_mem_nil, List.mem_singleton, false_iff, not_and,
      not_not]
    intro e; rw [e]; exact h.1
  | y :: q :: rest, h, a => by
    simp only [IsPath] at h
    obtain ⟨h1, _, _, _, h5, h6⟩ := h
    have ih := IsPath.mem_dropLast h6 a
    have hmem : a ∈ (y :: q :: rest).dropLast ↔ a = y ∨ a ∈ (q :: rest).dropLast := by
      simp [List.dropLast]
    rw [hmem, ih]
    constructor
    · rintro (e | ⟨h7, h8⟩)
      · exact ⟨by simp [e], e ▸ h1⟩
      · exact ⟨List.mem_cons_of_mem _ h7, h8⟩
    · rintro ⟨h7, h8⟩
      rcases List.mem_cons.mp h7 with e | h7
      · exact Or.inl e
      · exact Or.inr ⟨h7, h8⟩

/-! ## Effect of one augmentation -/

theorem wrap32_eq (x : Int) (h1 : -2147483648 ≤ x) (h2 : x ≤ INT_MAX) : wrap32 x = x := by
  unfold wrap32; unfold INT_MAX at h2; omega

theorem wrap32_wrap32_add (a b : Int) : wrap32 (wrap32 a + b) = wrap32 (a + b) := by
  unfold wrap32; omega

theorem wrap32_le (x : Int) (h : 0 ≤ x) : wrap32 x ≤ x := by
  unfold wrap32; omega

theorem applyPath_entry (b : Int) (l : List Nat) (cap : Nat → Nat → Int) (hn : l.Nodup)
    (a c : Nat) (h1 : Adj l c a → wrap32 (cap a c - b) = cap a c - b)
    (h2 : Adj l a c → wrap32 (cap a c + b) = cap a c + b) :
    applyPath wrap32 b l cap a c = cap a c + delta l b a c := by
  rw [applyPath_apply wrap32 b l cap hn a c]
  unfold delta
  by_cases h3 : Adj l c a
  · have h4 : ¬ Adj l a c := fun h => adj_not_symm l hn c a h3 h
    rw [if_pos h3, if_neg h4, if_pos h3, h1 h3]; ring
  · by_cases h4 : Adj l a c
    · rw [if_neg h3, if_pos h4, if_pos h4, if_neg h3, h2 h4]; ring
    · rw [if_neg h3, if_neg h4, if_neg h4, if_neg h3]; ring

theorem rowSum_delta (n : Nat) (l : List Nat) (b : Int) (hn : l.Nodup)
    (hlt : ∀ x ∈ l, x < n) (a : Nat) :
    (∑ c in Finset.range n, delta l b a c)
      = (if a ∈ l.dropLast then b else 0) - (if a ∈ l.tail then b else 0) := by
  have e : ∀ c, delta l b a c
      = b * (if Adj l a c then 1 else 0) - b * (if Adj l c a then 1 else 0) := by
    intro c; unfold delta; split_ifs <;> ring
  rw [Finset.sum_congr rfl (fun c _ => e c), Finset.sum_sub_distrib, ← Finset.mul_sum,
    ← Finset.mul_sum, sum_adj_right n l hn hlt a, sum_adj_left n l hn hlt a]
  split_ifs <;> ring

theorem colSum_delta (n : Nat) (l : List Nat) (b : Int) (hn : l.Nodup)
    (hlt : ∀ x ∈ l, x < n) (c : Nat) :
    (∑ a in Finset.range n, delta l b a c)
      = (if c ∈ l.tail then b else 0) - (if c ∈ l.dropLast then b else 0) := by
  have e : ∀ a, delta l b a c
      = b * (if Adj l a c then 1 else 0) - b * (if Adj l c a then 1 else 0) := by
    intro a; unfold delta; split_ifs <;> ring
  rw [Finset.sum_congr rfl (fun a _ => e a), Finset.sum_sub_distrib, ← Finset.mul_sum,
    ← Finset.mul_sum, sum_adj_left n l hn hlt c, sum_adj_right n l hn hlt c]
  split_ifs <;> ring

theorem Augments.nodeCount_eq {source sink : Nat} {net net1 : FlowNetwork} {b : Int}
    (h : Augments source sink net net1 b) : net1.nodeCount = net.nodeCount := by
  obtain ⟨_, _, _, _, rfl⟩ := h; rfl

theorem Augments.pos {source sink : Nat} {net net1 : FlowNetwork} {b : Int}
    (h : Augments source sink net net1 b) : 0 < b ∧ b ≤ INT_MAX := by
  obtain ⟨parent, l, hp, rfl, _⟩ := h
  refine ⟨minCap_pos _ _ _ (by decide) (fun x p hx => (hp.adj x p hx).2.2.2.2.1),
    minCap_le_acc _ _ _⟩

theorem IsPath.mem_tail {net : FlowNetwork} {parent : Nat → Int} {source sink : Nat}
    {l : List Nat} (h : IsPath net parent source (sink :: l)) (a : Nat) :
    a ∈ (sink :: l).tail ↔ a ∈ sink :: l ∧ a ≠ sink := by
  have hs : sink ∉ l := (List.nodup_cons.mp h.nodup).1
  simp only [List.tail_cons, List.mem_cons]
  constructor
  · intro ha; exact ⟨Or.inr ha, fun e => hs (e ▸ ha)⟩
  · rintro ⟨e | ha, hne⟩
    · exact absurd e hne
    · exact ha

/-- Row sums after an update whose row `a` is exact (no wrap-around). -/
theorem rowSum_applyPath {net : FlowNetwork} {parent : Nat → Int} {source sink : Nat}
    {l : List Nat} (h : IsPath net parent source (sink :: l)) (hne : source ≠ sink)
    (b : Int) (cap1 : Nat → Nat → Int) (a : Nat)
    (he : ∀ c, c < net.nodeCount → cap1 a c = net.capacity a c + delta (sink :: l) b a c) :
    rowSum net.nodeCount cap1 a = rowSum net.nodeCount net.capacity a
      + (if a = sink then b else 0) - (if a = source then b else 0) := by
  unfold rowSum
  rw [Finset.sum_congr rfl (fun c hc => he c (Finset.mem_range.mp hc)), Finset.sum_add_distrib,
    rowSum_delta net.nodeCount (sink :: l) b h.nodup h.lt a]
  have h1 := h.mem_dropLast a
  have h2 := h.mem_tail a
  have hsm := h.source_mem
  by_cases e1 : a = sink
  · have e2 : a ≠ source := fun e => hne (e.symm.trans e1)
    have m : a ∈ sink :: l := by simp [e1]
    rw [if_pos (h1.mpr ⟨m, e2⟩), if_neg (fun hm => (h2.mp hm).2 e1), if_pos e1, if_neg e2]
    ring
  · by_cases e2 : a = source
    · rw [if_neg (fun hm => (h1.mp hm).2 e2), if_pos (h2.mpr ⟨e2 ▸ hsm, e1⟩), if_neg e1,
        if_pos e2]
      ring
    · by_cases m : a ∈ sink :: l
      · rw [if_pos (h1.mpr ⟨m, e2⟩), if_pos (h2.mpr ⟨m, e1⟩), if_neg e1, if_neg e2]; ring
      · rw [if_neg (fun hm => m (h1.mp hm).1), if_neg (fun hm => m (h2.mp hm).1), if_neg e1,
          if_neg e2]
        ring

/-- Column sums after an update whose column `c` is exact (no wrap-around). -/
theorem colSum_applyPath {net : FlowNetwork} {parent : Nat → Int} {source sink : Nat}
    {l : List Nat} (h : IsPath net parent source (sink :: l)) (hne : source ≠ sink)
    (b : Int) (cap1 : Nat → Nat → Int) (c : Nat)
    (he : ∀ a, a < net.nodeCount → cap1 a c = net.capacity a c + delta (sink :: l) b a c) :
    colSum net.nodeCount cap1 c = colSum net.nodeCount net.capacity c
      + (if c = source then b else 0) - (if c = sink then b else 0) := by
  unfold colSum
  rw [Finset.sum_congr rfl (fun a ha => he a (Finset.mem_range.mp ha)), Finset.sum_add_distrib,
    colSum_delta net.nodeCount (sink :: l) b h.nodup h.lt c]
  have h1 := h.mem_dropLast c
  have h2 := h.mem_tail c
  have hsm := h.source_mem
  by_cases e1 : c = sink
  · have e2 : c ≠ source := fun e => hne (e.symm.trans e1)
    have m : c ∈ sink :: l := by simp [e1]
    rw [if_pos (h1.mpr ⟨m, e2⟩), if_neg (fun hm => (h2.mp hm).2 e1), if_pos e1, if_neg e2]
    ring
  · by_cases e2 : c = source
    · rw [if_neg (fun hm => (h1.mp hm).2 e2), if_pos (h2.mpr ⟨e2 ▸ hsm, e1⟩), if_neg e1,
        if_pos e2]
      ring
    · by_cases m : c ∈ sink :: l
      · rw [if_pos (h1.mpr ⟨m, e2⟩), if_pos (h2.mpr ⟨m, e1⟩), if_neg e1, if_neg e2]; ring
      · rw [if_neg (fun hm => m (h1.mp hm).1), if_neg (fun hm => m (h2.mp hm).1), if_neg e1,
          if_neg e2]
        ring

theorem Augments.row_step {source sink : Nat} {net net1 : FlowNetwork} {b : Int}
    (h : Augments source sink net net1 b) (hne : source ≠ sink) (hrow : RowOK net source) :
    RowOK net1 source ∧
      rowSum net1.nodeCount net1.capacity source
        = rowSum net.nodeCount net.capacity source - b := by
  have hpos := h.pos
  obtain ⟨parent, l, hp, hb, rfl⟩ := h
  have hno : ∀ c, ¬ Adj (sink :: l) source c := fun c hc => (hp.adj _ _ hc).1 rfl
  have hent : ∀ c, c < net.nodeCount →
      applyPath wrap32 b (sink :: l) net.capacity source c
        = net.capacity source c + delta (sink :: l) b source c := by
    intro c hc
    apply applyPath_entry b _ _ hp.nodup
    · intro hadj
      have hle : b ≤ net.capacity source c := hb ▸ minCap_le_adj _ _ _ _ _ hadj
      have h1 := (hrow c hc).2 (hp.adj _ _ hadj).2.2.2.2.2
      apply wrap32_eq <;> unfold INT_MAX at * <;> omega
    · intro hadj; exact absurd hadj (hno c)
  constructor
  · intro c hc
    show 0 ≤ applyPath wrap32 b (sink :: l) net.capacity source c ∧
      (c ≠ source → applyPath wrap32 b (sink :: l) net.capacity source c ≤ INT_MAX)
    rw [hent c hc]
    unfold delta
    rw [if_neg (hno c)]
    obtain ⟨h1, h2⟩ := hrow c hc
    by_cases hadj : Adj (sink :: l) c source
    · have hle : b ≤ net.capacity source c := hb ▸ minCap_le_adj _ _ _ _ _ hadj
      rw [if_pos hadj]
      exact ⟨by omega, fun hcs => by have := h2 hcs; omega⟩
    · rw [if_neg hadj]
      exact ⟨by omega, fun hcs => by have := h2 hcs; omega⟩
  · have := rowSum_applyPath hp hne b (applyPath wrap32 b (sink :: l) net.capacity) source hent
    rw [if_neg hne, if_pos rfl] at this
    show rowSum net.nodeCount (applyPath wrap32 b (sink :: l) net.capacity) source = _
    rw [this]; ring

theorem Augments.col_step {source sink : Nat} {net net1 : FlowNetwork} {b : Int}
    (h : Augments source sink net net1 b) (hne : source ≠ sink) (hcol : ColOK net sink) :
    ColOK net1 sink ∧
      colSum net1.nodeCount net1.capacity sink
        = colSum net.nodeCount net.capacity sink - b := by
  have hpos := h.pos
  obtain ⟨parent, l, hp, hb, rfl⟩ := h
  have hno : ∀ a, ¬ Adj (sink :: l) a sink := by
    intro a ha
    have := ha.mem_right
    exact (List.nodup_cons.mp hp.nodup).1 (by simpa using this)
  have hent : ∀ a, a < net.nodeCount →
      applyPath wrap32 b (sink :: l) net.capacity a sink
        = net.capacity a sink + delta (sink :: l) b a sink := by
    intro a ha
    apply applyPath_entry b _ _ hp.nodup
    · intro hadj
      have hle : b ≤ net.capacity a sink := hb ▸ minCap_le_adj _ _ _ _ _ hadj
      have h1 := (hcol a ha).2 (Ne.symm (hp.adj _ _ hadj).2.2.2.2.2)
      apply wrap32_eq <;> unfold INT_MAX at * <;> omega
    · intro hadj; exact absurd hadj (hno a)
  constructor
  · intro a ha
    show 0 ≤ applyPath wrap32 b (sink :: l) net.capacity a sink ∧
      (a ≠ sink → applyPath wrap32 b (sink :: l) net.capacity a sink ≤ INT_MAX)
    rw [hent a ha]
    unfold delta
    rw [if_neg (hno a)]
    obtain ⟨h1, h2⟩ := hcol a ha
    by_cases hadj : Adj (sink :: l) sink a
    · have hle : b ≤ net.capacity a sink := hb ▸ minCap_le_adj _ _ _ _ _ hadj
      rw [if_pos hadj]
      exact ⟨by omega, fun hcs => by have := h2 hcs; omega⟩
    · rw [if_neg hadj]
      exact ⟨by omega, fun hcs => by have := h2 hcs; omega⟩
  · have := colSum_applyPath hp hne b (applyPath wrap32 b (sink :: l) net.capacity) sink hent
    rw [if_neg (Ne.symm hne), if_pos rfl] at this
    show colSum net.nodeCount (applyPath wrap32 b (sink :: l) net.capacity) sink = _
    rw [this]; ring

/-- Without wrap-around (non-negative entries, opposite pairs adding up to at most
`INT_MAX`) an augmentation keeps these two properties and every sum of two opposite
entries, and moves `b` from row `source` to row `sink`. -/
theorem Augments.exact_step {source sink : Nat} {net net1 : FlowNetwork} {b : Int}
    (h : Augments source sink net net1 b) (hne : source ≠ sink) (hnn : NonNeg net)
    (hpf : PairsFit net) :
    NonNeg net1 ∧ PairsFit net1 ∧
      (∀ a, a < net.nodeCount → ∀ c, c < net.nodeCount →
        net1.capacity a c + net1.capacity c a = net.capacity a c + net.capacity c a) ∧
      (∀ a, rowSum net1.nodeCount net1.capacity a = rowSum net.nodeCount net.capacity a
        + (if a = sink then b else 0) - (if a = source then b else 0)) ∧
      (∀ c, colSum net1.nodeCount net1.capacity c = colSum net.nodeCount net.capacity c
        + (if c = source then b else 0) - (if c = sink then b else 0)) := by
  have hpos := h.pos
  obtain ⟨parent, l, hp, hb, rfl⟩ := h
  have hent : ∀ a, a < net.nodeCount → ∀ c, c < net.nodeCount →
      applyPath wrap32 b (sink :: l) net.capacity a c
        = net.capacity a c + delta (sink :: l) b a c := by
    intro a ha c hc
    apply applyPath_entry b _ _ hp.nodup
    · intro hadj
      have hle : b ≤ net.capacity a c := hb ▸ minCap_le_adj _ _ _ _ _ hadj
      have hac : a ≠ c := fun e => (hp.adj _ _ hadj).2.2.2.2.2 e.symm
      have h1 := hpf a ha c hc hac
      have h2 := hnn c hc a ha
      apply wrap32_eq <;> unfold INT_MAX at * <;> omega
    · intro hadj
      have hle : b ≤ net.capacity c a := hb ▸ minCap_le_adj _ _ _ _ _ hadj
      have hac : a ≠ c := (hp.adj _ _ hadj).2.2.2.2.2
      have h1 := hpf a ha c hc hac
      have h2 := hnn a ha c hc
      apply wrap32_eq <;> unfold INT_MAX at * <;> omega
  have hsum : ∀ a, a < net.nodeCount → ∀ c, c < net.nodeCount →
      applyPath wrap32 b (sink :: l) net.capacity a c
        + applyPath wrap32 b (sink :: l) net.capacity c a
        = net.capacity a c + net.capacity c a := by
    intro a ha c hc
    rw [hent a ha c hc, hent c hc a ha]
    unfold delta; ring
  have hnn1 : ∀ a, a < net.nodeCount → ∀ c, c < net.nodeCount →
      0 ≤ applyPath wrap32 b (sink :: l) net.capacity a c := by
    intro a ha c hc
    rw [hent a ha c hc]
    have h2 := hnn a ha c hc
    unfold delta
    by_cases hadj : Adj (sink :: l) c a
    · have hle : b ≤ net.capacity a c := hb ▸ minCap_le_adj _ _ _ _ _ hadj
      rw [if_neg (fun h => adj_not_symm _ hp.nodup c a hadj h), if_pos hadj]; omega
    · rw [if_neg hadj]
      split_ifs <;> omega
  refine ⟨hnn1, ?_, hsum, ?_, ?_⟩
  · intro a ha c hc hac
    show applyPath wrap32 b (sink :: l) net.capacity a c
        + applyPath wrap32 b (sink :: l) net.capacity c a ≤ INT_MAX
    rw [hsum a ha c hc]; exact hpf a ha c hc hac
  · intro a
    by_cases ha : a < net.nodeCount
    · exact rowSum_applyPath hp hne b _ a (hent a ha)
    · have hmem : a ∉ sink :: l := fun hm => ha (hp.lt a hm)
      have e1 : a ≠ sink := fun e => hmem (by simp [e])
      have e2 : a ≠ source := fun e => hmem (e ▸ hp.source_mem)
      rw [if_neg e1, if_neg e2]
      show rowSum net.nodeCount (applyPath wrap32 b (sink :: l) net.capacity) a = _
      unfold rowSum
      simp only [add_zero, sub_zero]
      apply Finset.sum_congr rfl
      intro c _
      rw [applyPath_apply wrap32 b _ _ hp.nodup,
        if_neg (fun h => hmem h.mem_right_list), if_neg (fun h => hmem h.mem_left)]
  · intro c
    by_cases hc : c < net.nodeCount
    · exact colSum_applyPath hp hne b _ c (fun a ha => hent a ha c hc)
    · have hmem : c ∉ sink :: l := fun hm => hc (hp.lt c hm)
      have e1 : c ≠ sink := fun e => hmem (by simp [e])
      have e2 : c ≠ source := fun e => hmem (e ▸ hp.source_mem)
      rw [if_neg e1, if_neg e2]
      show colSum net.nodeCount (applyPath wrap32 b (sink :: l) net.capacity) c = _
      unfold colSum
      simp only [add_zero, sub_zero]
      apply Finset.sum_congr rfl
      intro a _
      rw [applyPath_apply wrap32 b _ _ hp.nodup,
        if_neg (fun h => hmem h.mem_left), if_neg (fun h => hmem h.mem_right_list)]

/-! ## More fuel does not change a result -/

theorem pathFlowLoop_mono (cap : Nat → Nat → Int) (parent : Nat → Int) (source : Nat) :
    ∀ (fuel fuel1 node : Nat) (acc r : Int), fuel ≤ fuel1 →
      pathFlowLoop cap parent source fuel node acc = some r →
      pathFlowLoop cap parent source fuel1 node acc = some r
  | 0, _, _, _, _, _, h => by simp [pathFlowLoop] at h
  | fuel + 1, 0, _, _, _, hle, _ => by omega
  | fuel + 1, fuel1 + 1, node, acc, r, hle, h => by
    rw [pathFlowLoop] at h ⊢
    by_cases h1 : node = source
    · rw [if_pos h1] at h ⊢; exact h
    · rw [if_neg h1] at h ⊢
      by_cases h2 : parent node < 0
      · rw [if_pos h2] at h; exact Option.noConfusion h
      · rw [if_neg h2] at h ⊢
        exact pathFlowLoop_mono cap parent source fuel fuel1 _ _ r (by omega) h

theorem updateLoop_mono (parent : Nat → Int) (source : Nat) (b : Int) :
    ∀ (fuel fuel1 node : Nat) (cap r : Nat → Nat → Int), fuel ≤ fuel1 →
      updateLoop parent source b fuel node cap = some r →
      updateLoop parent source b fuel1 node cap = some r
  | 0, _, _, _, _, _, h => by simp [updateLoop] at h
  | fuel + 1, 0, _, _, _, hle, _ => by omega
  | fuel + 1, fuel1 + 1, node, cap, r, hle, h => by
    rw [updateLoop] at h ⊢
    by_cases h1 : node = source
    · rw [if_pos h1] at h ⊢; exact h
    · rw [if_neg h1] at h ⊢
      by_cases h2 : parent node < 0
      · rw [if_pos h2] at h; exact Option.noConfusion h
      · rw [if_neg h2] at h ⊢
        exact updateLoop_mono parent source b fuel fuel1 _ _ r (by omega) h

theorem augment_mono (fuel fuel1 : Nat) (hle : fuel ≤ fuel1) (net : FlowNetwork)
    (parent : Nat → Int) (source sink : Nat) (r : Int × FlowNetwork)
    (h : augment fuel net parent source sink = some r) :
    augment fuel1 net parent source sink = some r := by
  unfold augment at h ⊢
  cases h1 : pathFlowLoop net.capacity parent source fuel sink INT_MAX with
  | none => rw [h1] at h; exact Option.noConfusion h
  | some b =>
    rw [h1] at h
    rw [pathFlowLoop_mono _ _ _ fuel fuel1 _ _ b hle h1]
    simp only at h ⊢
    cases h2 : updateLoop parent source b fuel sink net.capacity with
    | none => rw [h2] at h; exact Option.noConfusion h
    | some cap =>
      rw [h2] at h
      rw [updateLoop_mono _ _ _ fuel fuel1 _ _ cap hle h2]
      exact h

theorem Bfs.loop_mono (net : FlowNetwork) (sink : Nat) :
    ∀ (fuel fuel1 : Nat) (st : Bfs.State) (r : Bool × (Nat → Int)), fuel ≤ fuel1 →
      Bfs.loop net sink fuel st = some r → Bfs.loop net sink fuel1 st = some r
  | 0, _, _, _, _, h => by simp [Bfs.loop] at h
  | fuel + 1, 0, _, _, hle, _ => by omega
  | fuel + 1, fuel1 + 1, st, r, hle, h => by
    rw [Bfs.loop] at h ⊢
    cases hq : st.queue with
    | nil => rw [hq] at h; exact h
    | cons current q =>
      rw [hq] at h
      simp only at h ⊢
      cases hsc : Bfs.scan net.capacity sink current (List.range net.nodeCount)
          { st with queue := q } with
      | mk flag st1 =>
        rw [hsc] at h
        cases flag with
        | true => exact h
        | false => exact Bfs.loop_mono net sink fuel fuel1 st1 r (by omega) h

theorem Bfs.bfsFindPath_mono (fuel fuel1 : Nat) (hle : fuel ≤ fuel1) (start sink : Nat)
    (net : FlowNetwork) (parent : Nat → Int) (r : Bool × (Nat → Int))
    (h : Bfs.bfsFindPath fuel start sink net parent = some r) :
    Bfs.bfsFindPath fuel1 start sink net parent = some r :=
  Bfs.loop_mono net sink fuel fuel1 _ r hle h

theorem Dfs.scan_mono
    (call call1 : Nat → (Nat → Int) → (Nat → Bool) → Option (Bool × (Nat → Int) × (Nat → Bool)))
    (hc : ∀ next p V r, call next p V = some r → call1 next p V = some r)
    (cap : Nat → Nat → Int) (current : Nat) :
    ∀ (nexts : List Nat) (p : Nat → Int) (V : Nat → Bool) (r : Bool × (Nat → Int) × (Nat → Bool)),
      Dfs.scan call cap current nexts p V = some r →
      Dfs.scan call1 cap current nexts p V = some r
  | [], _, _, _, h => by simpa [Dfs.scan] using h
  | next :: rest, p, V, r, h => by
    rw [Dfs.scan] at h ⊢
    by_cases hcond : ((!V next) && decide (0 < cap current next)) = true
    · rw [if_pos hcond] at h ⊢
      cases hcall : call next (setVec p next (current : Int)) V with
      | none => rw [hcall] at h; exact Option.noConfusion h
      | some res =>
        rw [hcall] at h
        rw [hc _ _ _ _ hcall]
        obtain ⟨flag, p1, V1⟩ := res
        cases flag with
        | true => exact h
        | false => exact Dfs.scan_mono call call1 hc cap current rest p1 V1 r h
    · rw [if_neg hcond] at h ⊢
      exact Dfs.scan_mono call call1 hc cap current rest p V r h

theorem Dfs.findPath_mono (net : FlowNetwork) (sink : Nat) :
    ∀ (fuel fuel1 current : Nat) (p : Nat → Int) (V : Nat → Bool)
      (r : Bool × (Nat → Int) × (Nat → Bool)), fuel ≤ fuel1 →
      Dfs.findPath net sink fuel current p V = some r →
      Dfs.findPath net sink fuel1 current p V = some r
  | 0, _, _, _, _, _, _, h => by simp [Dfs.findPath] at h
  | fuel + 1, 0, _, _, _, _, hle, _ => by omega
  | fuel + 1, fuel1 + 1, current, p, V, r, hle, h => by
    rw [Dfs.findPath] at h ⊢
    by_cases hs : current = sink
    · rw [if_pos hs] at h ⊢; exact h
    · rw [if_neg hs] at h ⊢
      exact Dfs.scan_mono _ _
        (fun next p V r h => Dfs.findPath_mono net sink fuel fuel1 next p V r (by omega) h)
        _ _ _ _ _ r h

theorem Dfs.search_mono (fuel fuel1 : Nat) (hle : fuel ≤ fuel1) (source sink : Nat)
    (net : FlowNetwork) (parent : Nat → Int) (r : Bool × (Nat → Int))
    (h : Dfs.search fuel source sink net parent = some r) :
    Dfs.search fuel1 source sink net parent = some r := by
  unfold Dfs.search at h ⊢
  cases hf : Dfs.findPath net sink fuel source parent (fun _ => false) with
  | none => rw [hf] at h; exact Option.noConfusion h
  | some res =>
    rw [hf] at h
    rw [Dfs.findPath_mono net sink fuel fuel1 _ _ _ res hle hf]
    exact h

theorem iteration_mono
    (search search1 : FlowNetwork → (Nat → Int) → Option (Bool × (Nat → Int)))
    (hs : ∀ net p r, search net p = some r → search1 net p = some r)
    (inner inner1 : Nat) (hle : inner ≤ inner1) (source sink : Nat) (st : LoopState)
    (r : Option LoopState) (h : iteration search inner source sink st = some r) :
    iteration search1 inner1 source sink st = some r := by
  unfold iteration at h ⊢
  cases h1 : search st.net st.parent with
  | none => rw [h1] at h; exact Option.noConfusion h
  | some res =>
    rw [h1] at h
    rw [hs _ _ _ h1]
    obtain ⟨flag, p1⟩ := res
    cases flag with
    | false => exact h
    | true =>
      simp only at h ⊢
      cases h2 : augment inner st.net p1 source sink with
      | none => rw [h2] at h; exact Option.noConfusion h
      | some res2 =>
        rw [h2] at h
        rw [augment_mono inner inner1 hle _ _ _ _ res2 h2]
        exact h

theorem maxFlowLoop_mono
    (search search1 : FlowNetwork → (Nat → Int) → Option (Bool × (Nat → Int)))
    (hs : ∀ net p r, search net p = some r → search1 net p = some r)
    (inner inner1 : Nat) (hle : inner ≤ inner1) (source sink : Nat) :
    ∀ (fuel fuel1 : Nat) (st : LoopState) (r : Int × FlowNetwork), fuel ≤ fuel1 →
      maxFlowLoop search inner source sink fuel st = some r →
      maxFlowLoop search1 inner1 source sink fuel1 st = some r
  | 0, _, _, _, _, h => by simp [maxFlowLoop] at h
  | fuel + 1, 0, _, _, hf, _ => by omega
  | fuel + 1, fuel1 + 1, st, r, hf, h => by
    rw [maxFlowLoop] at h ⊢
    cases h1 : iteration search inner source sink st with
    | none => rw [h1] at h; exact Option.noConfusion h
    | some res =>
      rw [h1] at h
      rw [iteration_mono search search1 hs inner inner1 hle source sink st res h1]
      cases res with
      | none => exact h
      | some st1 =>
        exact maxFlowLoop_mono search search1 hs inner inner1 hle source sink fuel fuel1 st1 r
          (by omega) h

theorem stateAfter_mono
    (search search1 : FlowNetwork → (Nat → Int) → Option (Bool × (Nat → Int)))
    (hs : ∀ net p r, search net p = some r → search1 net p = some r)
    (inner inner1 : Nat) (hle : inner ≤ inner1) (source sink : Nat) :
    ∀ (k : Nat) (st st1 : LoopState),
      stateAfter search inner source sink k st = some st1 →
      stateAfter search1 inner1 source sink k st = some st1
  | 0, _, _, h => by simpa [stateAfter] using h
  | k + 1, st, st1, h => by
    rw [stateAfter] at h ⊢
    cases h1 : iteration search inner source sink st with
    | none => rw [h1] at h; exact Option.noConfusion h
    | some res =>
      rw [h1] at h
      rw [iteration_mono search search1 hs inner inner1 hle source sink st res h1]
      cases res with
      | none => exact Option.noConfusion h
      | some st2 =>
        exact stateAfter_mono search search1 hs inner inner1 hle source sink k st2 st1 h

/-! ## The augmenting loop -/

theorem SearchOK.sound {search : FlowNetwork → (Nat → Int) → Option (Bool × (Nat → Int))}
    {source sink n : Nat} (h : SearchOK search source sink n) :
    SearchSound search source sink n := by
  intro net parent parent1 hn hs
  obtain ⟨flag, p1, h1, h2, _⟩ := h net parent hn
  rw [h1] at hs
  simp only [Option.some.injEq, Prod.mk.injEq] at hs
  obtain ⟨rfl, rfl⟩ := hs
  exact h2 rfl

theorem Bfs.bfs_searchOK (fuel source sink n : Nat) (hs : source < n) (hne : source ≠ sink)
    (hf : n < fuel) : SearchOK (Bfs.bfsFindPath fuel source sink) source sink n := by
  intro net parent hn
  subst hn
  obtain ⟨flag, p1, h1, h2, h3⟩ := Bfs.bfsFindPath_spec net source sink parent fuel hs hf
  exact ⟨flag, p1, h1, fun h => (h2 h).2, fun h => h3 h hne⟩

theorem Dfs.dfs_searchOK (fuel source sink n : Nat) (hs : source < n) (hf : n ≤ fuel) :
    SearchOK (Dfs.search fuel source sink) source sink n := by
  intro net parent hn
  subst hn
  exact Dfs.search_spec net source sink parent fuel hs hf

theorem Bfs.bfs_searchSound (fuel source sink n : Nat) (hs : source < n) :
    SearchSound (Bfs.bfsFindPath fuel source sink) source sink n := by
  intro net parent parent1 hn h
  subst hn
  have h1 := Bfs.bfsFindPath_mono fuel (max fuel (net.nodeCount + 1)) (le_max_left _ _)
    source sink net parent _ h
  obtain ⟨flag, p1, h2, h3, _⟩ := Bfs.bfsFindPath_spec net source sink parent
    (max fuel (net.nodeCount + 1)) hs (by omega)
  rw [h1] at h2
  simp only [Option.some.injEq, Prod.mk.injEq] at h2
  obtain ⟨rfl, rfl⟩ := h2
  exact (h3 rfl).2

theorem Dfs.dfs_searchSound (fuel source sink n : Nat) (hs : source < n) :
    SearchSound (Dfs.search fuel source sink) source sink n := by
  intro net parent parent1 hn h
  subst hn
  have h1 := Dfs.search_mono fuel (max fuel net.nodeCount) (le_max_left _ _)
    source sink net parent _ h
  obtain ⟨flag, p1, h2, h3, _⟩ := Dfs.search_spec net source sink parent
    (max fuel net.nodeCount) hs (le_max_right _ _)
  rw [h1] at h2
  simp only [Option.some.injEq, Prod.mk.injEq] at h2
  obtain ⟨rfl, rfl⟩ := h2
  exact h3 rfl

/-- An iteration that goes on has performed one augmentation. -/
theorem iteration_sound {search : FlowNetwork → (Nat → Int) → Option (Bool × (Nat → Int))}
    {source sink n : Nat} (hS : SearchSound search source sink n) (inner : Nat)
    (st st1 : LoopState) (hn : st.net.nodeCount = n)
    (h : iteration search inner source sink st = some (some st1)) :
    ∃ b, Augments source sink st.net st1.net b ∧ st1.maxFlow = wrap32 (st.maxFlow + b) := by
  unfold iteration at h
  cases h1 : search st.net st.parent with
  | none => rw [h1] at h; exact Option.noConfusion h
  | some res =>
    rw [h1] at h
    obtain ⟨flag, p1⟩ := res
    cases flag with
    | false => simp at h
    | true =>
      simp only at h
      obtain ⟨l, hl⟩ := hS st.net st.parent p1 hn h1
      cases h2 : augment inner st.net p1 source sink with
      | none => rw [h2] at h; exact Option.noConfusion h
      | some res2 =>
        rw [h2] at h
        have h3 := augment_mono inner (max inner st.net.nodeCount) (le_max_left _ _) _ _ _ _ _ h2
        rw [augment_eq st.net p1 source sink l _ hl (le_max_right _ _)] at h3
        simp only [Option.some.injEq] at h3 h
        subst h3
        simp only [Option.some.injEq] at h
        subst h
        exact ⟨_, ⟨p1, l, hl, rfl, rfl⟩, rfl⟩

/-- An iteration of the loop either exits, on a network without residual path, or performs
one augmentation. -/
theorem iteration_spec {search : FlowNetwork → (Nat → Int) → Option (Bool × (Nat → Int))}
    {source sink n : Nat} (hS : SearchOK search source sink n) (inner : Nat) (hi : n ≤ inner)
    (st : LoopState) (hn : st.net.nodeCount = n) :
    (iteration search inner source sink st = some none ∧ ¬ Reachable st.net source sink) ∨
      ∃ st1, iteration search inner source sink st = some (some st1) := by
  obtain ⟨flag, p1, h1, h2, h3⟩ := hS st.net st.parent hn
  cases flag with
  | false =>
    left
    exact ⟨by simp [iteration, h1], h3 rfl⟩
  | true =>
    right
    obtain ⟨l, hl⟩ := h2 rfl
    simp only [iteration, h1, augment_eq st.net p1 source sink l inner hl (hn ▸ hi)]
    exact ⟨_, rfl⟩

theorem Run.nodeCount {source sink : Nat} {net net1 : FlowNetwork} {F : Int}
    (h : Run source sink net net1 F) : net1.nodeCount = net.nodeCount := by
  induction h with
  | refl => rfl
  | step ha _ ih => rw [ih, ha.nodeCount_eq]

theorem Run.row {source sink : Nat} {net net1 : FlowNetwork} {F : Int}
    (h : Run source sink net net1 F) (hne : source ≠ sink) (hrow : RowOK net source) :
    RowOK net1 source ∧ 0 ≤ F ∧
      rowSum net1.nodeCount net1.capacity source
        = rowSum net.nodeCount net.capacity source - F := by
  induction h with
  | refl => exact ⟨hrow, le_refl _, by ring⟩
  | step ha _ ih =>
    obtain ⟨h1, h2⟩ := ha.row_step hne hrow
    obtain ⟨h3, h4, h5⟩ := ih h1
    have := ha.pos
    exact ⟨h3, by omega, by rw [h5, h2]; ring⟩

theorem Run.col {source sink : Nat} {net net1 : FlowNetwork} {F : Int}
    (h : Run source sink net net1 F) (hne : source ≠ sink) (hcol : ColOK net sink) :
    ColOK net1 sink ∧
      colSum net1.nodeCount net1.capacity sink
        = colSum net.nodeCount net.capacity sink - F := by
  induction h with
  | refl => exact ⟨hcol, by ring⟩
  | step ha _ ih =>
    obtain ⟨h1, h2⟩ := ha.col_step hne hcol
    obtain ⟨h3, h5⟩ := ih h1
    exact ⟨h3, by rw [h5, h2]; ring⟩

theorem Run.exact {source sink : Nat} {net net1 : FlowNetwork} {F : Int}
    (h : Run source sink net net1 F) (hne : source ≠ sink) (hnn : NonNeg net)
    (hpf : PairsFit net) :
    NonNeg net1 ∧ PairsFit net1 ∧
      (∀ a, a < net.nodeCount → ∀ c, c < net.nodeCount →
        net1.capacity a c + net1.capacity c a = net.capacity a c + net.capacity c a) ∧
      (∀ a, rowSum net1.nodeCount net1.capacity a = rowSum net.nodeCount net.capacity a
        + (if a = sink then F else 0) - (if a = source then F else 0)) ∧
      (∀ c, colSum net1.nodeCount net1.capacity c = colSum net.nodeCount net.capacity c
        + (if c = source then F else 0) - (if c = sink then F else 0)) := by
  induction h with
  | refl => exact ⟨hnn, hpf, fun _ _ _ _ => rfl, fun a => by simp, fun c => by simp⟩
  | step ha _ ih =>
    obtain ⟨h1, h2, h3, h4, h5⟩ := ha.exact_step hne hnn hpf
    obtain ⟨i1, i2, i3, i4, i5⟩ := ih h1 h2
    have hcount := ha.nodeCount_eq
    refine ⟨i1, i2, ?_, ?_, ?_⟩
    · intro a ha1 c hc
      rw [i3 a (hcount ▸ ha1) c (hcount ▸ hc), h3 a ha1 c hc]
    · intro a
      rw [i4 a, h4 a]; split_ifs <;> ring
    · intro c
      rw [i5 c, h5 c]; split_ifs <;> ring

theorem wrap32_idem (x : Int) : wrap32 (wrap32 x) = wrap32 x := by
  unfold wrap32; omega

/-- The states of the loop are linked by augmentations; the accumulator is the wrapped
total. -/
theorem stateAfter_run {search : FlowNetwork → (Nat → Int) → Option (Bool × (Nat → Int))}
    {source sink n : Nat} (hS : SearchSound search source sink n) (inner : Nat) :
    ∀ (k : Nat) (st st1 : LoopState), st.net.nodeCount = n →
      wrap32 st.maxFlow = st.maxFlow →
      stateAfter search inner source sink k st = some st1 →
      ∃ F, Run source sink st.net st1.net F ∧ st1.maxFlow = wrap32 (st.maxFlow + F)
  | 0, st, st1, _, hw, h => by
    simp only [stateAfter, Option.some.injEq] at h
    subst h
    exact ⟨0, Run.refl _, by rw [add_zero, hw]⟩
  | k + 1, st, st1, hn, hw, h => by
    rw [stateAfter] at h
    cases h1 : iteration search inner source sink st with
    | none => rw [h1] at h; exact Option.noConfusion h
    | some res =>
      rw [h1] at h
      cases res with
      | none => exact Option.noConfusion h
      | some st2 =>
        simp only at h
        obtain ⟨b, hb, hm⟩ := iteration_sound hS inner st st2 hn h1
        obtain ⟨F, hF, hm2⟩ := stateAfter_run hS inner k st2 st1 (hb.nodeCount_eq.trans hn)
          (by rw [hm, wrap32_idem]) h
        refine ⟨b + F, Run.step hb hF, ?_⟩
        rw [hm2, hm, wrap32_wrap32_add, add_assoc]

/-- The loop exits: with fuel above the sum of row `source` it performs some number `k` of
augmentations and then finds no path. -/
theorem maxFlowLoop_returns
    {search : FlowNetwork → (Nat → Int) → Option (Bool × (Nat → Int))}
    {source sink n : Nat} (hS : SearchOK search source sink n) (inner : Nat) (hi : n ≤ inner)
    (hne : source ≠ sink) :
    ∀ (fuel : Nat) (st : LoopState), st.net.nodeCount = n → RowOK st.net source →
      (rowSum n st.net.capacity source).toNat < fuel →
      ∃ k st1, stateAfter search inner source sink k st = some st1 ∧
        iteration search inner source sink st1 = some none ∧
        maxFlowLoop search inner source sink fuel st = some (st1.maxFlow, st1.net) ∧
        ¬ Reachable st1.net source sink
  | 0, _, _, _, h => by omega
  | fuel + 1, st, hn, hrow, hfuel => by
    rcases iteration_spec hS inner hi st hn with ⟨h1, h2⟩ | ⟨st2, h1⟩
    · exact ⟨0, st, rfl, h1, by rw [maxFlowLoop, h1], h2⟩
    · obtain ⟨b, hb, _⟩ := iteration_sound hS.sound inner st st2 hn h1
      obtain ⟨hrow2, hsum⟩ := hb.row_step hne hrow
      have hpos := hb.pos
      have hn2 : st2.net.nodeCount = n := hb.nodeCount_eq.trans hn
      rw [hn2, hn] at hsum
      have hnonneg : 0 ≤ rowSum n st2.net.capacity source :=
        Finset.sum_nonneg (fun c hc => (hrow2 c (hn2 ▸ Finset.mem_range.mp hc)).1)
      obtain ⟨k, st1, h3, h4, h5, h6⟩ := maxFlowLoop_returns hS inner hi hne fuel st2 hn2 hrow2
        (by omega)
      refine ⟨k + 1, st1, ?_, h4, ?_, h6⟩
      · rw [stateAfter, h1]; exact h3
      · rw [maxFlowLoop, h1]; exact h5

/-! ## Maximum flow and minimum cut -/

theorem cut_identity {K : Type} [LinearOrderedCommRing K] (n : Nat) (S : Finset Nat)
    (hS : S ⊆ Finset.range n) (h : Nat → Nat → K) :
    (∑ v in S, (rowSum n h v - colSum n h v))
      = ∑ v in S, ∑ u in Finset.range n \ S, (h v u - h u v) := by
  have h1 : ∀ v, rowSum n h v - colSum n h v
      = (∑ u in Finset.range n \ S, (h v u - h u v)) + ∑ u in S, (h v u - h u v) := by
    intro v
    rw [Finset.sum_sdiff hS]
    unfold rowSum colSum
    rw [Finset.sum_sub_distrib]
  rw [Finset.sum_congr rfl (fun v _ => h1 v), Finset.sum_add_distrib]
  have h2 : (∑ v in S, ∑ u in S, (h v u - h u v)) = 0 := by
    have : (∑ v in S, ∑ u in S, (h v u - h u v))
        = (∑ v in S, ∑ u in S, h v u) - ∑ v in S, ∑ u in S, h u v := by
      rw [← Finset.sum_sub_distrib]
      apply Finset.sum_congr rfl
      intro v _
      rw [Finset.sum_sub_distrib]
    rw [this, Finset.sum_comm]
    exact sub_self _
  rw [h2, add_zero]

theorem flow_cut {K : Type} [LinearOrderedCommRing K] {net : FlowNetwork} {source sink : Nat}
    {f : Nat → Nat → K} (hf : IsFlow net source sink f) (S : Finset Nat) (hS : S ⊆ Finset.range net.nodeCount)
    (hs : source ∈ S) (ht : sink ∉ S) :
    (∑ v in S, (rowSum net.nodeCount f v - colSum net.nodeCount f v))
      = flowValue net source f := by
  rw [Finset.sum_eq_single source]
  · rfl
  · intro v hv hne
    have hvn : v < net.nodeCount := Finset.mem_range.mp (hS hv)
    have := hf.conserve v hvn hne (fun e => ht (e ▸ hv))
    rw [this, sub_self]
  · intro h; exact absurd hs h

theorem residualFlow_sub {net net1 : FlowNetwork}
    (hpair : ∀ a, a < net.nodeCount → ∀ c, c < net.nodeCount →
      net1.capacity a c + net1.capacity c a = net.capacity a c + net.capacity c a)
    (u v : Nat) (hu : u < net.nodeCount) (hv : v < net.nodeCount) :
    residualFlow net net1 u v - residualFlow net net1 v u
      = net.capacity u v - net1.capacity u v := by
  have := hpair u hu v hv
  unfold residualFlow
  rcases le_total (net.capacity u v - net1.capacity u v) 0 with h | h
  · rw [max_eq_right h, max_eq_left (by omega)]; omega
  · rw [max_eq_left h, max_eq_right (by omega)]; omega

theorem residualFlow_net {net net1 : FlowNetwork}
    (hpair : ∀ a, a < net.nodeCount → ∀ c, c < net.nodeCount →
      net1.capacity a c + net1.capacity c a = net.capacity a c + net.capacity c a)
    (v : Nat) (hv : v < net.nodeCount) :
    rowSum net.nodeCount (residualFlow net net1) v
        - colSum net.nodeCount (residualFlow net net1) v
      = rowSum net.nodeCount net.capacity v - rowSum net.nodeCount net1.capacity v := by
  unfold rowSum colSum
  rw [← Finset.sum_sub_distrib, ← Finset.sum_sub_distrib]
  apply Finset.sum_congr rfl
  intro u hu
  exact residualFlow_sub hpair v u hv (Finset.mem_range.mp hu)

/-- Max-flow min-cut for a residual matrix without residual path: the amount `F` moved out
of row `source` is the value of a maximum flow of the original network. -/
theorem maxflow_of_drained (net net1 : FlowNetwork) (source sink : Nat) (F : Int)
    (hcount : net1.nodeCount = net.nodeCount)
    (hs : source < net.nodeCount) (hne : source ≠ sink)
    (hnn : NonNeg net) (hnn1 : NonNeg net1)
    (hpair : ∀ a, a < net.nodeCount → ∀ c, c < net.nodeCount →
      net1.capacity a c + net1.capacity c a = net.capacity a c + net.capacity c a)
    (hrow : ∀ a, rowSum net1.nodeCount net1.capacity a = rowSum net.nodeCount net.capacity a
      + (if a = sink then F else 0) - (if a = source then F else 0))
    (hdrained : ¬ Reachable net1 source sink) :
    IsMaxFlowValue net source sink F := by
  classical
  rw [hcount] at hrow
  have hflow : IsFlow net source sink (residualFlow net net1) := by
    refine ⟨fun u _ v _ => le_max_right _ _, ?_, ?_⟩
    · intro u hu v hv
      have h1 := hnn u hu v hv
      have h2 := hnn1 u (hcount ▸ hu) v (hcount ▸ hv)
      unfold residualFlow
      simp only [Int.cast_id]
      exact max_le (by omega) h1
    · intro v hv h1 h2
      have := residualFlow_net hpair v hv
      rw [hrow v, if_neg h2, if_neg h1] at this
      omega
  have hval : flowValue net source (residualFlow net net1) = F := by
    unfold flowValue
    rw [residualFlow_net hpair source hs, hrow source, if_neg hne, if_pos rfl]
    ring
  refine ⟨⟨_, hflow, hval⟩, ?_⟩
  intro K _ f hf
  let S : Finset Nat := (Finset.range net.nodeCount).filter (fun v => Reachable net1 source v)
  have hS : S ⊆ Finset.range net.nodeCount := Finset.filter_subset _ _
  have hsS : source ∈ S :=
    Finset.mem_filter.mpr ⟨Finset.mem_range.mpr hs, Relation.ReflTransGen.refl⟩
  have htS : sink ∉ S := fun h => hdrained (Finset.mem_filter.mp h).2
  have hzero : ∀ v ∈ S, ∀ u ∈ Finset.range net.nodeCount \ S, net1.capacity v u = 0 := by
    intro v hv u hu
    have hvn : v < net.nodeCount := Finset.mem_range.mp (hS hv)
    have hun : u < net.nodeCount := Finset.mem_range.mp (Finset.mem_sdiff.mp hu).1
    have h1 := hnn1 v (hcount ▸ hvn) u (hcount ▸ hun)
    by_contra hne0
    have hpos : 0 < net1.capacity v u := lt_of_le_of_ne h1 (Ne.symm hne0)
    apply (Finset.mem_sdiff.mp hu).2
    refine Finset.mem_filter.mpr ⟨Finset.mem_range.mpr hun, ?_⟩
    exact Relation.ReflTransGen.tail (Finset.mem_filter.mp hv).2
      ⟨hcount ▸ hvn, hcount ▸ hun, hpos⟩
  have h1 : flowValue net source f
      = ∑ v in S, ∑ u in Finset.range net.nodeCount \ S, (f v u - f u v) := by
    rw [← flow_cut hf S hS hsS htS, cut_identity _ S hS]
  have h2 : F = ∑ v in S, ∑ u in Finset.range net.nodeCount \ S, net.capacity v u := by
    rw [← hval, ← flow_cut hflow S hS hsS htS, cut_identity _ S hS]
    apply Finset.sum_congr rfl
    intro v hv
    apply Finset.sum_congr rfl
    intro u hu
    have hvn : v < net.nodeCount := Finset.mem_range.mp (hS hv)
    have hun : u < net.nodeCount := Finset.mem_range.mp (Finset.mem_sdiff.mp hu).1
    rw [residualFlow_sub hpair v u hvn hun, hzero v hv u hu, sub_zero]
  rw [h1, h2, Int.cast_sum]
  apply Finset.sum_le_sum
  intro v hv
  rw [Int.cast_sum]
  apply Finset.sum_le_sum
  intro u hu
  have hvn : v < net.nodeCount := Finset.mem_range.mp (hS hv)
  have hun : u < net.nodeCount := Finset.mem_range.mp (Finset.mem_sdiff.mp hu).1
  have h3 := hf.le_cap v hvn u hun
  have h4 := hf.nonneg u hun v hvn
  linarith

/-! ## `getMaxFlow` -/

/-- What a run of `getMaxFlow` does, for a search given with its fuel: `k` augmentations,
then exit with the state `st1`, whose network has no residual path left. -/
theorem getMaxFlow_generic
    (searchF : Nat → FlowNetwork → (Nat → Int) → Option (Bool × (Nat → Int)))
    (hmono : ∀ fuel fuel1, fuel ≤ fuel1 → ∀ net p r, searchF fuel net p = some r →
      searchF fuel1 net p = some r)
    (net : FlowNetwork) (source sink : Nat)
    (hok : ∀ fuel, net.nodeCount < fuel → SearchOK (searchF fuel) source sink net.nodeCount)
    (hne : source ≠ sink) (hrow : RowOK net source) :
    ∃ k st1 F,
      (∀ fuel, fuelBound net source ≤ fuel →
        stateAfter (searchF fuel) fuel source sink k (initState net) = some st1 ∧
        iteration (searchF fuel) fuel source sink st1 = some none ∧
        maxFlowLoop (searchF fuel) fuel source sink fuel (initState net)
          = some (st1.maxFlow, st1.net)) ∧
      ¬ Reachable st1.net source sink ∧ Run source sink net st1.net F ∧
      st1.maxFlow = wrap32 F := by
  have hb1 : net.nodeCount < fuelBound net source := by unfold fuelBound; omega
  have hb2 : (rowSum net.nodeCount net.capacity source).toNat < fuelBound net source := by
    unfold fuelBound; omega
  obtain ⟨k, st1, h1, h2, h3, h4⟩ := maxFlowLoop_returns (hok _ hb1) (fuelBound net source)
    (le_of_lt hb1) hne (fuelBound net source) (initState net) rfl hrow hb2
  obtain ⟨F, hF, hm⟩ := stateAfter_run (hok _ hb1).sound (fuelBound net source) k
    (initState net) st1 rfl (show wrap32 0 = 0 by decide) h1
  refine ⟨k, st1, F, ?_, h4, hF, by simpa [initState] using hm⟩
  intro fuel hfuel
  exact ⟨stateAfter_mono _ _ (hmono _ _ hfuel) _ _ hfuel _ _ k _ _ h1,
    iteration_mono _ _ (hmono _ _ hfuel) _ _ hfuel _ _ _ _ h2,
    maxFlowLoop_mono _ _ (hmono _ _ hfuel) _ _ hfuel _ _ _ _ _ _ hfuel h3⟩

theorem Bfs.bfs_getMaxFlow_spec (net : FlowNetwork) (source sink : Nat)
    (hs : source < net.nodeCount) (hne : source ≠ sink) (hrow : RowOK net source) :
    ∃ k st1 F,
      (∀ fuel, fuelBound net source ≤ fuel →
        stateAfter (Bfs.bfsFindPath fuel source sink) fuel source sink k (initState net)
          = some st1 ∧
        iteration (Bfs.bfsFindPath fuel source sink) fuel source sink st1 = some none ∧
        Bfs.getMaxFlow fuel net source sink = some (st1.maxFlow, st1.net)) ∧
      ¬ Reachable st1.net source sink ∧ Run source sink net st1.net F ∧
      st1.maxFlow = wrap32 F :=
  getMaxFlow_generic (fun fuel => Bfs.bfsFindPath fuel source sink)
    (fun fuel fuel1 hle net p r h => Bfs.bfsFindPath_mono fuel fuel1 hle source sink net p r h)
    net source sink (fun fuel hf => Bfs.bfs_searchOK fuel source sink _ hs hne hf) hne hrow

theorem Dfs.dfs_getMaxFlow_spec (net : FlowNetwork) (source sink : Nat)
    (hs : source < net.nodeCount) (hne : source ≠ sink) (hrow : RowOK net source) :
    ∃ k st1 F,
      (∀ fuel, fuelBound net source ≤ fuel →
        stateAfter (Dfs.search fuel source sink) fuel source sink k (initState net)
          = some st1 ∧
        iteration (Dfs.search fuel source sink) fuel source sink st1 = some none ∧
        Dfs.getMaxFlow fuel net source sink = some (st1.maxFlow, st1.net)) ∧
      ¬ Reachable st1.net source sink ∧ Run source sink net st1.net F ∧
      st1.maxFlow = wrap32 F :=
  getMaxFlow_generic (fun fuel => Dfs.search fuel source sink)
    (fun fuel fuel1 hle net p r h => Dfs.search_mono fuel fuel1 hle source sink net p r h)
    net source sink (fun fuel hf => Dfs.dfs_searchOK fuel source sink _ hs (le_of_lt hf)) hne hrow

/-! ## Sums of capacities -/

theorem entry_le_rowSum (n : Nat) (m : Nat → Nat → Int) (u v : Nat) (hv : v < n)
    (hnn : ∀ c, c < n → 0 ≤ m u c) : m u v ≤ rowSum n m u :=
  Finset.single_le_sum (f := fun c => m u c)
    (fun c hc => hnn c (Finset.mem_range.mp hc)) (Finset.mem_range.mpr hv)

theorem entry_le_colSum (n : Nat) (m : Nat → Nat → Int) (u v : Nat) (hu : u < n)
    (hnn : ∀ a, a < n → 0 ≤ m a v) : m u v ≤ colSum n m v :=
  Finset.single_le_sum (f := fun a => m a v)
    (fun a ha => hnn a (Finset.mem_range.mp ha)) (Finset.mem_range.mpr hu)

theorem rowSum_nonneg {net : FlowNetwork} (hnn : NonNeg net) (u : Nat)
    (hu : u < net.nodeCount) : 0 ≤ rowSum net.nodeCount net.capacity u :=
  Finset.sum_nonneg (fun c hc => hnn u hu c (Finset.mem_range.mp hc))

theorem rowSum_le_total {net : FlowNetwork} (hnn : NonNeg net) (u : Nat)
    (hu : u < net.nodeCount) :
    rowSum net.nodeCount net.capacity u
      ≤ ∑ a in Finset.range net.nodeCount, rowSum net.nodeCount net.capacity a :=
  Finset.single_le_sum (f := fun a => rowSum net.nodeCount net.capacity a)
    (fun a ha => rowSum_nonneg hnn a (Finset.mem_range.mp ha)) (Finset.mem_range.mpr hu)

theorem two_rows_le_total {net : FlowNetwork} (hnn : NonNeg net) (u v : Nat)
    (hu : u < net.nodeCount) (hv : v < net.nodeCount) (huv : u ≠ v) :
    rowSum net.nodeCount net.capacity u + rowSum net.nodeCount net.capacity v
      ≤ ∑ a in Finset.range net.nodeCount, rowSum net.nodeCount net.capacity a := by
  rw [← Finset.add_sum_erase _ _ (Finset.mem_range.mpr hu)]
  apply add_le_add_left
  exact Finset.single_le_sum (f := fun a => rowSum net.nodeCount net.capacity a)
    (fun a ha => rowSum_nonneg hnn a (Finset.mem_range.mp (Finset.mem_of_mem_erase ha)))
    (Finset.mem_erase.mpr ⟨Ne.symm huv, Finset.mem_range.mpr hv⟩)

theorem SumsFit.pairsFit {net : FlowNetwork} (h : SumsFit net) (hnn : NonNeg net) :
    PairsFit net := by
  intro u hu v hv huv
  have h1 := entry_le_rowSum net.nodeCount net.capacity u v hv (hnn u hu)
  have h2 := entry_le_rowSum net.nodeCount net.capacity v u hu (hnn v hv)
  have h3 := two_rows_le_total hnn u v hu hv huv
  unfold SumsFit at h
  omega

theorem SumsFit.rowOK_of_fit {net : FlowNetwork} (h : SumsFit net) (hnn : NonNeg net) (u : Nat)
    (hu : u < net.nodeCount) : RowOK net u := by
  intro c hc
  have h1 := entry_le_rowSum net.nodeCount net.capacity u c hc (hnn u hu)
  have h3 := rowSum_le_total hnn u hu
  unfold SumsFit at h
  exact ⟨hnn u hu c hc, fun _ => by omega⟩

theorem IsMaxFlowValue.value_unique {net : FlowNetwork} {source sink : Nat} {r1 r2 : Int}
    (h1 : IsMaxFlowValue net source sink r1) (h2 : IsMaxFlowValue net source sink r2) :
    r1 = r2 := by
  obtain ⟨⟨f1, hf1, hv1⟩, hmax1⟩ := h1
  obtain ⟨⟨f2, hf2, hv2⟩, hmax2⟩ := h2
  have a := hmax1 Int f2 hf2
  have b := hmax2 Int f1 hf1
  simp only [Int.cast_id] at a b
  omega

/-- A run of augmentations that ends without residual path has pushed the value of a
maximum flow, when nothing wrapped around. -/
theorem Run.maxflow {source sink : Nat} {net net1 : FlowNetwork} {F : Int}
    (h : Run source sink net net1 F) (hs : source < net.nodeCount) (hne : source ≠ sink)
    (hnn : NonNeg net) (hpf : PairsFit net) (hdrained : ¬ Reachable net1 source sink) :
    IsMaxFlowValue net source sink F := by
  obtain ⟨h1, _, h3, h4, _⟩ := h.exact hne hnn hpf
  exact maxflow_of_drained net net1 source sink F h.nodeCount hs hne hnn h1 h3 h4 hdrained

theorem Run.le_rowSum {source sink : Nat} {net net1 : FlowNetwork} {F : Int}
    (h : Run source sink net net1 F) (hne : source ≠ sink) (hrow : RowOK net source) :
    0 ≤ F ∧ F ≤ rowSum net.nodeCount net.capacity source := by
  obtain ⟨h1, h2, h3⟩ := h.row hne hrow
  have h4 : 0 ≤ rowSum net1.nodeCount net1.capacity source :=
    Finset.sum_nonneg (fun c hc => (h1 c (Finset.mem_range.mp hc)).1)
  exact ⟨h2, by omega⟩

theorem Run.le_colSum {source sink : Nat} {net net1 : FlowNetwork} {F : Int}
    (h : Run source sink net net1 F) (hne : source ≠ sink) (hcol : ColOK net sink) :
    F ≤ colSum net.nodeCount net.capacity sink := by
  obtain ⟨h1, h3⟩ := h.col hne hcol
  have h4 : 0 ≤ colSum net1.nodeCount net1.capacity sink :=
    Finset.sum_nonneg (fun a ha => (h1 a (Finset.mem_range.mp ha)).1)
  omega

/-- Without wrap-around both variants return the value of a maximum flow: it is enough
that opposite capacities add up to at most `INT_MAX` and that row `source` does. -/
theorem getMaxFlow_maxflow (net : FlowNetwork) (source sink : Nat)
    (hr : InRange net source sink) (hne : source ≠ sink) (hnn : NonNeg net)
    (hpf : PairsFit net) (hsum : rowSum net.nodeCount net.capacity source ≤ INT_MAX) :
    (∃ r net1, Returns (fun fuel => Bfs.getMaxFlow fuel net source sink) (r, net1) ∧
      IsMaxFlowValue net source sink r) ∧
    (∃ r net1, Returns (fun fuel => Dfs.getMaxFlow fuel net source sink) (r, net1) ∧
      IsMaxFlowValue net source sink r) := by
  have hrow : RowOK net source := fun c hc =>
    ⟨hnn source hr.1 c hc, fun hcs => by
      have h1 := hpf source hr.1 c hc (Ne.symm hcs)
      have h2 := hnn c hc source hr.1
      omega⟩
  constructor
  · obtain ⟨k, st1, F, h1, h2, h3, h4⟩ := Bfs.bfs_getMaxFlow_spec net source sink hr.1 hne hrow
    obtain ⟨h5, h6⟩ := h3.le_rowSum hne hrow
    have h7 : st1.maxFlow = F := by rw [h4]; exact wrap32_eq F (by omega) (by omega)
    exact ⟨st1.maxFlow, st1.net, ⟨_, fun fuel hf => (h1 fuel hf).2.2⟩,
      h7 ▸ h3.maxflow hr.1 hne hnn hpf h2⟩
  · obtain ⟨k, st1, F, h1, h2, h3, h4⟩ := Dfs.dfs_getMaxFlow_spec net source sink hr.1 hne hrow
    obtain ⟨h5, h6⟩ := h3.le_rowSum hne hrow
    have h7 : st1.maxFlow = F := by rw [h4]; exact wrap32_eq F (by omega) (by omega)
    exact ⟨st1.maxFlow, st1.net, ⟨_, fun fuel hf => (h1 fuel hf).2.2⟩,
      h7 ▸ h3.maxflow hr.1 hne hnn hpf h2⟩

theorem getMaxFlow_maxflow_of_fit (net : FlowNetwork) (source sink : Nat)
    (hr : InRange net source sink) (hne : source ≠ sink) (hnn : NonNeg net)
    (hfit : SumsFit net) :
    (∃ r net1, Returns (fun fuel => Bfs.getMaxFlow fuel net source sink) (r, net1) ∧
      IsMaxFlowValue net source sink r) ∧
    (∃ r net1, Returns (fun fuel => Dfs.getMaxFlow fuel net source sink) (r, net1) ∧
      IsMaxFlowValue net source sink r) :=
  getMaxFlow_maxflow net source sink hr hne hnn (hfit.pairsFit hnn)
    (le_trans (rowSum_le_total hnn source hr.1) hfit)

/-! ## Consequences for the two programs -/

theorem Returns.unique {α : Type} {run : Nat → Option α} {x y : α}
    (hx : Returns run x) (hy : Returns run y) : x = y := by
  obtain ⟨b1, h1⟩ := hx
  obtain ⟨b2, h2⟩ := hy
  have e1 := h1 (max b1 b2) (le_max_left _ _)
  have e2 := h2 (max b1 b2) (le_max_right _ _)
  rw [e1] at e2
  exact Option.some.inj e2

theorem Bfs.bfs_returns_of_eval {fuel0 : Nat} {net : FlowNetwork} {source sink : Nat}
    {x : Int × FlowNetwork} (h : Bfs.getMaxFlow fuel0 net source sink = some x) :
    Returns (fun fuel => Bfs.getMaxFlow fuel net source sink) x :=
  ⟨fuel0, fun fuel hf => maxFlowLoop_mono _ _
    (fun net p r h => Bfs.bfsFindPath_mono fuel0 fuel hf source sink net p r h)
    _ _ hf _ _ _ _ _ _ hf h⟩

theorem Dfs.dfs_returns_of_eval {fuel0 : Nat} {net : FlowNetwork} {source sink : Nat}
    {x : Int × FlowNetwork} (h : Dfs.getMaxFlow fuel0 net source sink = some x) :
    Returns (fun fuel => Dfs.getMaxFlow fuel net source sink) x :=
  ⟨fuel0, fun fuel hf => maxFlowLoop_mono _ _
    (fun net p r h => Dfs.search_mono fuel0 fuel hf source sink net p r h)
    _ _ hf _ _ _ _ _ _ hf h⟩

theorem option_map_eq_some {α β : Type} {o : Option α} {f : α → β} {y : β}
    (h : o.map f = some y) : ∃ x, o = some x ∧ f x = y := by
  cases o with
  | none => exact Option.noConfusion h
  | some x => exact ⟨x, rfl, Option.some.inj h⟩

theorem NonNeg.rowOK_of_pairs {net : FlowNetwork} (hnn : NonNeg net) (hpf : PairsFit net) (u : Nat)
    (hu : u < net.nodeCount) : RowOK net u := by
  intro c hc
  refine ⟨hnn u hu c hc, fun hne => ?_⟩
  have h1 := hpf u hu c hc (Ne.symm hne)
  have h2 := hnn c hc u hu
  omega

theorem IsInt32.rowOK {net : FlowNetwork} (h : IsInt32 net) (hnn : NonNeg net) (u : Nat)
    (hu : u < net.nodeCount) : RowOK net u :=
  fun c hc => ⟨hnn u hu c hc, fun _ => (h u hu c hc).2⟩

theorem IsInt32.colOK {net : FlowNetwork} (h : IsInt32 net) (hnn : NonNeg net) (v : Nat)
    (hv : v < net.nodeCount) : ColOK net v :=
  fun a ha => ⟨hnn a ha v hv, fun _ => (h a ha v hv).2⟩

/-- On a network without residual path the loop exits at once. -/
theorem maxFlowLoop_drained
    {search : FlowNetwork → (Nat → Int) → Option (Bool × (Nat → Int))}
    {source sink n : Nat} (hS : SearchOK search source sink n) (inner fuel : Nat)
    (st : LoopState) (hn : st.net.nodeCount = n) (hd : ¬ Reachable st.net source sink) :
    maxFlowLoop search inner source sink (fuel + 1) st = some (st.maxFlow, st.net) := by
  obtain ⟨flag, p1, h1, h2, _⟩ := hS st.net st.parent hn
  cases flag with
  | true =>
    obtain ⟨l, hl⟩ := h2 rfl
    exact absurd hl.reachable hd
  | false => simp [maxFlowLoop, iteration, h1]

/-- In bfs.cpp `getMaxFlow(s, s)` returns `0` and leaves the matrix as it is. -/
theorem Bfs.getMaxFlow_self (net : FlowNetwork) (s : Nat) (hs : s < net.nodeCount) :
    Returns (fun fuel => Bfs.getMaxFlow fuel net s s) (0, net) := by
  refine ⟨net.nodeCount + 1, fun fuel hf => ?_⟩
  obtain ⟨flag, p1, h1, h2, _⟩ := Bfs.bfsFindPath_spec net s s (fun _ => -1) fuel hs (by omega)
  cases flag with
  | true => exact absurd rfl (h2 rfl).1
  | false =>
    obtain ⟨m, rfl⟩ : ∃ m, fuel = m + 1 := ⟨fuel - 1, by omega⟩
    simp only [Bfs.getMaxFlow, maxFlowLoop, iteration, initState, h1]

/-- In dfs.cpp the loop of `getMaxFlow(s, s)` never exits: every search succeeds at once and
every augmentation leaves the matrix as it is. -/
theorem Dfs.iteration_self (inner : Nat) (s : Nat) (st : LoopState) :
    iteration (Dfs.search (inner + 1) s s) (inner + 1) s s st
      = some (some { net := st.net, parent := st.parent,
                     maxFlow := wrap32 (st.maxFlow + INT_MAX) }) := by
  simp [iteration, Dfs.search, Dfs.findPath, augment, pathFlowLoop, updateLoop]

theorem Dfs.maxFlowLoop_self (inner : Nat) (s : Nat) :
    ∀ (fuel : Nat) (st : LoopState),
      maxFlowLoop (Dfs.search inner s s) inner s s fuel st = none
  | 0, _ => rfl
  | fuel + 1, st => by
    cases inner with
    | zero => simp [maxFlowLoop, iteration, Dfs.search, Dfs.findPath]
    | succ i =>
      rw [maxFlowLoop, Dfs.iteration_self]
      exact Dfs.maxFlowLoop_self (i + 1) s fuel _

theorem Dfs.stateAfter_self (inner : Nat) (s : Nat) :
    ∀ (k : Nat) (st : LoopState),
      ∃ st1, stateAfter (Dfs.search (inner + 1) s s) (inner + 1) s s k st = some st1 ∧
        st1.net = st.net
  | 0, st => ⟨st, rfl, rfl⟩
  | k + 1, st => by
    rw [stateAfter, Dfs.iteration_self]
    exact Dfs.stateAfter_self inner s k _

/-! ## The claims -/

/-- C1. For a network with non-negative capacities whose sum fits in a 32-bit signed `int`
and in-range `source ≠ sink`, `getMaxFlow` of bfs.cpp and of dfs.cpp return the value of a
maximum flow: a feasible integer flow has that value and no feasible flow (integer,
rational or real valued) has a larger one. -/
theorem C1_getMaxFlow_returns_max_flow (net : FlowNetwork) (source sink : Nat)
    (hr : InRange net source sink) (hne : source ≠ sink) (hnn : NonNeg net)
    (hfit : SumsFit net) :
    (∃ r net1, Returns (fun fuel => Bfs.getMaxFlow fuel net source sink) (r, net1) ∧
      IsMaxFlowValue net source sink r) ∧
    (∃ r net1, Returns (fun fuel => Dfs.getMaxFlow fuel net source sink) (r, net1) ∧
      IsMaxFlowValue net source sink r) :=
  getMaxFlow_maxflow_of_fit net source sink hr hne hnn hfit

theorem C1_witness :
    (∃ r net1, Returns (fun fuel => Bfs.getMaxFlow fuel scenarioA 0 3) (r, net1) ∧
      IsMaxFlowValue scenarioA 0 3 r) ∧
    (∃ r net1, Returns (fun fuel => Dfs.getMaxFlow fuel scenarioA 0 3) (r, net1) ∧
      IsMaxFlowValue scenarioA 0 3 r) :=
  C1_getMaxFlow_returns_max_flow scenarioA 0 3 (by decide) (by decide) (by decide) (by decide)

theorem Bfs.bfs_returns_fst_of_eval {fuel0 : Nat} {net : FlowNetwork} {source sink : Nat} {r : Int}
    (h : (Bfs.getMaxFlow fuel0 net source sink).map Prod.fst = some r) :
    ∃ net1, Returns (fun fuel => Bfs.getMaxFlow fuel net source sink) (r, net1) := by
  obtain ⟨⟨r1, net1⟩, h1, h2⟩ := option_map_eq_some h
  simp only at h2
  subst h2
  exact ⟨net1, Bfs.bfs_returns_of_eval h1⟩

theorem Dfs.dfs_returns_fst_of_eval {fuel0 : Nat} {net : FlowNetwork} {source sink : Nat} {r : Int}
    (h : (Dfs.getMaxFlow fuel0 net source sink).map Prod.fst = some r) :
    ∃ net1, Returns (fun fuel => Dfs.getMaxFlow fuel net source sink) (r, net1) := by
  obtain ⟨⟨r1, net1⟩, h1, h2⟩ := option_map_eq_some h
  simp only at h2
  subst h2
  exact ⟨net1, Dfs.dfs_returns_of_eval h1⟩

/-- C2, as stated, fails: with a negative capacity stored by `addEdge`, and with an update
that wraps around, bfs.cpp returns 2 where dfs.cpp returns 1; with `source == sink` bfs.cpp
returns 0 and dfs.cpp does not return. -/
theorem C2_counterexample :
    (∃ net1 net2, Returns (fun fuel => Bfs.getMaxFlow fuel negativeEdgeNet 0 3) (2, net1) ∧
      Returns (fun fuel => Dfs.getMaxFlow fuel negativeEdgeNet 0 3) (1, net2)) ∧
    (∃ net1 net2, Returns (fun fuel => Bfs.getMaxFlow fuel overflowDiamond 0 3) (2, net1) ∧
      Returns (fun fuel => Dfs.getMaxFlow fuel overflowDiamond 0 3) (1, net2)) ∧
    (Returns (fun fuel => Bfs.getMaxFlow fuel (FlowNetwork.create 1) 0 0)
        (0, FlowNetwork.create 1) ∧
      ∀ fuel, Dfs.getMaxFlow fuel (FlowNetwork.create 1) 0 0 = none) := by
  refine ⟨?_, ?_, Bfs.getMaxFlow_self _ 0 (by decide),
    fun fuel => Dfs.maxFlowLoop_self fuel 0 fuel _⟩
  · obtain ⟨net1, h1⟩ := Bfs.bfs_returns_fst_of_eval
      (show (Bfs.getMaxFlow 10 negativeEdgeNet 0 3).map Prod.fst = some 2 by decide)
    obtain ⟨net2, h2⟩ := Dfs.dfs_returns_fst_of_eval
      (show (Dfs.getMaxFlow 10 negativeEdgeNet 0 3).map Prod.fst = some 1 by decide)
    exact ⟨net1, net2, h1, h2⟩
  · obtain ⟨net1, h1⟩ := Bfs.bfs_returns_fst_of_eval
      (show (Bfs.getMaxFlow 10 overflowDiamond 0 3).map Prod.fst = some 2 by decide)
    obtain ⟨net2, h2⟩ := Dfs.dfs_returns_fst_of_eval
      (show (Dfs.getMaxFlow 10 overflowDiamond 0 3).map Prod.fst = some 1 by decide)
    exact ⟨net1, net2, h1, h2⟩

/-- C2, amended. For a network with non-negative capacities in which
`capacity[u][v] + capacity[v][u]` is at most `INT_MAX` for distinct `u`, `v` (no residual
update wraps around) and in-range `source ≠ sink`, `getMaxFlow` of bfs.cpp and of dfs.cpp
return the same value. -/
theorem C2_strategies_agree (net : FlowNetwork) (source sink : Nat)
    (hr : InRange net source sink) (hne : source ≠ sink) (hnn : NonNeg net)
    (hpf : PairsFit net) :
    ∃ r net1 net2, Returns (fun fuel => Bfs.getMaxFlow fuel net source sink) (r, net1) ∧
      Returns (fun fuel => Dfs.getMaxFlow fuel net source sink) (r, net2) := by
  have hrow : RowOK net source := fun c hc =>
    ⟨hnn source hr.1 c hc, fun hcs => by
      have h1 := hpf source hr.1 c hc (Ne.symm hcs)
      have h2 := hnn c hc source hr.1
      omega⟩
  obtain ⟨_, st1, F1, a1, a2, a3, a4⟩ :=
    Bfs.bfs_getMaxFlow_spec net source sink hr.1 hne hrow
  obtain ⟨_, st2, F2, b1, b2, b3, b4⟩ :=
    Dfs.dfs_getMaxFlow_spec net source sink hr.1 hne hrow
  have m1 : IsMaxFlowValue net source sink F1 := a3.maxflow hr.1 hne hnn hpf a2
  have m2 : IsMaxFlowValue net source sink F2 := b3.maxflow hr.1 hne hnn hpf b2
  have e : st2.maxFlow = st1.maxFlow := by rw [a4, b4, m1.value_unique m2]
  refine ⟨st1.maxFlow, st1.net, st2.net,
    ⟨fuelBound net source, fun fuel hf => (a1 fuel hf).2.2⟩,
    ⟨fuelBound net source, fun fuel hf => ?_⟩⟩
  have h := (b1 fuel hf).2.2
  rw [e] at h
  exact h

theorem C2_witness :
    ∃ r net1 net2, Returns (fun fuel => Bfs.getMaxFlow fuel twoRoutes 0 3) (r, net1) ∧
      Returns (fun fuel => Dfs.getMaxFlow fuel twoRoutes 0 3) (r, net2) :=
  C2_strategies_agree twoRoutes 0 3 (by decide) (by decide) (by decide) (by decide)

/-- C3, as stated, fails: on Scenario A neither variant returns 4. -/
theorem C3_counterexample :
    (¬ ∃ net1, Returns (fun fuel => Bfs.getMaxFlow fuel scenarioA 0 3) (4, net1)) ∧
    (¬ ∃ net1, Returns (fun fuel => Dfs.getMaxFlow fuel scenarioA 0 3) (4, net1)) := by
  constructor
  · rintro ⟨net1, h⟩
    obtain ⟨net2, h2⟩ := Bfs.bfs_returns_fst_of_eval
      (show (Bfs.getMaxFlow 10 scenarioA 0 3).map Prod.fst = some 5 by decide)
    have := congrArg Prod.fst (h.unique h2)
    simp at this
  · rintro ⟨net1, h⟩
    obtain ⟨net2, h2⟩ := Dfs.dfs_returns_fst_of_eval
      (show (Dfs.getMaxFlow 10 scenarioA 0 3).map Prod.fst = some 5 by decide)
    have := congrArg Prod.fst (h.unique h2)
    simp at this

/-- C3, amended. On Scenario A, the 4-node network with edges (0,1,3), (0,2,2), (1,3,2),
(2,3,3), (1,2,1), `getMaxFlow(0, 3)` returns 5 in both variants. -/
theorem C3_scenarioA_returns_five :
    (∃ net1, Returns (fun fuel => Bfs.getMaxFlow fuel scenarioA 0 3) (5, net1)) ∧
    (∃ net1, Returns (fun fuel => Dfs.getMaxFlow fuel scenarioA 0 3) (5, net1)) :=
  ⟨Bfs.bfs_returns_fst_of_eval
      (show (Bfs.getMaxFlow 10 scenarioA 0 3).map Prod.fst = some 5 by decide),
    Dfs.dfs_returns_fst_of_eval
      (show (Dfs.getMaxFlow 10 scenarioA 0 3).map Prod.fst = some 5 by decide)⟩

/-- Termination for `source ≠ sink`: on a network of non-negative `int` capacities both
variants perform finitely many augmentations and return, and each path search returns. -/
theorem getMaxFlow_terminates (net : FlowNetwork) (source sink : Nat)
    (hr : InRange net source sink) (hne : source ≠ sink) (hnn : NonNeg net)
    (hint : IsInt32 net) :
    (∃ k st1, ∀ fuel, fuelBound net source ≤ fuel →
      stateAfter (Bfs.bfsFindPath fuel source sink) fuel source sink k (initState net)
        = some st1 ∧
      iteration (Bfs.bfsFindPath fuel source sink) fuel source sink st1 = some none ∧
      Bfs.getMaxFlow fuel net source sink = some (st1.maxFlow, st1.net)) ∧
    (∃ k st1, ∀ fuel, fuelBound net source ≤ fuel →
      stateAfter (Dfs.search fuel source sink) fuel source sink k (initState net)
        = some st1 ∧
      iteration (Dfs.search fuel source sink) fuel source sink st1 = some none ∧
      Dfs.getMaxFlow fuel net source sink = some (st1.maxFlow, st1.net)) ∧
    (∀ (net1 : FlowNetwork) parent fuel, source < net1.nodeCount → net1.nodeCount < fuel →
      (Bfs.bfsFindPath fuel source sink net1 parent).isSome = true) ∧
    (∀ (net1 : FlowNetwork) parent fuel, source < net1.nodeCount → net1.nodeCount ≤ fuel →
      (Dfs.findPath net1 sink fuel source parent (fun _ => false)).isSome = true) := by
  have hrow := hint.rowOK hnn source hr.1
  refine ⟨?_, ?_, ?_, ?_⟩
  · obtain ⟨k, st1, F, h1, _⟩ := Bfs.bfs_getMaxFlow_spec net source sink hr.1 hne hrow
    exact ⟨k, st1, h1⟩
  · obtain ⟨k, st1, F, h1, _⟩ := Dfs.dfs_getMaxFlow_spec net source sink hr.1 hne hrow
    exact ⟨k, st1, h1⟩
  · intro net1 parent fuel hs hf
    obtain ⟨flag, p1, h1, _⟩ := Bfs.bfsFindPath_spec net1 source sink parent fuel hs hf
    rw [h1]; rfl
  · intro net1 parent fuel hs hf
    have h0 : unvisited net1.nodeCount (fun _ => false) = net1.nodeCount := by
      simp [unvisited]
    obtain ⟨res, h1, _⟩ := Dfs.findPath_spec net1 sink fuel source parent (fun _ => false)
      hs rfl (by omega)
    rw [h1]; rfl

/-- C4 at the failing input. In dfs.cpp with `source == sink` the loop of `getMaxFlow`
performs more than any number `k` of augmentations, each leaving the matrix as it is: it
does not terminate. -/
theorem C4_dfs_self_loops_forever (fuel k : Nat) (net : FlowNetwork) (s : Nat) :
    ∃ st, stateAfter (Dfs.search (fuel + 1) s s) (fuel + 1) s s k (initState net) = some st ∧
      st.net = net :=
  Dfs.stateAfter_self fuel s k (initState net)


theorem Run.conservation {source sink : Nat} {net net1 : FlowNetwork} {F : Int}
    (h : Run source sink net net1 F) (hne : source ≠ sink) (hnn : NonNeg net)
    (hpf : PairsFit net) (v : Nat) (hs : v ≠ source) (ht : v ≠ sink) :
    (∑ u in Finset.range net.nodeCount, (net.capacity v u - net1.capacity v u)) = 0 ∧
      rowSum net.nodeCount net1.capacity v = rowSum net.nodeCount net.capacity v ∧
      colSum net.nodeCount net1.capacity v = colSum net.nodeCount net.capacity v := by
  obtain ⟨_, _, _, h4, h5⟩ := h.exact hne hnn hpf
  have h6 := h4 v
  have h7 := h5 v
  rw [h.nodeCount, if_neg ht, if_neg hs] at h6 h7
  refine ⟨?_, by omega, by omega⟩
  rw [Finset.sum_sub_distrib]
  unfold rowSum at h6
  omega

/-- C5, as stated, fails: on the chain `0 → 1 → 2 → 3` of capacities `INT_MAX` with the
opposite edge `(2,1)` of capacity `INT_MAX`, all capacities non-negative, the update of
`capacity[2][1]` wraps around and the net flow through node 2 is `2^32`, not 0. -/
theorem C5_counterexample :
    ∃ r net1, NonNeg overflowChain ∧
      Returns (fun fuel => Bfs.getMaxFlow fuel overflowChain 0 3) (r, net1) ∧
      (∑ u in Finset.range 4, (overflowChain.capacity 2 u - net1.capacity 2 u))
        = 4294967296 := by
  obtain ⟨⟨r, net1⟩, h1, h2⟩ := option_map_eq_some
    (show (Bfs.getMaxFlow 10 overflowChain 0 3).map
      (fun x => ∑ u in Finset.range 4, (overflowChain.capacity 2 u - x.2.capacity 2 u))
        = some 4294967296 by decide)
  exact ⟨r, net1, by decide, Bfs.bfs_returns_of_eval h1, h2⟩

/-- C5, amended. For a network with non-negative capacities in which every two opposite
capacities add up to at most `INT_MAX`, and in-range `source ≠ sink`, both variants return
and leave, at every node `v` other than `source` and `sink`, a zero net flow: the sum over
`u` of `original[v][u] - final[v][u]` is 0, and row `v` and column `v` keep their sums. -/
theorem C5_flow_conservation (net : FlowNetwork) (source sink : Nat)
    (hr : InRange net source sink) (hne : source ≠ sink) (hnn : NonNeg net)
    (hpf : PairsFit net) :
    (∃ r net1, Returns (fun fuel => Bfs.getMaxFlow fuel net source sink) (r, net1) ∧
      ∀ v, v < net.nodeCount → v ≠ source → v ≠ sink →
        (∑ u in Finset.range net.nodeCount, (net.capacity v u - net1.capacity v u)) = 0 ∧
        rowSum net.nodeCount net1.capacity v = rowSum net.nodeCount net.capacity v ∧
        colSum net.nodeCount net1.capacity v = colSum net.nodeCount net.capacity v) ∧
    (∃ r net1, Returns (fun fuel => Dfs.getMaxFlow fuel net source sink) (r, net1) ∧
      ∀ v, v < net.nodeCount → v ≠ source → v ≠ sink →
        (∑ u in Finset.range net.nodeCount, (net.capacity v u - net1.capacity v u)) = 0 ∧
        rowSum net.nodeCount net1.capacity v = rowSum net.nodeCount net.capacity v ∧
        colSum net.nodeCount net1.capacity v = colSum net.nodeCount net.capacity v) := by
  have hrow := hnn.rowOK_of_pairs hpf source hr.1
  constructor
  · obtain ⟨k, st1, F, h1, _, h3, _⟩ := Bfs.bfs_getMaxFlow_spec net source sink hr.1 hne hrow
    exact ⟨st1.maxFlow, st1.net, ⟨_, fun fuel hf => (h1 fuel hf).2.2⟩,
      fun v _ hs ht => h3.conservation hne hnn hpf v hs ht⟩
  · obtain ⟨k, st1, F, h1, _, h3, _⟩ := Dfs.dfs_getMaxFlow_spec net source sink hr.1 hne hrow
    exact ⟨st1.maxFlow, st1.net, ⟨_, fun fuel hf => (h1 fuel hf).2.2⟩,
      fun v _ hs ht => h3.conservation hne hnn hpf v hs ht⟩

theorem C5_witness :
    (∃ r net1, Returns (fun fuel => Bfs.getMaxFlow fuel scenarioA 0 3) (r, net1) ∧
      ∀ v, v < scenarioA.nodeCount → v ≠ 0 → v ≠ 3 →
        (∑ u in Finset.range scenarioA.nodeCount,
          (scenarioA.capacity v u - net1.capacity v u)) = 0 ∧
        rowSum scenarioA.nodeCount net1.capacity v
          = rowSum scenarioA.nodeCount scenarioA.capacity v ∧
        colSum scenarioA.nodeCount net1.capacity v
          = colSum scenarioA.nodeCount scenarioA.capacity v) ∧
    (∃ r net1, Returns (fun fuel => Dfs.getMaxFlow fuel scenarioA 0 3) (r, net1) ∧
      ∀ v, v < scenarioA.nodeCount → v ≠ 0 → v ≠ 3 →
        (∑ u in Finset.range scenarioA.nodeCount,
          (scenarioA.capacity v u - net1.capacity v u)) = 0 ∧
        rowSum scenarioA.nodeCount net1.capacity v
          = rowSum scenarioA.nodeCount scenarioA.capacity v ∧
        colSum scenarioA.nodeCount net1.capacity v
          = colSum scenarioA.nodeCount scenarioA.capacity v) :=
  C5_flow_conservation scenarioA 0 3 (by decide) (by decide) (by decide) (by decide)

theorem Run.bound {source sink : Nat} {net net1 : FlowNetwork} {F : Int}
    (h : Run source sink net net1 F) (hne : source ≠ sink) (hrow : RowOK net source)
    (hcol : ColOK net sink) :
    wrap32 F ≤ rowSum net.nodeCount net.capacity source ∧
      wrap32 F ≤ colSum net.nodeCount net.capacity sink := by
  obtain ⟨h1, h2⟩ := h.le_rowSum hne hrow
  have h3 := h.le_colSum hne hcol
  have h4 := wrap32_le F h1
  exact ⟨by omega, by omega⟩

/-- C6. For a network of non-negative `int` capacities and in-range `source ≠ sink`, the
value returned by `getMaxFlow` (either variant) is at most the sum of the original
`capacity[source][v]` over `v` and at most the sum of the original `capacity[u][sink]`
over `u`. -/
theorem C6_flow_bound (net : FlowNetwork) (source sink : Nat)
    (hr : InRange net source sink) (hne : source ≠ sink) (hnn : NonNeg net)
    (hint : IsInt32 net) :
    (∃ r net1, Returns (fun fuel => Bfs.getMaxFlow fuel net source sink) (r, net1) ∧
      r ≤ rowSum net.nodeCount net.capacity source ∧
      r ≤ colSum net.nodeCount net.capacity sink) ∧
    (∃ r net1, Returns (fun fuel => Dfs.getMaxFlow fuel net source sink) (r, net1) ∧
      r ≤ rowSum net.nodeCount net.capacity source ∧
      r ≤ colSum net.nodeCount net.capacity sink) := by
  have hrow := hint.rowOK hnn source hr.1
  have hcol := hint.colOK hnn sink hr.2
  constructor
  · obtain ⟨k, st1, F, h1, _, h3, h4⟩ := Bfs.bfs_getMaxFlow_spec net source sink hr.1 hne hrow
    exact ⟨st1.maxFlow, st1.net, ⟨_, fun fuel hf => (h1 fuel hf).2.2⟩,
      h4 ▸ h3.bound hne hrow hcol⟩
  · obtain ⟨k, st1, F, h1, _, h3, h4⟩ := Dfs.dfs_getMaxFlow_spec net source sink hr.1 hne hrow
    exact ⟨st1.maxFlow, st1.net, ⟨_, fun fuel hf => (h1 fuel hf).2.2⟩,
      h4 ▸ h3.bound hne hrow hcol⟩

theorem C6_witness :
    (∃ r net1, Returns (fun fuel => Bfs.getMaxFlow fuel overflowChain 0 3) (r, net1) ∧
      r ≤ rowSum overflowChain.nodeCount overflowChain.capacity 0 ∧
      r ≤ colSum overflowChain.nodeCount overflowChain.capacity 3) ∧
    (∃ r net1, Returns (fun fuel => Dfs.getMaxFlow fuel overflowChain 0 3) (r, net1) ∧
      r ≤ rowSum overflowChain.nodeCount overflowChain.capacity 0 ∧
      r ≤ colSum overflowChain.nodeCount overflowChain.capacity 3) :=
  C6_flow_bound overflowChain 0 3 (by decide) (by decide) (by decide) (by decide)

/-- C7 at the failing input. In dfs.cpp `getMaxFlow(s, s)` does not return, whatever the
network and the fuel: `findPath` succeeds at once, both walks are empty, and the loop
repeats. (bfs.cpp returns 0 and keeps the matrix: `Bfs.getMaxFlow_self`.) -/
theorem C7_dfs_self_never_returns (fuel : Nat) (net : FlowNetwork) (s : Nat) :
    Dfs.getMaxFlow fuel net s s = none :=
  Dfs.maxFlowLoop_self fuel s fuel (initState net)

/-- C8. For a network of non-negative `int` capacities and in-range `source ≠ sink`, a
second call of `getMaxFlow(source, sink)` on the network left by the first call returns 0
and leaves the residual matrix unchanged, in both variants. -/
theorem C8_second_call_returns_zero (net : FlowNetwork) (source sink : Nat)
    (hr : InRange net source sink) (hne : source ≠ sink) (hnn : NonNeg net)
    (hint : IsInt32 net) :
    (∃ r net1, Returns (fun fuel => Bfs.getMaxFlow fuel net source sink) (r, net1) ∧
      Returns (fun fuel => Bfs.getMaxFlow fuel net1 source sink) (0, net1)) ∧
    (∃ r net1, Returns (fun fuel => Dfs.getMaxFlow fuel net source sink) (r, net1) ∧
      Returns (fun fuel => Dfs.getMaxFlow fuel net1 source sink) (0, net1)) := by
  have hrow := hint.rowOK hnn source hr.1
  constructor
  · obtain ⟨k, st1, F, h1, h2, h3, _⟩ := Bfs.bfs_getMaxFlow_spec net source sink hr.1 hne hrow
    refine ⟨st1.maxFlow, st1.net, ⟨_, fun fuel hf => (h1 fuel hf).2.2⟩,
      ⟨net.nodeCount + 1, fun fuel hf => ?_⟩⟩
    obtain ⟨m, rfl⟩ : ∃ m, fuel = m + 1 := ⟨fuel - 1, by omega⟩
    exact maxFlowLoop_drained
      (Bfs.bfs_searchOK (m + 1) source sink net.nodeCount hr.1 hne (by omega)) (m + 1) m
      (initState st1.net) h3.nodeCount h2
  · obtain ⟨k, st1, F, h1, h2, h3, _⟩ := Dfs.dfs_getMaxFlow_spec net source sink hr.1 hne hrow
    refine ⟨st1.maxFlow, st1.net, ⟨_, fun fuel hf => (h1 fuel hf).2.2⟩,
      ⟨net.nodeCount + 1, fun fuel hf => ?_⟩⟩
    obtain ⟨m, rfl⟩ : ∃ m, fuel = m + 1 := ⟨fuel - 1, by omega⟩
    exact maxFlowLoop_drained
      (Dfs.dfs_searchOK (m + 1) source sink net.nodeCount hr.1 (by omega)) (m + 1) m
      (initState st1.net) h3.nodeCount h2

theorem C8_witness :
    (∃ r net1, Returns (fun fuel => Bfs.getMaxFlow fuel overflowPair 0 1) (r, net1) ∧
      Returns (fun fuel => Bfs.getMaxFlow fuel net1 0 1) (0, net1)) ∧
    (∃ r net1, Returns (fun fuel => Dfs.getMaxFlow fuel overflowPair 0 1) (r, net1) ∧
      Returns (fun fuel => Dfs.getMaxFlow fuel net1 0 1) (0, net1)) :=
  C8_second_call_returns_zero overflowPair 0 1 (by decide) (by decide) (by decide) (by decide)

theorem SumsFit.mono_fit {net net2 : FlowNetwork} (h : SumsFit net2)
    (hcount : net2.nodeCount = net.nodeCount)
    (hup : ∀ u, u < net.nodeCount → ∀ v, v < net.nodeCount →
      net.capacity u v ≤ net2.capacity u v) : SumsFit net := by
  unfold SumsFit at h ⊢
  rw [hcount] at h
  refine le_trans (Finset.sum_le_sum (fun u hu => ?_)) h
  exact Finset.sum_le_sum (fun v hv => hup u (Finset.mem_range.mp hu) v (Finset.mem_range.mp hv))

/-- C10, as stated, fails: on two nodes joined both ways by capacities `INT_MAX`, all
entries non-negative, the one augmentation of `getMaxFlow(0, 1)` wraps `capacity[1][0]`
around to `-2`, and so it is when `getMaxFlow` returns. -/
theorem C10_counterexample :
    ∃ r net1, NonNeg overflowPair ∧
      Returns (fun fuel => Bfs.getMaxFlow fuel overflowPair 0 1) (r, net1) ∧
      net1.capacity 1 0 = -2 := by
  obtain ⟨⟨r, net1⟩, h1, h2⟩ := option_map_eq_some
    (show (Bfs.getMaxFlow 10 overflowPair 0 1).map (fun x => x.2.capacity 1 0) = some (-2)
      by decide)
  exact ⟨r, net1, by decide, Bfs.bfs_returns_of_eval h1, h2⟩

/-- C10, amended. If every entry of the matrix is non-negative and every two opposite
entries add up to at most `INT_MAX` before `getMaxFlow(source, sink)` is called
(`source ≠ sink`, in range), then every entry is non-negative after each augmentation and
when `getMaxFlow` returns, in both variants. -/
theorem C10_nonneg_invariant (net : FlowNetwork) (source sink : Nat)
    (hr : InRange net source sink) (hne : source ≠ sink) (hnn : NonNeg net)
    (hpf : PairsFit net) :
    ((∀ fuel k st,
        stateAfter (Bfs.bfsFindPath fuel source sink) fuel source sink k (initState net)
          = some st → NonNeg st.net) ∧
      ∃ r net1, Returns (fun fuel => Bfs.getMaxFlow fuel net source sink) (r, net1) ∧
        NonNeg net1) ∧
    ((∀ fuel k st,
        stateAfter (Dfs.search fuel source sink) fuel source sink k (initState net)
          = some st → NonNeg st.net) ∧
      ∃ r net1, Returns (fun fuel => Dfs.getMaxFlow fuel net source sink) (r, net1) ∧
        NonNeg net1) := by
  have hrow := hnn.rowOK_of_pairs hpf source hr.1
  refine ⟨⟨?_, ?_⟩, ⟨?_, ?_⟩⟩
  · intro fuel k st h
    obtain ⟨F, hF, _⟩ := stateAfter_run (Bfs.bfs_searchSound fuel source sink net.nodeCount hr.1)
      fuel k (initState net) st rfl (show wrap32 0 = 0 by decide) h
    exact (hF.exact hne hnn hpf).1
  · obtain ⟨k, st1, F, h1, _, h3, _⟩ := Bfs.bfs_getMaxFlow_spec net source sink hr.1 hne hrow
    exact ⟨st1.maxFlow, st1.net, ⟨_, fun fuel hf => (h1 fuel hf).2.2⟩,
      (h3.exact hne hnn hpf).1⟩
  · intro fuel k st h
    obtain ⟨F, hF, _⟩ := stateAfter_run (Dfs.dfs_searchSound fuel source sink net.nodeCount hr.1)
      fuel k (initState net) st rfl (show wrap32 0 = 0 by decide) h
    exact (hF.exact hne hnn hpf).1
  · obtain ⟨k, st1, F, h1, _, h3, _⟩ := Dfs.dfs_getMaxFlow_spec net source sink hr.1 hne hrow
    exact ⟨st1.maxFlow, st1.net, ⟨_, fun fuel hf => (h1 fuel hf).2.2⟩,
      (h3.exact hne hnn hpf).1⟩

theorem C10_witness :
    ((∀ fuel k st,
        stateAfter (Bfs.bfsFindPath fuel 0 3) fuel 0 3 k (initState scenarioA)
          = some st → NonNeg st.net) ∧
      ∃ r net1, Returns (fun fuel => Bfs.getMaxFlow fuel scenarioA 0 3) (r, net1) ∧
        NonNeg net1) ∧
    ((∀ fuel k st,
        stateAfter (Dfs.search fuel 0 3) fuel 0 3 k (initState scenarioA)
          = some st → NonNeg st.net) ∧
      ∃ r net1, Returns (fun fuel => Dfs.getMaxFlow fuel scenarioA 0 3) (r, net1) ∧
        NonNeg net1) :=
  C10_nonneg_invariant scenarioA 0 3 (by decide) (by decide) (by decide) (by decide)

/-- C12. `addEdge(from, to, cap)` sets `capacity[from][to]` to `cap`, keeps every other
entry and `nodeCount`; a second `addEdge` on the same pair replaces the first: the matrix
is the one of the second call alone. -/
theorem C12_addEdge_overwrites (net : FlowNetwork) (a b : Nat) (c1 c2 : Int) :
    (net.addEdge a b c1).capacity a b = c1 ∧
      (∀ u v, ¬ (u = a ∧ v = b) → (net.addEdge a b c1).capacity u v = net.capacity u v) ∧
      (net.addEdge a b c1).nodeCount = net.nodeCount ∧
      (net.addEdge a b c1).addEdge a b c2 = net.addEdge a b c2 := by
  refine ⟨by simp [FlowNetwork.addEdge, setCell], ?_, rfl, ?_⟩
  · intro u v h
    simp [FlowNetwork.addEdge, setCell, h]
  · simp only [FlowNetwork.addEdge, FlowNetwork.mk.injEq, true_and]
    funext u v
    by_cases h : u = a ∧ v = b <;> simp [setCell, h]

/-- C13, as stated, fails: `addEdge(0, 1, -5)` on two nodes signals nothing and stores
`-5`. -/
theorem C13_counterexample :
    ((FlowNetwork.create 2).addEdge 0 1 (-5)).capacity 0 1 = -5 ∧
      ¬ NonNeg ((FlowNetwork.create 2).addEdge 0 1 (-5)) := by
  decide

/-- C13, amended. `addEdge(from, to, cap)` validates nothing: with in-range `from`, `to` and
a negative `cap` it stores `cap` in `capacity[from][to]`, and the matrix then has a
negative entry. -/
theorem C13_addEdge_stores_negative (net : FlowNetwork) (a b : Nat) (c : Int)
    (ha : a < net.nodeCount) (hb : b < net.nodeCount) (hc : c < 0) :
    (net.addEdge a b c).capacity a b = c ∧ ¬ NonNeg (net.addEdge a b c) := by
  have h1 : (net.addEdge a b c).capacity a b = c := by simp [FlowNetwork.addEdge, setCell]
  refine ⟨h1, fun hnn => ?_⟩
  have := hnn a ha b hb
  rw [h1] at this
  omega

theorem C13_witness :
    (scenarioA.addEdge 3 0 (-7)).capacity 3 0 = -7 ∧ ¬ NonNeg (scenarioA.addEdge 3 0 (-7)) :=
  C13_addEdge_stores_negative scenarioA 3 0 (-7) (by decide) (by decide) (by decide)

/-- C15. For every network and in-range `source ≠ sink` such that no path of edges with
capacity `> 0` leads from `source` to `sink`, `getMaxFlow(source, sink)` returns 0 and
leaves the matrix unchanged, in both variants. -/
theorem C15_no_path_returns_zero (net : FlowNetwork) (source sink : Nat)
    (hr : InRange net source sink) (hne : source ≠ sink)
    (hno : ¬ Reachable net source sink) :
    Returns (fun fuel => Bfs.getMaxFlow fuel net source sink) (0, net) ∧
      Returns (fun fuel => Dfs.getMaxFlow fuel net source sink) (0, net) := by
  constructor
  · refine ⟨net.nodeCount + 1, fun fuel hf => ?_⟩
    obtain ⟨m, rfl⟩ : ∃ m, fuel = m + 1 := ⟨fuel - 1, by omega⟩
    exact maxFlowLoop_drained
      (Bfs.bfs_searchOK (m + 1) source sink net.nodeCount hr.1 hne (by omega)) (m + 1) m
      (initState net) rfl hno
  · refine ⟨net.nodeCount + 1, fun fuel hf => ?_⟩
    obtain ⟨m, rfl⟩ : ∃ m, fuel = m + 1 := ⟨fuel - 1, by omega⟩
    exact maxFlowLoop_drained
      (Dfs.dfs_searchOK (m + 1) source sink net.nodeCount hr.1 (by omega)) (m + 1) m
      (initState net) rfl hno

theorem scenarioC_no_path : ¬ Reachable scenarioC 0 2 := by
  intro h
  rcases Relation.ReflTransGen.cases_head h with e | ⟨c, hc, _⟩
  · exact absurd e (by decide)
  · obtain ⟨_, h2, h3⟩ := hc
    have hall : ∀ c, c < 3 → ¬ 0 < scenarioC.capacity 0 c := by decide
    exact hall c h2 h3

theorem C15_witness :
    Returns (fun fuel => Bfs.getMaxFlow fuel scenarioC 0 2) (0, scenarioC) ∧
      Returns (fun fuel => Dfs.getMaxFlow fuel scenarioC 0 2) (0, scenarioC) :=
  C15_no_path_returns_zero scenarioC 0 2 (by decide) (by decide) scenarioC_no_path

/-- C17. For a network of non-negative `int` capacities and in-range `source ≠ sink`,
`getMaxFlow` returns and the residual matrix it leaves has no path from `source` to `sink`
along edges with `capacity[u][v] > 0`, in both variants. -/
theorem C17_drained_post_state (net : FlowNetwork) (source sink : Nat)
    (hr : InRange net source sink) (hne : source ≠ sink) (hnn : NonNeg net)
    (hint : IsInt32 net) :
    (∃ r net1, Returns (fun fuel => Bfs.getMaxFlow fuel net source sink) (r, net1) ∧
      ¬ Reachable net1 source sink) ∧
    (∃ r net1, Returns (fun fuel => Dfs.getMaxFlow fuel net source sink) (r, net1) ∧
      ¬ Reachable net1 source sink) := by
  have hrow := hint.rowOK hnn source hr.1
  constructor
  · obtain ⟨k, st1, F, h1, h2, _⟩ := Bfs.bfs_getMaxFlow_spec net source sink hr.1 hne hrow
    exact ⟨st1.maxFlow, st1.net, ⟨_, fun fuel hf => (h1 fuel hf).2.2⟩, h2⟩
  · obtain ⟨k, st1, F, h1, h2, _⟩ := Dfs.dfs_getMaxFlow_spec net source sink hr.1 hne hrow
    exact ⟨st1.maxFlow, st1.net, ⟨_, fun fuel hf => (h1 fuel hf).2.2⟩, h2⟩

theorem C17_witness :
    (∃ r net1, Returns (fun fuel => Bfs.getMaxFlow fuel overflowDiamond 0 3) (r, net1) ∧
      ¬ Reachable net1 0 3) ∧
    (∃ r net1, Returns (fun fuel => Dfs.getMaxFlow fuel overflowDiamond 0 3) (r, net1) ∧
      ¬ Reachable net1 0 3) :=
  C17_drained_post_state overflowDiamond 0 3 (by decide) (by decide) (by decide) (by decide)

/-- Without wrap-around (`int` entries, opposite pairs adding up to at most `INT_MAX`), also
with negative entries, an augmentation keeps every sum of two opposite entries. -/
theorem Augments.pair_step {source sink : Nat} {net net1 : FlowNetwork} {b : Int}
    (h : Augments source sink net net1 b) (hint : IsInt32 net) (hpf : PairsFit net) :
    IsInt32 net1 ∧ PairsFit net1 ∧
      (∀ a, a < net.nodeCount → ∀ c, c < net.nodeCount →
        net1.capacity a c + net1.capacity c a = net.capacity a c + net.capacity c a) := by
  have hpos := h.pos
  obtain ⟨parent, l, hp, hb, rfl⟩ := h
  have hent : ∀ a, a < net.nodeCount → ∀ c, c < net.nodeCount →
      applyPath wrap32 b (sink :: l) net.capacity a c
        = net.capacity a c + delta (sink :: l) b a c := by
    intro a ha c hc
    apply applyPath_entry b _ _ hp.nodup
    · intro hadj
      have hle : b ≤ net.capacity a c := hb ▸ minCap_le_adj _ _ _ _ _ hadj
      have h1 := (hint a ha c hc).2
      apply wrap32_eq <;> unfold INT_MAX at * <;> omega
    · intro hadj
      have hle : b ≤ net.capacity c a := hb ▸ minCap_le_adj _ _ _ _ _ hadj
      have hac : a ≠ c := (hp.adj _ _ hadj).2.2.2.2.2
      have h1 := hpf a ha c hc hac
      have h2 := (hint a ha c hc).1
      apply wrap32_eq <;> unfold INT_MAX at * <;> omega
  have hsum : ∀ a, a < net.nodeCount → ∀ c, c < net.nodeCount →
      applyPath wrap32 b (sink :: l) net.capacity a c
        + applyPath wrap32 b (sink :: l) net.capacity c a
        = net.capacity a c + net.capacity c a := by
    intro a ha c hc
    rw [hent a ha c hc, hent c hc a ha]
    unfold delta; ring
  refine ⟨?_, ?_, hsum⟩
  · intro a ha c hc
    show -2147483648 ≤ applyPath wrap32 b (sink :: l) net.capacity a c ∧
      applyPath wrap32 b (sink :: l) net.capacity a c ≤ INT_MAX
    rw [hent a ha c hc]
    obtain ⟨h1, h2⟩ := hint a ha c hc
    unfold delta
    by_cases hadj : Adj (sink :: l) c a
    · have hle : b ≤ net.capacity a c := hb ▸ minCap_le_adj _ _ _ _ _ hadj
      rw [if_neg (fun h => adj_not_symm _ hp.nodup c a hadj h), if_pos hadj]
      unfold INT_MAX at *; omega
    · rw [if_neg hadj]
      by_cases hadj2 : Adj (sink :: l) a c
      · have hle : b ≤ net.capacity c a := hb ▸ minCap_le_adj _ _ _ _ _ hadj2
        have hac : a ≠ c := (hp.adj _ _ hadj2).2.2.2.2.2
        have h3 := hpf a ha c hc hac
        rw [if_pos hadj2]
        unfold INT_MAX at *; omega
      · rw [if_neg hadj2]
        unfold INT_MAX at *; omega
  · intro a ha c hc hac
    show applyPath wrap32 b (sink :: l) net.capacity a c
        + applyPath wrap32 b (sink :: l) net.capacity c a ≤ INT_MAX
    rw [hsum a ha c hc]; exact hpf a ha c hc hac

theorem Run.pairs {source sink : Nat} {net net1 : FlowNetwork} {F : Int}
    (h : Run source sink net net1 F) (hint : IsInt32 net) (hpf : PairsFit net) :
    IsInt32 net1 ∧ PairsFit net1 ∧
      (∀ a, a < net.nodeCount → ∀ c, c < net.nodeCount →
        net1.capacity a c + net1.capacity c a = net.capacity a c + net.capacity c a) := by
  induction h with
  | refl => exact ⟨hint, hpf, fun _ _ _ _ => rfl⟩
  | step ha _ ih =>
    obtain ⟨h1, h2, h3⟩ := ha.pair_step hint hpf
    obtain ⟨i1, i2, i3⟩ := ih h1 h2
    have hcount := ha.nodeCount_eq
    refine ⟨i1, i2, fun a ha1 c hc => ?_⟩
    rw [i3 a (hcount ▸ ha1) c (hcount ▸ hc), h3 a ha1 c hc]

/-- What the loop returns is the state it is in after some number of augmentations. -/
theorem maxFlowLoop_stateAfter
    (search : FlowNetwork → (Nat → Int) → Option (Bool × (Nat → Int)))
    (inner : Nat) (source sink : Nat) :
    ∀ (fuel : Nat) (st : LoopState) (r : Int) (net1 : FlowNetwork),
      maxFlowLoop search inner source sink fuel st = some (r, net1) →
      ∃ k st1, stateAfter search inner source sink k st = some st1 ∧
        iteration search inner source sink st1 = some none ∧
        st1.maxFlow = r ∧ st1.net = net1
  | 0, _, _, _, h => by simp [maxFlowLoop] at h
  | fuel + 1, st, r, net1, h => by
    rw [maxFlowLoop] at h
    cases h1 : iteration search inner source sink st with
    | none => rw [h1] at h; exact Option.noConfusion h
    | some res =>
      rw [h1] at h
      cases res with
      | none =>
        simp only [Option.some.injEq, Prod.mk.injEq] at h
        exact ⟨0, st, rfl, h1, h.1, h.2⟩
      | some st2 =>
        obtain ⟨k, st1, h2, h3, h4, h5⟩ :=
          maxFlowLoop_stateAfter search inner source sink fuel st2 r net1 h
        refine ⟨k + 1, st1, ?_, h3, h4, h5⟩
        rw [stateAfter, h1]; exact h2

/-- C11, as stated, fails: on two nodes joined both ways by capacities `INT_MAX`, the update
of `capacity[1][0]` wraps around and the pair `(0,1)` adds up to `-2` when `getMaxFlow`
returns, against `2 * INT_MAX` before the call. -/
theorem C11_counterexample :
    ∃ r net1, IsInt32 overflowPair ∧
      Returns (fun fuel => Bfs.getMaxFlow fuel overflowPair 0 1) (r, net1) ∧
      net1.capacity 0 1 + net1.capacity 1 0 = -2 ∧
      overflowPair.capacity 0 1 + overflowPair.capacity 1 0 = 4294967294 := by
  obtain ⟨⟨r, net1⟩, h1, h2⟩ := option_map_eq_some
    (show (Bfs.getMaxFlow 10 overflowPair 0 1).map
      (fun x => x.2.capacity 0 1 + x.2.capacity 1 0) = some (-2) by decide)
  exact ⟨r, net1, by decide, Bfs.bfs_returns_of_eval h1, h2, by decide⟩

/-- C11, amended. For a network of `int` entries in which `capacity[u][v] + capacity[v][u]`
is at most `INT_MAX` for every pair of distinct nodes, and in-range endpoints, after each
augmentation and when `getMaxFlow` returns every pair of nodes `u`, `v` has
`capacity[u][v] + capacity[v][u]` equal to its value before the call, in both variants. -/
theorem C11_pair_sum_invariant (net : FlowNetwork) (source sink : Nat)
    (hr : InRange net source sink) (hint : IsInt32 net) (hpf : PairsFit net) :
    ((∀ fuel k st,
        stateAfter (Bfs.bfsFindPath fuel source sink) fuel source sink k (initState net)
          = some st →
        ∀ u, u < net.nodeCount → ∀ v, v < net.nodeCount →
          st.net.capacity u v + st.net.capacity v u = net.capacity u v + net.capacity v u) ∧
      (∀ fuel r net1, Bfs.getMaxFlow fuel net source sink = some (r, net1) →
        ∀ u, u < net.nodeCount → ∀ v, v < net.nodeCount →
          net1.capacity u v + net1.capacity v u = net.capacity u v + net.capacity v u)) ∧
    ((∀ fuel k st,
        stateAfter (Dfs.search fuel source sink) fuel source sink k (initState net)
          = some st →
        ∀ u, u < net.nodeCount → ∀ v, v < net.nodeCount →
          st.net.capacity u v + st.net.capacity v u = net.capacity u v + net.capacity v u) ∧
      (∀ fuel r net1, Dfs.getMaxFlow fuel net source sink = some (r, net1) →
        ∀ u, u < net.nodeCount → ∀ v, v < net.nodeCount →
          net1.capacity u v + net1.capacity v u = net.capacity u v + net.capacity v u)) := by
  have hB : ∀ fuel k st,
      stateAfter (Bfs.bfsFindPath fuel source sink) fuel source sink k (initState net)
        = some st →
      ∀ u, u < net.nodeCount → ∀ v, v < net.nodeCount →
        st.net.capacity u v + st.net.capacity v u = net.capacity u v + net.capacity v u := by
    intro fuel k st h
    obtain ⟨F, hF, _⟩ := stateAfter_run
      (Bfs.bfs_searchSound fuel source sink net.nodeCount hr.1)
      fuel k (initState net) st rfl (show wrap32 0 = 0 by decide) h
    exact (hF.pairs hint hpf).2.2
  have hD : ∀ fuel k st,
      stateAfter (Dfs.search fuel source sink) fuel source sink k (initState net)
        = some st →
      ∀ u, u < net.nodeCount → ∀ v, v < net.nodeCount →
        st.net.capacity u v + st.net.capacity v u = net.capacity u v + net.capacity v u := by
    intro fuel k st h
    obtain ⟨F, hF, _⟩ := stateAfter_run
      (Dfs.dfs_searchSound fuel source sink net.nodeCount hr.1)
      fuel k (initState net) st rfl (show wrap32 0 = 0 by decide) h
    exact (hF.pairs hint hpf).2.2
  refine ⟨⟨hB, ?_⟩, ⟨hD, ?_⟩⟩
  · intro fuel r net1 h
    obtain ⟨k, st1, h1, _, _, h4⟩ := maxFlowLoop_stateAfter _ _ _ _ _ _ _ _ h
    rw [← h4]; exact hB fuel k st1 h1
  · intro fuel r net1 h
    obtain ⟨k, st1, h1, _, _, h4⟩ := maxFlowLoop_stateAfter _ _ _ _ _ _ _ _ h
    rw [← h4]; exact hD fuel k st1 h1

theorem C11_witness :
    ((∀ fuel k st,
        stateAfter (Bfs.bfsFindPath fuel 0 3) fuel 0 3 k (initState scenarioA) = some st →
        ∀ u, u < scenarioA.nodeCount → ∀ v, v < scenarioA.nodeCount →
          st.net.capacity u v + st.net.capacity v u
            = scenarioA.capacity u v + scenarioA.capacity v u) ∧
      (∀ fuel r net1, Bfs.getMaxFlow fuel scenarioA 0 3 = some (r, net1) →
        ∀ u, u < scenarioA.nodeCount → ∀ v, v < scenarioA.nodeCount →
          net1.capacity u v + net1.capacity v u
            = scenarioA.capacity u v + scenarioA.capacity v u)) ∧
    ((∀ fuel k st,
        stateAfter (Dfs.search fuel 0 3) fuel 0 3 k (initState scenarioA) = some st →
        ∀ u, u < scenarioA.nodeCount → ∀ v, v < scenarioA.nodeCount →
          st.net.capacity u v + st.net.capacity v u
            = scenarioA.capacity u v + scenarioA.capacity v u) ∧
      (∀ fuel r net1, Dfs.getMaxFlow fuel scenarioA 0 3 = some (r, net1) →
        ∀ u, u < scenarioA.nodeCount → ∀ v, v < scenarioA.nodeCount →
          net1.capacity u v + net1.capacity v u
            = scenarioA.capacity u v + scenarioA.capacity v u)) :=
  C11_pair_sum_invariant scenarioA 0 3 (by decide) (by decide) (by decide)

/-- When no residual update wraps around, both variants return the value `F` of a maximum
flow wrapped into the range of `int`; `F` is at most the sum of row `source`. -/
theorem getMaxFlow_wrapped (net : FlowNetwork) (source sink : Nat)
    (hr : InRange net source sink) (hne : source ≠ sink) (hnn : NonNeg net)
    (hpf : PairsFit net) :
    (∃ r net1 F, Returns (fun fuel => Bfs.getMaxFlow fuel net source sink) (r, net1) ∧
      IsMaxFlowValue net source sink F ∧ r = wrap32 F ∧ 0 ≤ F ∧
      F ≤ rowSum net.nodeCount net.capacity source) ∧
    (∃ r net1 F, Returns (fun fuel => Dfs.getMaxFlow fuel net source sink) (r, net1) ∧
      IsMaxFlowValue net source sink F ∧ r = wrap32 F ∧ 0 ≤ F ∧
      F ≤ rowSum net.nodeCount net.capacity source) := by
  have hrow := hnn.rowOK_of_pairs hpf source hr.1
  constructor
  · obtain ⟨k, st1, F, h1, h2, h3, h4⟩ := Bfs.bfs_getMaxFlow_spec net source sink hr.1 hne hrow
    obtain ⟨h5, h6⟩ := h3.le_rowSum hne hrow
    exact ⟨st1.maxFlow, st1.net, F, ⟨_, fun fuel hf => (h1 fuel hf).2.2⟩,
      h3.maxflow hr.1 hne hnn hpf h2, h4, h5, h6⟩
  · obtain ⟨k, st1, F, h1, h2, h3, h4⟩ := Dfs.dfs_getMaxFlow_spec net source sink hr.1 hne hrow
    obtain ⟨h5, h6⟩ := h3.le_rowSum hne hrow
    exact ⟨st1.maxFlow, st1.net, F, ⟨_, fun fuel hf => (h1 fuel hf).2.2⟩,
      h3.maxflow hr.1 hne hnn hpf h2, h4, h5, h6⟩

/-- C14, as stated, fails: on the two routes of capacity `INT_MAX`, every capacity a
non-negative `int`, the maximum flow is `2 * INT_MAX`; the accumulation
`maxFlow += pathFlow` wraps around and `getMaxFlow(0, 3)` returns `-2`, no error being
signalled. -/
theorem C14_counterexample :
    ∃ net1, NonNeg twoRoutes ∧ IsInt32 twoRoutes ∧
      Returns (fun fuel => Bfs.getMaxFlow fuel twoRoutes 0 3) (-2, net1) ∧
      IsMaxFlowValue twoRoutes 0 3 4294967294 := by
  obtain ⟨net1, h1⟩ := Bfs.bfs_returns_fst_of_eval
    (show (Bfs.getMaxFlow 10 twoRoutes 0 3).map Prod.fst = some (-2) by decide)
  obtain ⟨⟨r, net2, F, h2, h3, h4, h5, h6⟩, _⟩ :=
    getMaxFlow_wrapped twoRoutes 0 3 (by decide) (by decide) (by decide) (by decide)
  have e := congrArg Prod.fst (h1.unique h2)
  simp only at e
  have hrs : rowSum twoRoutes.nodeCount twoRoutes.capacity 0 = 4294967294 := by decide
  have hF : F = 4294967294 := by
    rw [hrs] at h6
    rw [← e] at h4
    unfold wrap32 at h4
    omega
  exact ⟨net1, by decide, by decide, h1, hF ▸ h3⟩

/-- C14, amended. Overflow is not checked. For every network with non-negative capacities
in which `capacity[u][v] + capacity[v][u]` is at most `INT_MAX` for distinct `u`, `v` (no
residual update wraps around) and in-range `source ≠ sink`, `getMaxFlow` signals no error
and returns the exact maximum flow `F` wrapped around into the 32-bit signed range: `F`
itself exactly when `F ≤ INT_MAX`. -/
theorem C14_returns_wrapped_value (net : FlowNetwork) (source sink : Nat)
    (hr : InRange net source sink) (hne : source ≠ sink) (hnn : NonNeg net)
    (hpf : PairsFit net) :
    (∃ r net1 F, Returns (fun fuel => Bfs.getMaxFlow fuel net source sink) (r, net1) ∧
      IsMaxFlowValue net source sink F ∧ r = wrap32 F ∧ (r = F ↔ F ≤ INT_MAX)) ∧
    (∃ r net1 F, Returns (fun fuel => Dfs.getMaxFlow fuel net source sink) (r, net1) ∧
      IsMaxFlowValue net source sink F ∧ r = wrap32 F ∧ (r = F ↔ F ≤ INT_MAX)) := by
  have key : ∀ r F : Int, r = wrap32 F → 0 ≤ F → (r = F ↔ F ≤ INT_MAX) := by
    intro r F h1 h2
    unfold wrap32 at h1
    unfold INT_MAX
    omega
  obtain ⟨⟨r1, n1, F1, a1, a2, a3, a4, _⟩, ⟨r2, n2, F2, b1, b2, b3, b4, _⟩⟩ :=
    getMaxFlow_wrapped net source sink hr hne hnn hpf
  exact ⟨⟨r1, n1, F1, a1, a2, a3, key r1 F1 a3 a4⟩, ⟨r2, n2, F2, b1, b2, b3, key r2 F2 b3 b4⟩⟩

theorem C14_witness :
    (∃ r net1 F, Returns (fun fuel => Bfs.getMaxFlow fuel twoRoutes 0 3) (r, net1) ∧
      IsMaxFlowValue twoRoutes 0 3 F ∧ r = wrap32 F ∧ (r = F ↔ F ≤ INT_MAX)) ∧
    (∃ r net1 F, Returns (fun fuel => Dfs.getMaxFlow fuel twoRoutes 0 3) (r, net1) ∧
      IsMaxFlowValue twoRoutes 0 3 F ∧ r = wrap32 F ∧ (r = F ↔ F ≤ INT_MAX)) :=
  C14_returns_wrapped_value twoRoutes 0 3 (by decide) (by decide) (by decide) (by decide)

theorem singleEdge_entries (c : Int) :
    (singleEdge c).nodeCount = 2 ∧ (singleEdge c).capacity 0 0 = 0 ∧
      (singleEdge c).capacity 0 1 = c ∧ (singleEdge c).capacity 1 0 = 0 ∧
      (singleEdge c).capacity 1 1 = 0 := by
  simp [singleEdge, FlowNetwork.addEdges, FlowNetwork.addEdge, FlowNetwork.create, setCell]

theorem singleEdge_nonneg (c : Int) (h0 : 0 ≤ c) : NonNeg (singleEdge c) := by
  obtain ⟨e, e00, e01, e10, e11⟩ := singleEdge_entries c
  intro u hu v hv
  rw [e] at hu hv
  interval_cases u <;> interval_cases v <;> simp [e00, e01, e10, e11, h0]

theorem singleEdge_pairsFit (c : Int) (h1 : c ≤ INT_MAX) : PairsFit (singleEdge c) := by
  obtain ⟨e, e00, e01, e10, e11⟩ := singleEdge_entries c
  intro u hu v hv huv
  rw [e] at hu hv
  interval_cases u <;> interval_cases v <;> simp [e00, e01, e10, e11, h1] at huv ⊢

/-- The drained state of the single-edge network: the whole capacity has moved to the
opposite entry. -/
theorem singleEdge_final (c : Int) (h0 : 0 ≤ c) (h1 : c ≤ INT_MAX) {net1 : FlowNetwork}
    {F : Int} (hrun : Run 0 1 (singleEdge c) net1 F) (hd : ¬ Reachable net1 0 1) :
    wrap32 F = c ∧ net1.capacity 0 1 = 0 ∧ net1.capacity 1 0 = c := by
  obtain ⟨e, e00, e01, e10, e11⟩ := singleEdge_entries c
  obtain ⟨hnn1, _, hpair, hrow, _⟩ :=
    hrun.exact (by decide) (singleEdge_nonneg c h0) (singleEdge_pairsFit c h1)
  have hcount : net1.nodeCount = 2 := hrun.nodeCount.trans e
  have p00 := hpair 0 (by omega) 0 (by omega)
  have p01 := hpair 0 (by omega) 1 (by omega)
  have r0 := hrow 0
  rw [hcount, e] at r0
  simp only [rowSum, Finset.sum_range_succ, Finset.sum_range_zero, zero_add, e00, e01,
    if_neg (show (0 : Nat) ≠ 1 by decide), if_true] at r0
  rw [e00] at p00
  rw [e01, e10] at p01
  have hn01 := hnn1 0 (by omega) 1 (by omega)
  have hno : ¬ 0 < net1.capacity 0 1 := fun hpos =>
    hd (Relation.ReflTransGen.single ⟨by omega, by omega, hpos⟩)
  have hF : F = c := by omega
  refine ⟨?_, by omega, by omega⟩
  rw [hF]; exact wrap32_eq c (by omega) h1

/-- C16. For every capacity `c` with `0 ≤ c ≤ INT_MAX`, on the 2-node network whose only
edge is `(0,1,c)`, `getMaxFlow(0, 1)` returns `c` and leaves `capacity[0][1] = 0` and
`capacity[1][0] = c`, in both variants. -/
theorem C16_single_edge (c : Int) (h0 : 0 ≤ c) (h1 : c ≤ INT_MAX) :
    (∃ net1, Returns (fun fuel => Bfs.getMaxFlow fuel (singleEdge c) 0 1) (c, net1) ∧
      net1.capacity 0 1 = 0 ∧ net1.capacity 1 0 = c) ∧
    (∃ net1, Returns (fun fuel => Dfs.getMaxFlow fuel (singleEdge c) 0 1) (c, net1) ∧
      net1.capacity 0 1 = 0 ∧ net1.capacity 1 0 = c) := by
  obtain ⟨e, _⟩ := singleEdge_entries c
  have hrow := (singleEdge_nonneg c h0).rowOK_of_pairs (singleEdge_pairsFit c h1) 0
    (by omega)
  constructor
  · obtain ⟨k, st1, F, a1, a2, a3, a4⟩ :=
      Bfs.bfs_getMaxFlow_spec (singleEdge c) 0 1 (by omega) (by decide) hrow
    obtain ⟨b1, b2, b3⟩ := singleEdge_final c h0 h1 a3 a2
    refine ⟨st1.net, ⟨fuelBound (singleEdge c) 0, fun fuel hf => ?_⟩, b2, b3⟩
    have h := (a1 fuel hf).2.2
    rw [a4, b1] at h
    exact h
  · obtain ⟨k, st1, F, a1, a2, a3, a4⟩ :=
      Dfs.dfs_getMaxFlow_spec (singleEdge c) 0 1 (by omega) (by decide) hrow
    obtain ⟨b1, b2, b3⟩ := singleEdge_final c h0 h1 a3 a2
    refine ⟨st1.net, ⟨fuelBound (singleEdge c) 0, fun fuel hf => ?_⟩, b2, b3⟩
    have h := (a1 fuel hf).2.2
    rw [a4, b1] at h
    exact h

theorem C16_witness :
    (∃ net1, Returns (fun fuel => Bfs.getMaxFlow fuel (singleEdge 5) 0 1) (5, net1) ∧
      net1.capacity 0 1 = 0 ∧ net1.capacity 1 0 = 5) ∧
    (∃ net1, Returns (fun fuel => Dfs.getMaxFlow fuel (singleEdge 5) 0 1) (5, net1) ∧
      net1.capacity 0 1 = 0 ∧ net1.capacity 1 0 = 5) :=
  C16_single_edge 5 (by decide) (by decide)

theorem wrap32_range (x : Int) : -2147483648 ≤ wrap32 x ∧ wrap32 x ≤ INT_MAX := by
  unfold wrap32 INT_MAX; omega

/-- Whatever wraps around, the entries stay values of the type `int`. -/
theorem Augments.int32_step {source sink : Nat} {net net1 : FlowNetwork} {b : Int}
    (h : Augments source sink net net1 b) (hint : IsInt32 net) : IsInt32 net1 := by
  obtain ⟨parent, l, hp, _, rfl⟩ := h
  intro a ha c hc
  show -2147483648 ≤ applyPath wrap32 b (sink :: l) net.capacity a c ∧
    applyPath wrap32 b (sink :: l) net.capacity a c ≤ INT_MAX
  rw [applyPath_apply wrap32 b _ _ hp.nodup]
  split_ifs
  · exact wrap32_range _
  · exact wrap32_range _
  · exact hint a ha c hc

theorem Run.int32 {source sink : Nat} {net net1 : FlowNetwork} {F : Int}
    (h : Run source sink net net1 F) (hint : IsInt32 net) : IsInt32 net1 := by
  induction h with
  | refl => exact hint
  | step ha _ ih => exact ih (ha.int32_step hint)

/-- The bottleneck is the start value or the capacity of one of the steps. -/
theorem minCap_attained (cap : Nat → Nat → Int) : ∀ (l : List Nat) (acc : Int),
    minCap cap l acc = acc ∨ ∃ x p, Adj l x p ∧ minCap cap l acc = cap p x
  | [], _ => Or.inl rfl
  | [_], _ => Or.inl rfl
  | y :: q :: rest, acc => by
    rw [minCap]
    rcases minCap_attained cap (q :: rest) (min acc (cap q y)) with h | ⟨x, p, hx, h⟩
    · rcases min_choice acc (cap q y) with e | e
      · left; rw [h, e]
      · right
        exact ⟨y, q, (adj_cons _ _ _ _ _).mpr (Or.inl ⟨rfl, rfl⟩), by rw [h, e]⟩
    · right
      exact ⟨x, p, (adj_cons _ _ _ _ _).mpr (Or.inr hx), h⟩

/-- On a chain with at least one step, over `int` capacities, the bottleneck computed from
`INT_MAX` is the capacity of one of the steps. -/
theorem minCap_is_edge {net : FlowNetwork} {parent : Nat → Int} {source sink : Nat}
    {l : List Nat} (hp : IsPath net parent source (sink :: l)) (hne : source ≠ sink)
    (hint : IsInt32 net) :
    ∃ x p, Adj (sink :: l) x p ∧
      minCap net.capacity (sink :: l) INT_MAX = net.capacity p x := by
  rcases minCap_attained net.capacity (sink :: l) INT_MAX with h | h
  · cases l with
    | nil =>
      simp only [IsPath] at hp
      exact absurd hp.1.symm hne
    | cons p rest =>
      have hadj : Adj (sink :: p :: rest) sink p :=
        (adj_cons _ _ _ _ _).mpr (Or.inl ⟨rfl, rfl⟩)
      refine ⟨sink, p, hadj, ?_⟩
      have h1 := minCap_le_adj net.capacity _ INT_MAX _ _ hadj
      obtain ⟨_, _, hpn, _⟩ := hp.adj _ _ hadj
      have h2 := (hint p hpn sink (hp.lt sink (List.mem_cons_self _ _))).2
      rw [h] at h1 ⊢
      omega
  · exact h

/-- An iteration that goes on, in detail: the search has filled `parent` with a chain, the
first walk has computed its bottleneck, the second has applied it. -/
theorem iteration_detail {search : FlowNetwork → (Nat → Int) → Option (Bool × (Nat → Int))}
    {source sink n : Nat} (hS : SearchSound search source sink n) (inner : Nat)
    (st st1 : LoopState) (hn : st.net.nodeCount = n)
    (h : iteration search inner source sink st = some (some st1)) :
    ∃ l b, search st.net st.parent = some (true, st1.parent) ∧
      IsPath st.net st1.parent source (sink :: l) ∧
      pathFlowLoop st.net.capacity st1.parent source inner sink INT_MAX = some b ∧
      b = minCap st.net.capacity (sink :: l) INT_MAX ∧
      Augments source sink st.net st1.net b ∧
      st1.maxFlow = wrap32 (st.maxFlow + b) := by
  unfold iteration at h
  cases h1 : search st.net st.parent with
  | none => rw [h1] at h; exact Option.noConfusion h
  | some res =>
    rw [h1] at h
    obtain ⟨flag, p1⟩ := res
    cases flag with
    | false => simp at h
    | true =>
      simp only at h
      obtain ⟨l, hl⟩ := hS st.net st.parent p1 hn h1
      unfold augment at h
      cases h2 : pathFlowLoop st.net.capacity p1 source inner sink INT_MAX with
      | none => rw [h2] at h; exact Option.noConfusion h
      | some b =>
        rw [h2] at h
        simp only at h
        cases h3 : updateLoop p1 source b inner sink st.net.capacity with
        | none => rw [h3] at h; exact Option.noConfusion h
        | some cap1 =>
          rw [h3] at h
          simp only [Option.some.injEq] at h
          subst h
          have hlen := nodup_length_le st.net.nodeCount (sink :: l) hl.nodup hl.lt
          simp only [List.length_cons] at hlen
          have e2 := pathFlowLoop_mono _ _ _ inner (max inner st.net.nodeCount) _ _ _
            (le_max_left _ _) h2
          rw [pathFlowLoop_eq st.net p1 source st.net.capacity l sink _ INT_MAX hl
            (by omega)] at e2
          have e3 := updateLoop_mono _ _ _ inner (max inner st.net.nodeCount) _ _ _
            (le_max_left _ _) h3
          rw [updateLoop_eq st.net p1 source b l sink _ st.net.capacity hl (by omega)] at e3
          have eb : b = minCap st.net.capacity (sink :: l) INT_MAX :=
            (Option.some.inj e2).symm
          have ec : cap1 = applyPath wrap32 b (sink :: l) st.net.capacity :=
            (Option.some.inj e3).symm
          exact ⟨l, b, rfl, hl, h2, eb, ⟨p1, l, hl, eb, by rw [ec]⟩, rfl⟩

/-- Every augmentation of a run: the bottleneck is the least capacity on the chain found
and it is positive; when the row of `source` fits in an `int`, it is added to `maxFlow`
without wrap-around. -/
theorem bottleneck_generic
    {search : FlowNetwork → (Nat → Int) → Option (Bool × (Nat → Int))}
    {source sink : Nat} (net : FlowNetwork)
    (hS : SearchSound search source sink net.nodeCount) (inner : Nat)
    (hs : source < net.nodeCount) (hne : source ≠ sink) (hnn : NonNeg net)
    (hint : IsInt32 net)
    (k : Nat) (st st1 : LoopState)
    (h1 : stateAfter search inner source sink k (initState net) = some st)
    (h2 : iteration search inner source sink st = some (some st1)) :
    ∃ l b, IsPath st.net st1.parent source (sink :: l) ∧
      pathFlowLoop st.net.capacity st1.parent source inner sink INT_MAX = some b ∧
      (∀ x p, Adj (sink :: l) x p → b ≤ st.net.capacity p x) ∧
      (∃ x p, Adj (sink :: l) x p ∧ b = st.net.capacity p x) ∧
      0 < b ∧ st1.maxFlow = wrap32 (st.maxFlow + b) ∧
      (rowSum net.nodeCount net.capacity source ≤ INT_MAX →
        0 ≤ st.maxFlow ∧ st1.maxFlow = st.maxFlow + b) := by
  obtain ⟨F, hF, hm⟩ := stateAfter_run hS inner k (initState net) st rfl
    (show wrap32 0 = 0 by decide) h1
  have hrow := hint.rowOK hnn source hs
  obtain ⟨r1, r2, r3⟩ := hF.row hne hrow
  have hint1 := hF.int32 hint
  have hcount : st.net.nodeCount = net.nodeCount := hF.nodeCount
  obtain ⟨l, b, _, hl, hp, eb, haug, hmf⟩ := iteration_detail hS inner st st1 hcount h2
  obtain ⟨q1, q2⟩ := haug.row_step hne r1
  have q3 : 0 ≤ rowSum st1.net.nodeCount st1.net.capacity source :=
    Finset.sum_nonneg (fun c hc => (q1 c (Finset.mem_range.mp hc)).1)
  have hpos := haug.pos
  have r3' : rowSum st.net.nodeCount st.net.capacity source
      = rowSum net.nodeCount net.capacity source - F := r3
  have hm' : st.maxFlow = wrap32 F := by
    have : (initState net).maxFlow = 0 := rfl
    rw [hm, this, zero_add]
  obtain ⟨x, p, hadj, hx⟩ := minCap_is_edge hl hne hint1
  refine ⟨l, b, hl, hp, ?_, ⟨x, p, hadj, by rw [eb, hx]⟩, hpos.1, hmf, fun hsum => ?_⟩
  · intro x p hxp
    rw [eb]; exact minCap_le_adj _ _ _ _ _ hxp
  · have hmF : st.maxFlow = F := by
      rw [hm']; exact wrap32_eq F (by omega) (by omega)
    refine ⟨by omega, ?_⟩
    rw [hmf, hmF]
    exact wrap32_eq _ (by omega) (by omega)

/-- C20, as stated, fails: on the two routes of capacity `INT_MAX`, all capacities
non-negative, `maxFlow` is `INT_MAX` after the first augmentation and `-2` after the
second: the accumulation wraps around and the total decreases. -/
theorem C20_counterexample :
    NonNeg twoRoutes ∧
      (stateAfter (Bfs.bfsFindPath 10 0 3) 10 0 3 1 (initState twoRoutes)).map
        (fun st => st.maxFlow) = some 2147483647 ∧
      (stateAfter (Bfs.bfsFindPath 10 0 3) 10 0 3 2 (initState twoRoutes)).map
        (fun st => st.maxFlow) = some (-2) := by
  decide

/-- C20, amended. For a network of non-negative `int` capacities and in-range
`source ≠ sink`, in every iteration of the loop of `getMaxFlow` that augments, the computed
`pathFlow` is the minimum of `capacity[parent[n]][n]` over the steps of the chain found (at
most each, equal to one of them) and is strictly positive, and `maxFlow` becomes
`maxFlow + pathFlow` wrapped to 32 bits; when the capacities of the edges leaving `source`
add up to at most `INT_MAX`, `maxFlow` is never negative and grows by exactly `pathFlow`.
Both variants. -/
theorem C20_positive_bottleneck (net : FlowNetwork) (source sink : Nat)
    (hr : InRange net source sink) (hne : source ≠ sink) (hnn : NonNeg net)
    (hint : IsInt32 net) :
    (∀ fuel k st st1,
      stateAfter (Bfs.bfsFindPath fuel source sink) fuel source sink k (initState net)
        = some st →
      iteration (Bfs.bfsFindPath fuel source sink) fuel source sink st = some (some st1) →
      ∃ l b, IsPath st.net st1.parent source (sink :: l) ∧
        pathFlowLoop st.net.capacity st1.parent source fuel sink INT_MAX = some b ∧
        (∀ x p, Adj (sink :: l) x p → b ≤ st.net.capacity p x) ∧
        (∃ x p, Adj (sink :: l) x p ∧ b = st.net.capacity p x) ∧
        0 < b ∧ st1.maxFlow = wrap32 (st.maxFlow + b) ∧
        (rowSum net.nodeCount net.capacity source ≤ INT_MAX →
          0 ≤ st.maxFlow ∧ st1.maxFlow = st.maxFlow + b)) ∧
    (∀ fuel k st st1,
      stateAfter (Dfs.search fuel source sink) fuel source sink k (initState net)
        = some st →
      iteration (Dfs.search fuel source sink) fuel source sink st = some (some st1) →
      ∃ l b, IsPath st.net st1.parent source (sink :: l) ∧
        pathFlowLoop st.net.capacity st1.parent source fuel sink INT_MAX = some b ∧
        (∀ x p, Adj (sink :: l) x p → b ≤ st.net.capacity p x) ∧
        (∃ x p, Adj (sink :: l) x p ∧ b = st.net.capacity p x) ∧
        0 < b ∧ st1.maxFlow = wrap32 (st.maxFlow + b) ∧
        (rowSum net.nodeCount net.capacity source ≤ INT_MAX →
          0 ≤ st.maxFlow ∧ st1.maxFlow = st.maxFlow + b)) :=
  ⟨fun fuel k st st1 h1 h2 => bottleneck_generic net
      (Bfs.bfs_searchSound fuel source sink net.nodeCount hr.1) fuel hr.1 hne hnn hint
      k st st1 h1 h2,
    fun fuel k st st1 h1 h2 => bottleneck_generic net
      (Dfs.dfs_searchSound fuel source sink net.nodeCount hr.1) fuel hr.1 hne hnn hint
      k st st1 h1 h2⟩

theorem C20_witness :
    (∃ l b, IsPath scenarioA scenarioABfsFirst.parent 0 (3 :: l) ∧
      pathFlowLoop scenarioA.capacity scenarioABfsFirst.parent 0 10 3 INT_MAX = some b ∧
      (∀ x p, Adj (3 :: l) x p → b ≤ scenarioA.capacity p x) ∧
      (∃ x p, Adj (3 :: l) x p ∧ b = scenarioA.capacity p x) ∧
      0 < b ∧ scenarioABfsFirst.maxFlow = wrap32 (0 + b) ∧
      rowSum scenarioA.nodeCount scenarioA.capacity 0 ≤ INT_MAX ∧
      (0 : Int) ≤ 0 ∧ scenarioABfsFirst.maxFlow = 0 + b) ∧
    (∃ l b, IsPath scenarioA scenarioADfsFirst.parent 0 (3 :: l) ∧
      pathFlowLoop scenarioA.capacity scenarioADfsFirst.parent 0 10 3 INT_MAX = some b ∧
      (∀ x p, Adj (3 :: l) x p → b ≤ scenarioA.capacity p x) ∧
      (∃ x p, Adj (3 :: l) x p ∧ b = scenarioA.capacity p x) ∧
      0 < b ∧ scenarioADfsFirst.maxFlow = wrap32 (0 + b) ∧
      rowSum scenarioA.nodeCount scenarioA.capacity 0 ≤ INT_MAX ∧
      (0 : Int) ≤ 0 ∧ scenarioADfsFirst.maxFlow = 0 + b) := by
  have hsum : rowSum scenarioA.nodeCount scenarioA.capacity 0 ≤ INT_MAX := by decide
  obtain ⟨l, b, a1, a2, a3, a4, a5, a6, a7⟩ :=
    (C20_positive_bottleneck scenarioA 0 3 (by decide) (by decide) (by decide)
      (by decide)).1 10 0 (initState scenarioA) scenarioABfsFirst rfl rfl
  obtain ⟨l2, b2, c1, c2, c3, c4, c5, c6, c7⟩ :=
    (C20_positive_bottleneck scenarioA 0 3 (by decide) (by decide) (by decide)
      (by decide)).2 10 0 (initState scenarioA) scenarioADfsFirst rfl rfl
  exact ⟨⟨l, b, a1, a2, a3, a4, a5, a6, hsum, a7 hsum⟩,
    ⟨l2, b2, c1, c2, c3, c4, c5, c6, hsum, c7 hsum⟩⟩

/-- C18. For every network and in-range `source`, `sink`, whatever the `parent` array holds
on entry, when `bfsFindPath` (bfs.cpp) or `findPath` called from `source` with a fresh
`visited` (dfs.cpp) returns `true`, the chain read by following `parent` from `sink` ends at
`source` after at most `nodeCount - 1` steps, repeats no node, and every step
`(parent[n], n)` has `capacity[parent[n]][n] > 0`. -/
theorem C18_path_validity (net : FlowNetwork) (source sink : Nat)
    (hr : InRange net source sink) :
    (∀ fuel parent parent1,
      Bfs.bfsFindPath fuel source sink net parent = some (true, parent1) →
      ∃ l, IsPath net parent1 source (sink :: l) ∧ l.length ≤ net.nodeCount - 1) ∧
    (∀ fuel parent parent1 visited1,
      Dfs.findPath net sink fuel source parent (fun _ => false)
        = some (true, parent1, visited1) →
      ∃ l, IsPath net parent1 source (sink :: l) ∧ l.length ≤ net.nodeCount - 1) := by
  constructor
  · intro fuel parent parent1 h
    obtain ⟨l, hl⟩ := Bfs.bfs_searchSound fuel source sink net.nodeCount hr.1 net parent
      parent1 rfl h
    have hlen := nodup_length_le net.nodeCount (sink :: l) hl.nodup hl.lt
    simp only [List.length_cons] at hlen
    exact ⟨l, hl, by omega⟩
  · intro fuel parent parent1 visited1 h
    obtain ⟨l, hl⟩ := Dfs.dfs_searchSound fuel source sink net.nodeCount hr.1 net parent
      parent1 rfl (by simp [Dfs.search, h])
    have hlen := nodup_length_le net.nodeCount (sink :: l) hl.nodup hl.lt
    simp only [List.length_cons] at hlen
    exact ⟨l, hl, by omega⟩

theorem C18_witness :
    (∃ l, IsPath scenarioA
        (setVec (setVec (setVec (setVec (fun _ => 3) 0 (-1)) 1 0) 2 0) 3 1) 0 (3 :: l) ∧
      l.length ≤ scenarioA.nodeCount - 1) ∧
    (∃ l, IsPath scenarioA (setVec (setVec (setVec (fun _ => 3) 1 0) 2 1) 3 2) 0 (3 :: l) ∧
      l.length ≤ scenarioA.nodeCount - 1) :=
  ⟨(C18_path_validity scenarioA 0 3 (by decide)).1 10 (fun _ => 3) _ rfl,
    (C18_path_validity scenarioA 0 3 (by decide)).2 10 (fun _ => 3) _
      (setVec (setVec (setVec (setVec (fun _ => false) 0 true) 1 true) 2 true) 3 true) rfl⟩

/-! ## Breadth-first search finds a shortest path -/

theorem WalkLen.head {net : FlowNetwork} {u w v k : Nat} (he : Edge net u w)
    (h : WalkLen net w v k) : WalkLen net u v (k + 1) := by
  induction h with
  | refl => exact WalkLen.tail WalkLen.refl he
  | tail _ he2 ih => exact WalkLen.tail ih he2

theorem IsResidualPath.walk {net : FlowNetwork} {sink : Nat} :
    ∀ {q : List Nat} {source : Nat}, IsResidualPath net source sink q →
      WalkLen net source sink (q.length - 1)
  | [], _, h => by simp [IsResidualPath] at h
  | [x], source, h => by
    obtain ⟨h1, h2, _⟩ := h
    simp only [List.head?_cons, Option.some.injEq] at h1
    simp only [List.getLast?_singleton, Option.some.injEq] at h2
    subst h1; subst h2
    exact WalkLen.refl
  | x :: y :: rest, source, h => by
    obtain ⟨h1, h2, h3⟩ := h
    simp only [List.head?_cons, Option.some.injEq] at h1
    subst h1
    have hc := List.chain'_cons.mp h3
    have hrest : IsResidualPath net y sink (y :: rest) :=
      ⟨rfl, by simpa [List.getLast?_cons_cons] using h2, hc.2⟩
    have := WalkLen.head hc.1 (IsResidualPath.walk hrest)
    simpa using this

namespace Bfs

theorem Inv.pop {net : FlowNetwork} {start sink current : Nat} {st : State} {q : List Nat}
    (hI : Inv net start sink none st) (hq : st.queue = current :: q) :
    Inv net start sink (some current) { st with queue := q } := by
  refine ⟨hI.start_vis, hI.vis_lt, ?_, ?_, hI.path, ?_, hI.sink_vis⟩
  · intro v hv; exact hI.queue_vis v (by rw [hq]; exact List.mem_cons_of_mem _ hv)
  · intro c hc
    simp only [Option.some.injEq] at hc
    subst hc
    exact hI.queue_vis _ (by rw [hq]; exact List.mem_cons_self _ _)
  · intro u hu
    rcases hI.closed u hu with h | h | h
    · exact Option.noConfusion h
    · rw [hq] at h
      rcases List.mem_cons.mp h with e | h
      · exact Or.inl (by rw [e])
      · exact Or.inr (Or.inl h)
    · exact Or.inr (Or.inr h)

theorem Inv.finish {net : FlowNetwork} {start sink current : Nat} {st1 : State}
    (h1 : Inv net start sink (some current) st1)
    (h2 : ∀ v, v < net.nodeCount → 0 < net.capacity current v → st1.visited v = true) :
    Inv net start sink none st1 := by
  refine ⟨h1.start_vis, h1.vis_lt, h1.queue_vis, ?_, h1.path, ?_, h1.sink_vis⟩
  · intro c hc; exact Option.noConfusion hc
  · intro u hu
    rcases h1.closed u hu with h | h | h
    · simp only [Option.some.injEq] at h
      subst h
      exact Or.inr (Or.inr h2)
    · exact Or.inr (Or.inl h)
    · exact Or.inr (Or.inr h)

/-- While the row of `cur` is scanned, every walk from `start` to a node not yet visited
has more edges than the chain of `cur`. -/
theorem Level.far {net : FlowNetwork} {start sink cur : Nat} {depth : Nat → Nat} {st : State}
    (hI : Inv net start sink (some cur) st) (hL : Level net start cur depth st)
    {w k : Nat} (h : WalkLen net start w k) :
    st.visited w = false → depth cur + 1 ≤ k := by
  induction h with
  | refl =>
    intro hw
    rw [hI.start_vis] at hw
    exact Bool.noConfusion hw
  | @tail v w k hwalk he ih =>
    intro hw
    cases hv : st.visited v with
    | false =>
      have := ih hv
      omega
    | true =>
      have hmin := hL.minimal v k hv hwalk
      rcases hI.closed v hv with h | h | h
      · simp only [Option.some.injEq] at h
        subst h
        omega
      · have := (hL.window v h).1
        omega
      · have := h w he.2.1 he.2.2
        rw [hw] at this
        exact Bool.noConfusion this

theorem Level.push_level {net : FlowNetwork} {start sink current next : Nat} {depth : Nat → Nat}
    {st : State} (hI : Inv net start sink (some current) st)
    (hL : Level net start current depth st) (hn : next < net.nodeCount)
    (hv : st.visited next = false) (hcap : 0 < net.capacity current next) :
    Level net start current (setVec depth next (depth current + 1))
      { queue := st.queue ++ [next]
        parent := setVec st.parent next (current : Int)
        visited := setVec st.visited next true } := by
  have hne : ∀ y, st.visited y = true → y ≠ next := by
    intro y hy e; rw [e, hv] at hy; exact Bool.noConfusion hy
  have hmono : ∀ v, st.visited v = true → setVec st.visited next true v = true := by
    intro v h
    rw [setVec_other _ _ _ _ (hne v h)]; exact h
  have hold : ∀ v, v ≠ next → setVec st.visited next true v = true → st.visited v = true := by
    intro v e h
    rwa [setVec_other _ _ _ _ e] at h
  have hcur : st.visited current = true := hI.cur_vis current rfl
  have hkeep : ∀ v, st.visited v = true → ∀ l, IsPath net st.parent start (v :: l) →
      (∀ y ∈ l, st.visited y = true) →
      IsPath net (setVec st.parent next (current : Int)) start (v :: l) := by
    intro v h l hl hall
    refine IsPath.congr hl ?_
    intro y hy
    have hy1 : st.visited y = true := by
      rcases List.mem_cons.mp hy with rfl | hy
      · exact h
      · exact hall y hy
    exact setVec_other _ _ _ _ (hne y hy1)
  have hstart : next ≠ start := fun e => hne start hI.start_vis e.symm
  refine ⟨?_, ?_, ?_, ?_⟩
  · intro v h
    by_cases e : v = next
    · subst e
      obtain ⟨l, hl, hlen, hall⟩ := hL.chain current hcur
      refine ⟨current :: l, ?_, by simp [hlen], ?_⟩
      · have hrest := hkeep current hcur l hl hall
        show IsPath net _ start (v :: current :: l)
        simp only [IsPath]
        refine ⟨hstart, hn, by simp, hcap, ?_, hrest⟩
        intro hm
        have : st.visited v = true := by
          rcases List.mem_cons.mp hm with e | hm
          · rw [e]; exact hcur
          · exact hall v hm
        rw [hv] at this; exact Bool.noConfusion this
      · intro y hy
        rcases List.mem_cons.mp hy with e | hy
        · rw [e]; exact hmono _ hcur
        · exact hmono _ (hall y hy)
    · obtain ⟨l, hl, hlen, hall⟩ := hL.chain v (hold v e h)
      exact ⟨l, hkeep v (hold v e h) l hl hall, by rw [setVec_other _ _ _ _ e]; exact hlen,
        fun y hy => hmono _ (hall y hy)⟩
  · intro v k h hw
    by_cases e : v = next
    · subst e
      rw [setVec_same]
      exact hL.far hI hw hv
    · rw [setVec_other _ _ _ _ e]
      exact hL.minimal v k (hold v e h) hw
  · show (st.queue ++ [next]).Pairwise _
    rw [List.pairwise_append]
    refine ⟨?_, List.pairwise_singleton _ _, ?_⟩
    · refine hL.sorted.imp_of_mem ?_
      intro a b ha hb hab
      rw [setVec_other _ _ _ _ (hne a (hI.queue_vis a ha)),
        setVec_other _ _ _ _ (hne b (hI.queue_vis b hb))]
      exact hab
    · intro a ha b hb
      simp only [List.mem_singleton] at hb
      subst hb
      rw [setVec_other _ _ _ _ (hne a (hI.queue_vis a ha)), setVec_same]
      exact (hL.window a ha).2
  · intro x hx
    rw [setVec_other _ _ _ _ (hne current hcur)]
    rcases List.mem_append.mp hx with hx | hx
    · rw [setVec_other _ _ _ _ (hne x (hI.queue_vis x hx))]
      exact hL.window x hx
    · simp only [List.mem_singleton] at hx
      subst hx
      rw [setVec_same]
      omega

end Bfs

namespace Bfs

theorem Inv.init (net : FlowNetwork) (start sink : Nat) (parent : Nat → Int)
    (hs : start < net.nodeCount) :
    Inv net start sink none
      { queue := [start]
        visited := setVec (fun _ => false) start true
        parent := setVec parent start (-1) } := by
  refine ⟨by simp, ?_, ?_, ?_, ?_, ?_, ?_⟩
  · intro v hv
    by_cases e : v = start
    · rw [e]; exact hs
    · simp [setVec_other _ _ _ _ e] at hv
  · intro v hv
    simp only [List.mem_singleton] at hv
    simp [hv]
  · intro c hc; exact Option.noConfusion hc
  · intro v hv
    by_cases e : v = start
    · exact ⟨[], by simp [IsPath, e, hs], by simp⟩
    · simp [setVec_other _ _ _ _ e] at hv
  · intro u hu
    by_cases e : u = start
    · right; left; simp [e]
    · simp [setVec_other _ _ _ _ e] at hu
  · intro h
    by_cases e : sink = start
    · exact e.symm
    · simp [setVec_other _ _ _ _ e] at h

theorem LevelQ.init_level (net : FlowNetwork) (start : Nat) (parent : Nat → Int)
    (hs : start < net.nodeCount) :
    LevelQ net start (fun _ => 0)
      { queue := [start]
        visited := setVec (fun _ => false) start true
        parent := setVec parent start (-1) } := by
  refine ⟨?_, ?_, ?_, ?_⟩
  · intro v hv
    by_cases e : v = start
    · exact ⟨[], by simp [IsPath, e, hs], rfl, by simp⟩
    · simp [setVec_other _ _ _ _ e] at hv
  · intro v k _ _; exact Nat.zero_le _
  · exact List.pairwise_singleton _ _
  · intro x _ y _; exact Nat.zero_le _

theorem LevelQ.pop_level {net : FlowNetwork} {start current : Nat} {depth : Nat → Nat} {st : State}
    {q : List Nat} (hL : LevelQ net start depth st) (hq : st.queue = current :: q) :
    Level net start current depth { st with queue := q } := by
  have hs := hL.sorted
  rw [hq, List.pairwise_cons] at hs
  refine ⟨hL.chain, hL.minimal, hs.2, ?_⟩
  intro x hx
  refine ⟨hs.1 x hx, hL.window current ?_ x ?_⟩
  · rw [hq]; exact List.mem_cons_self _ _
  · rw [hq]; exact List.mem_cons_of_mem _ hx

theorem Level.finish_level {net : FlowNetwork} {start current : Nat} {depth : Nat → Nat}
    {st : State} (hL : Level net start current depth st) : LevelQ net start depth st := by
  refine ⟨hL.chain, hL.minimal, hL.sorted, ?_⟩
  intro x hx y hy
  have := hL.window x hx
  have := hL.window y hy
  omega

/-- Level contract of the scan of one row: a `return true` comes with a chain of parents no
longer than any walk from `start` to `sink`; otherwise the level invariant still holds. -/
theorem scan_level (net : FlowNetwork) (start sink current : Nat) :
    ∀ (nexts : List Nat) (st : State) (depth : Nat → Nat),
      Inv net start sink (some current) st → Level net start current depth st →
      (∀ x ∈ nexts, x < net.nodeCount) →
      ∀ flag st1, scan net.capacity sink current nexts st = (flag, st1) →
        (flag = true → ∃ l, IsPath net st1.parent start (sink :: l) ∧
          ∀ k, WalkLen net start sink k → l.length ≤ k) ∧
        (flag = false → ∃ depth1, Level net start current depth1 st1)
  | [], st, depth, _, hL, _, flag, st1, h => by
    simp only [scan, Prod.mk.injEq] at h
    obtain ⟨rfl, rfl⟩ := h
    exact ⟨fun h => Bool.noConfusion h, fun _ => ⟨depth, hL⟩⟩
  | next :: rest, st, depth, hI, hL, hlt, flag, st1, h => by
    have hn : next < net.nodeCount := hlt next (List.mem_cons_self _ _)
    have hrest : ∀ x ∈ rest, x < net.nodeCount := fun x hx => hlt x (List.mem_cons_of_mem _ hx)
    rw [scan] at h
    by_cases hc : ((!st.visited next) && decide (0 < net.capacity current next)) = true
    · rw [if_pos hc] at h
      simp only [Bool.and_eq_true, Bool.not_eq_true', decide_eq_true_eq] at hc
      obtain ⟨hv, hcap⟩ := hc
      by_cases hs : next = sink
      · rw [if_pos hs] at h
        simp only [Prod.mk.injEq] at h
        obtain ⟨rfl, rfl⟩ := h
        refine ⟨fun _ => ?_, fun h => Bool.noConfusion h⟩
        subst hs
        have hcur : st.visited current = true := hI.cur_vis current rfl
        have hstart : start ≠ next := by
          intro e; have := hI.start_vis; rw [e, hv] at this; exact Bool.noConfusion this
        obtain ⟨l, hl, hlen, hall⟩ := hL.chain current hcur
        refine ⟨current :: l, ?_, ?_⟩
        · show IsPath net (setVec st.parent next (current : Int)) start (next :: current :: l)
          simp only [IsPath]
          refine ⟨Ne.symm hstart, hn, by simp, hcap, ?_, ?_⟩
          · intro hm
            have : st.visited next = true := by
              rcases List.mem_cons.mp hm with e | hm
              · rw [e]; exact hcur
              · exact hall next hm
            rw [hv] at this; exact Bool.noConfusion this
          · refine IsPath.congr hl ?_
            intro y hy
            have hy1 : st.visited y = true := by
              rcases List.mem_cons.mp hy with e | hy
              · rw [e]; exact hcur
              · exact hall y hy
            have : y ≠ next := by intro e; rw [e, hv] at hy1; exact Bool.noConfusion hy1
            exact setVec_other _ _ _ _ this
        · intro k hw
          have := hL.far hI hw hv
          simp only [List.length_cons]
          omega
      · rw [if_neg hs] at h
        exact scan_level net start sink current rest _ _ (Inv.push hI hn hv hcap hs)
          (Level.push_level hI hL hn hv hcap) hrest flag st1 h
    · rw [if_neg hc] at h
      exact scan_level net start sink current rest st depth hI hL hrest flag st1 h

/-- Level contract of the queue loop: a `true` comes with a chain of parents no longer than
any walk from `start` to `sink`. -/
theorem loop_level (net : FlowNetwork) (start sink : Nat) :
    ∀ (fuel : Nat) (st : State) (depth : Nat → Nat), Inv net start sink none st →
      LevelQ net start depth st →
      ∀ parent1, loop net sink fuel st = some (true, parent1) →
        ∃ l, IsPath net parent1 start (sink :: l) ∧
          ∀ k, WalkLen net start sink k → l.length ≤ k
  | 0, _, _, _, _, _, h => by simp [loop] at h
  | fuel + 1, st, depth, hI, hL, parent1, h => by
    rw [loop] at h
    cases hq : st.queue with
    | nil =>
      rw [hq] at h
      simp at h
    | cons current q =>
      rw [hq] at h
      simp only at h
      have hI0 := Inv.pop hI hq
      have hL0 := LevelQ.pop_level hL hq
      cases hsc : scan net.capacity sink current (List.range net.nodeCount)
          { st with queue := q } with
      | mk flag st1 =>
        rw [hsc] at h
        obtain ⟨ht, hf⟩ := scan_level net start sink current _ _ depth hI0 hL0
          (fun x hx => List.mem_range.mp hx) flag st1 hsc
        obtain ⟨_, hf0⟩ := bfs_scan_spec net start sink current _ _ hI0
          (fun x hx => List.mem_range.mp hx) flag st1 hsc
        cases flag with
        | true =>
          simp only [Option.some.injEq, Prod.mk.injEq, true_and] at h
          subst h
          exact ht rfl
        | false =>
          simp only at h
          obtain ⟨depth1, hL1⟩ := hf rfl
          obtain ⟨h1, h2, _, _⟩ := hf0 rfl
          exact loop_level net start sink fuel st1 depth1
            (Inv.finish h1 (fun v hv hc => h2 v (List.mem_range.mpr hv) hc))
            hL1.finish_level parent1 h

/-- Every `true` of `bfsFindPath` comes with a chain of parents from `sink` back to `start`
that has no more steps than any walk of residual edges from `start` to `sink`. -/
theorem bfsFindPath_shortest (net : FlowNetwork) (start sink : Nat) (hs : start < net.nodeCount)
    (fuel : Nat) (parent parent1 : Nat → Int)
    (h : bfsFindPath fuel start sink net parent = some (true, parent1)) :
    ∃ l, IsPath net parent1 start (sink :: l) ∧
      ∀ k, WalkLen net start sink k → l.length ≤ k :=
  loop_level net start sink fuel _ _ (Inv.init net start sink parent hs)
    (LevelQ.init_level net start parent hs) parent1 h

end Bfs

theorem IsPath.chain_unique {net : FlowNetwork} {parent : Nat → Int} {source : Nat} :
    ∀ {l1 l2 : List Nat} {x : Nat}, IsPath net parent source (x :: l1) →
      IsPath net parent source (x :: l2) → l1 = l2
  | [], [], _, _, _ => rfl
  | [], _ :: _, _, h1, h2 => by
    simp only [IsPath] at h1 h2
    exact absurd h1.1 h2.1
  | _ :: _, [], _, h1, h2 => by
    simp only [IsPath] at h1 h2
    exact absurd h2.1 h1.1
  | p1 :: r1, p2 :: r2, x, h1, h2 => by
    simp only [IsPath] at h1 h2
    have e : p1 = p2 := by
      have := h1.2.2.1.symm.trans h2.2.2.1
      exact_mod_cast this
    subst e
    rw [IsPath.chain_unique h1.2.2.2.2.2 h2.2.2.2.2.2]

theorem IsPath.residual {net : FlowNetwork} {parent : Nat → Int} {source : Nat} :
    ∀ {l : List Nat} {x : Nat}, IsPath net parent source (x :: l) →
      IsResidualPath net source x (x :: l).reverse
  | [], x, h => by
    simp only [IsPath] at h
    refine ⟨by simp [h.1], by simp, by simp⟩
  | p :: rest, x, h => by
    have hlt := IsPath.lt h
    simp only [IsPath] at h
    obtain ⟨_, hx, _, hcap, _, hrest⟩ := h
    obtain ⟨i1, i2, i3⟩ := IsPath.residual hrest
    have hne : (p :: rest).reverse ≠ [] := by simp
    have e : (x :: p :: rest).reverse = (p :: rest).reverse ++ [x] := by simp
    rw [e]
    refine ⟨?_, by simp, ?_⟩
    · rw [List.head?_append_of_ne_nil _ hne]; exact i1
    · rw [List.chain'_append]
      refine ⟨i3, by simp, ?_⟩
      intro a ha b hb
      rw [i2] at ha
      simp only [Option.mem_def, Option.some.injEq, List.head?_cons] at ha hb
      subst ha; subst hb
      exact ⟨hlt p (by simp), hx, hcap⟩

/-- C19. For every network and in-range `source`, `sink`: when `bfsFindPath` returns `true`
(with any fuel and any previous contents of `parent`), the chain read by following `parent`
from `sink` back to `source` is unique, is itself a path of edges with capacity `> 0` from
`source` to `sink`, and has no more edges than any list of nodes that starts at `source`, ends
at `sink` and joins consecutive nodes by edges with capacity `> 0`. -/
theorem C19_bfs_shortest_path (net : FlowNetwork) (source sink : Nat)
    (hr : InRange net source sink) :
    ∀ (fuel : Nat) (parent parent1 : Nat → Int),
      Bfs.bfsFindPath fuel source sink net parent = some (true, parent1) →
      ∃ l, IsPath net parent1 source (sink :: l) ∧
        (∀ l2, IsPath net parent1 source (sink :: l2) → l2 = l) ∧
        IsResidualPath net source sink (sink :: l).reverse ∧
        (sink :: l).reverse.length - 1 = l.length ∧
        ∀ q, IsResidualPath net source sink q → l.length ≤ q.length - 1 := by
  intro fuel parent parent1 h
  obtain ⟨l, hl, hmin⟩ := Bfs.bfsFindPath_shortest net source sink hr.1 fuel parent parent1 h
  exact ⟨l, hl, fun l2 h2 => IsPath.chain_unique h2 hl, IsPath.residual hl, by simp,
    fun q hq => hmin _ hq.walk⟩

theorem C19_witness :
    ∃ l, IsPath scenarioA
        (setVec (setVec (setVec (setVec (fun _ => 3) 0 (-1)) 1 0) 2 0) 3 1) 0 (3 :: l) ∧
      (∀ l2, IsPath scenarioA
        (setVec (setVec (setVec (setVec (fun _ => 3) 0 (-1)) 1 0) 2 0) 3 1) 0 (3 :: l2) →
          l2 = l) ∧
      IsResidualPath scenarioA 0 3 (3 :: l).reverse ∧
      (3 :: l).reverse.length - 1 = l.length ∧
      ∀ q, IsResidualPath scenarioA 0 3 q → l.length ≤ q.length - 1 :=
  C19_bfs_shortest_path scenarioA 0 3 (by decide) 10 (fun _ => 3) _ rfl

end FlowNet
